import Mathlib

/-!
# Verification development for `baseline` (graph-search examples)

Shallow embedding of

* `examples/dijkstra/kernel/include/heap.hpp` (`DynHeap`),
* `examples/dijkstra/kernel/small_list_dijkstra/kernel.cpp` (`dijkstra`),
* `examples/ipnsw/ipnsw.cpp` (`Main`),
* `examples/sparse_matrix_matrix_multiply/sparse_matrix_matrix_multiply.cpp`
  (the dense-to-CSR conversion),

followed by the theorems that settle the specification claims about them.

Conventions of the embedding.

* A C array is a `List`; every read and write is bounds-checked.  An access
  outside the array is undefined behaviour in C++ and is reported as `none`.
* C `int` values are `Int`; array positions are converted with `Int.toNat`
  after the sign has been checked.
* `float` values are taken in a type with `<`, `+`, `0` and `⊤` (`+infinity`).  The
  kernel is defined over any such type; the theorems assume the laws `FloatArith`,
  which do not include associativity or exactness of `+`.  `F32` is IEEE 754
  binary32 restricted to the non-negative values and `+infinity`, with sums
  rounded to nearest, ties to even; it satisfies the laws.
-/

set_option autoImplicit false
set_option maxRecDepth 100000
set_option linter.unusedSectionVars false

/-! ## Part 1. Definitions -/

/-! ### Bounds-checked array access -/

/-- Read `a[i]` for a C `int` index; `none` when `i` is outside the array. -/
def rd {β : Type} (a : List β) (i : Int) : Option β :=
  if 0 ≤ i then a[i.toNat]? else none

/-- Write `a[i] = x` for a C `int` index; `none` when `i` is outside the array. -/
def wr {β : Type} (a : List β) (i : Int) (x : β) : Option (List β) :=
  if 0 ≤ i ∧ i < (a.length : Int) then some (a.set i.toNat x) else none

/-! ### `std::push_heap` and `std::pop_heap`

`heap.hpp` calls the two standard algorithms.  They are embedded from the
libstdc++ implementation (`bits/stl_heap.h`), statement by statement.  Both
work in place on the array `first` and only touch positions below `last`.
The loops are given a fuel argument that is an upper bound on the number of
iterations (the hole index moves strictly towards the root, respectively
strictly towards the leaves), so that the definitions are structurally
recursive and evaluate by computation. -/

/-- The loop of `std::__push_heap(first, holeIndex, topIndex, value, comp)`:
```
parent = (holeIndex - 1) / 2;
while (holeIndex > topIndex && comp(first + parent, value)) {
  *(first + holeIndex) = *(first + parent);
  holeIndex = parent;
  parent = (holeIndex - 1) / 2;
}
*(first + holeIndex) = value;
```
`fuel` bounds the iterations; `holeIndex ≤ fuel` is always enough. -/
def __push_heap {T : Type} (comp : T → T → Bool) :
    Nat → List T → Nat → Nat → T → List T
  | 0, first, holeIndex, _, value => first.set holeIndex value
  | fuel + 1, first, holeIndex, topIndex, value =>
    let parent := (holeIndex - 1) / 2
    if holeIndex > topIndex ∧ comp (first.getD parent value) value = true then
      __push_heap comp fuel (first.set holeIndex (first.getD parent value))
        parent topIndex value
    else
      first.set holeIndex value

/-- The algorithm `std::push_heap(first, first + last, comp)`:
```
value = *(last - 1);
__push_heap(first, (last - first) - 1, 0, value, comp);
```
-/
def push_heap {T : Type} (comp : T → T → Bool) (first : List T) (last : Nat) : List T :=
  match first[last - 1]? with
  | some value => __push_heap comp (last - 1) first (last - 1) 0 value
  | none => first

/-- The first loop of `std::__adjust_heap`, which moves the hole down to a
vertex with fewer than two children, always towards the larger child:
```
while (secondChild < (len - 1) / 2) {
  secondChild = 2 * (secondChild + 1);
  if (comp(first + secondChild, first + (secondChild - 1))) secondChild--;
  *(first + holeIndex) = *(first + secondChild);
  holeIndex = secondChild;
}
```
Returns the array and the final `holeIndex` (which equals `secondChild`). -/
def __adjust_heap_loop {T : Type} (comp : T → T → Bool) (value : T) :
    Nat → List T → Nat → Nat → List T × Nat
  | 0, first, holeIndex, _ => (first, holeIndex)
  | fuel + 1, first, holeIndex, len =>
    if holeIndex < (len - 1) / 2 then
      let secondChild := 2 * (holeIndex + 1)
      let secondChild :=
        if comp (first.getD secondChild value) (first.getD (secondChild - 1) value) = true
        then secondChild - 1 else secondChild
      __adjust_heap_loop comp value fuel
        (first.set holeIndex (first.getD secondChild value)) secondChild len
    else
      (first, holeIndex)

/-- The algorithm `std::__adjust_heap(first, holeIndex, len, value, comp)`:
the loop above, then
```
if ((len & 1) == 0 && secondChild == (len - 2) / 2) {
  secondChild = 2 * (secondChild + 1);
  *(first + holeIndex) = *(first + (secondChild - 1));
  holeIndex = secondChild - 1;
}
__push_heap(first, holeIndex, topIndex, value, comp);
```
It is only ever called with `len ≥ 1`. -/
def __adjust_heap {T : Type} (comp : T → T → Bool) (first : List T)
    (holeIndex len : Nat) (value : T) : List T :=
  let topIndex := holeIndex
  let r := __adjust_heap_loop comp value len first holeIndex len
  let first := r.1
  let holeIndex := r.2
  let secondChild := r.2
  if len % 2 = 0 ∧ secondChild = (len - 2) / 2 then
    let secondChild := 2 * (secondChild + 1)
    let first := first.set holeIndex (first.getD (secondChild - 1) value)
    let holeIndex := secondChild - 1
    __push_heap comp holeIndex first holeIndex topIndex value
  else
    __push_heap comp holeIndex first holeIndex topIndex value

/-- The algorithm `std::__pop_heap(first, first + last, first + result, comp)`:
```
value = *result;
*result = *first;
__adjust_heap(first, 0, last - first, value, comp);
```
-/
def __pop_heap {T : Type} (comp : T → T → Bool) (first : List T) (last result : Nat) :
    List T :=
  match first[result]?, first[0]? with
  | some value, some top => __adjust_heap comp (first.set result top) 0 last value
  | _, _ => first

/-- The algorithm `std::pop_heap(first, first + last, comp)`:
```
if (last - first > 1) { --last; __pop_heap(first, last, last, comp); }
```
`last` is a C `int` here because `DynHeap::pop` passes `_data + _n` without
checking `_n`. -/
def pop_heap {T : Type} (comp : T → T → Bool) (first : List T) (last : Int) : List T :=
  if last > 1 then __pop_heap comp first (last - 1).toNat (last - 1).toNat else first

/-! ### `DynHeap` (`heap.hpp`) -/

/-- The class `DynHeap<T, Comparitor>`: the element count `_n`, the capacity
`_data_N`, the backing buffer `_data` and the comparator `_c`. -/
structure DynHeap (T : Type) where
  _n : Int
  _data_N : Int
  _data : List T
  _c : T → T → Bool

/-- The constructor `DynHeap(T *data, int N, Comparitor c)`. -/
def DynHeap.mk0 {T : Type} (data : List T) (N : Int) (c : T → T → Bool) : DynHeap T :=
  { _n := 0, _data_N := N, _data := data, _c := c }

/-- Method `empty()`: `return _n == 0;`. -/
def DynHeap.empty {T : Type} (h : DynHeap T) : Bool := h._n == 0

/-- Method `size()`: `return _n;`. -/
def DynHeap.size {T : Type} (h : DynHeap T) : Int := h._n

/-- Method `top()`: `return _data[0];`. -/
def DynHeap.top {T : Type} (h : DynHeap T) : Option T := rd h._data 0

/-- Method `pop()`:
```
std::pop_heap(_data, _data+_n--, _c);
return _data[_n];
```
The returned value is `none` when `_data[_n]` lies outside the buffer. -/
def DynHeap.pop {T : Type} (h : DynHeap T) : DynHeap T × Option T :=
  let data := pop_heap h._c h._data h._n
  let n := h._n - 1
  ({ h with _n := n, _data := data }, rd data n)

/-- Method `push(T i)`:
```
_data[_n++] = i;
std::push_heap(_data, _data+_n, _c);
if (_n > _data_N) pop();
```
The result is `none` when the write `_data[_n] = i` lies outside the buffer. -/
def DynHeap.push {T : Type} (h : DynHeap T) (i : T) : Option (DynHeap T) :=
  match wr h._data h._n i with
  | none => none
  | some data =>
    let n := h._n + 1
    let h1 : DynHeap T := { h with _n := n, _data := push_heap h._c data n.toNat }
    if n > h._data_N then some h1.pop.1 else some h1

/-- Pushes a sequence of candidates, in order, with no pops in between. -/
def DynHeap.pushAll {T : Type} (h : DynHeap T) : List T → Option (DynHeap T)
  | [] => some h
  | x :: xs => (h.push x).bind (fun h1 => h1.pushAll xs)

/-- The candidates currently held: `_data[0 .. _n)`. -/
def DynHeap.held {T : Type} (h : DynHeap T) : List T := h._data.take h._n.toNat

/-! ### Specification vocabulary for the heap -/

section HeapSpec
variable {T : Type}

/-- C++ named requirement *Compare*: a strict weak ordering. -/
structure StrictWeakOrder {T : Type} (c : T → T → Bool) : Prop where
  irrefl : ∀ a, c a a = false
  trans : ∀ a b d, c a b = true → c b d = true → c a d = true
  incomp_trans : ∀ a b d, c a b = false → c b a = false → c b d = false → c d b = false →
    c a d = false ∧ c d a = false

/-- The prefix `first[0 .. n)` is a heap with respect to `comp`. -/
def IsHeap {T : Type} (comp : T → T → Bool) (first : List T) (n : Nat) : Prop :=
  n ≤ first.length ∧
  ∀ j x y, 0 < j → j < n → first[(j - 1) / 2]? = some x → first[j]? = some y → comp x y = false

/-- Heap order on `first[0 .. n)`, read with a default value. -/
def HeapD (c : T → T → Bool) (v : T) (l : List T) (n : Nat) : Prop :=
  ∀ j, 0 < j → j < n → c (l.getD ((j - 1) / 2) v) (l.getD j v) = false

/-- Invariant of the sift-up loop: `l[0 .. n)` is heap-ordered except around the
hole `h`; the value `v` and the hole's parent both dominate the hole's children. -/
structure HoleInv (c : T → T → Bool) (v : T) (l : List T) (n h : Nat) : Prop where
  hn : h < n
  len : n ≤ l.length
  away : ∀ j, 0 < j → j < n → j ≠ h → (j - 1) / 2 ≠ h →
    c (l.getD ((j - 1) / 2) v) (l.getD j v) = false
  below : ∀ k, 0 < k → k < n → (k - 1) / 2 = h → c v (l.getD k v) = false
  skip : ∀ k, 0 < k → k < n → (k - 1) / 2 = h → 0 < h →
    c (l.getD ((h - 1) / 2) v) (l.getD k v) = false

/-- Invariant of the sift-down loop of `__adjust_heap`: `l[0 .. n)` is heap-ordered
at every position except the hole `h`, and the hole's parent dominates the hole's
children. -/
structure DownInv (c : T → T → Bool) (v : T) (l : List T) (n h : Nat) : Prop where
  hn : h < n
  len : n ≤ l.length
  ord : ∀ j, 0 < j → j < n → j ≠ h → c (l.getD ((j - 1) / 2) v) (l.getD j v) = false
  skip : ∀ k, 0 < k → k < n → (k - 1) / 2 = h → 0 < h →
    c (l.getD ((h - 1) / 2) v) (l.getD k v) = false

/-- Representation invariant of a `DynHeap` whose buffer has room for one
candidate more than the capacity. -/
structure DynHeap.Inv (h : DynHeap T) : Prop where
  n_nonneg : 0 ≤ h._n
  n_le : h._n ≤ h._data_N
  cap : h._data_N < h._data.length
  heap : IsHeap h._c h._data h._n.toNat

/-- Ghost bookkeeping for a run of pushes: `ps` are the candidates pushed so far and
`ev` the ones `push` has evicted. -/
structure DynHeap.Tracks (h : DynHeap T) (ps ev : List T) : Prop where
  inv : h.Inv
  perm : List.Perm ps (h.held ++ ev)
  dom : ∀ x ∈ h.held, ∀ y ∈ ev, h._c y x = false
  size : h._n = min (ps.length : Int) h._data_N

end HeapSpec

/-- Comparing naturals by `<`. -/
def natLt (a b : Nat) : Bool := decide (a < b)

/-- Comparing `(vertex_id, distance)` candidates by distance only. -/
def byDistance (a b : Nat × Nat) : Bool := decide (a.2 < b.2)

/-! ### The `dijkstra` kernel (`small_list_dijkstra/kernel.cpp`)

Distances and weights live in a type `α` that carries what the kernel uses of
`float`: the comparison `<`, the addition `+`, the constant `0.0` and
`+infinity`, written `⊤`.  A value is *finite* when it is not `⊤`.  The
definitions only use these operations; the theorems assume the laws
`FloatArith` about them, which hold for `float` addition with its rounding. -/

/-- The `struct graph` the kernel receives (declared in `graph.hpp`); the kernel uses
the fields `V`, `E`, `offsets`, `neighbors` and `weights`. -/
structure graph (α : Type) where
  V : Int
  E : Int
  offsets : List Int
  neighbors : List Int
  weights : List α

/-- A kernel-local array `T a[n]` filled by `memcpy(a, src, sizeof(T)*n)`: the first
`n` elements of `src`; `none` when `src` has fewer than `n` elements. -/
def memcpy {β : Type} (src : List β) (n : Int) : Option (List β) :=
  if 0 ≤ n ∧ n ≤ (src.length : Int) then some (src.take n.toNat) else none

/-- The variables of the kernel that the relaxation loop reads and writes. -/
structure KState (α : Type) where
  distance : List α
  path : List Int
  best : Int
  next_best : Int

/-- The laws of `float` arithmetic that the theorems about the kernel rely on, for
the values a distance or a weight takes (non-negative or `+infinity`, never NaN):
`+infinity` is the greatest value, adding `0.0` changes nothing, and the rounded
sum is monotone in its second operand.  Addition is not assumed to be
associative or exact: `a + b` is the rounded sum, and it may be `+infinity` for
finite `a` and `b`. -/
class FloatArith (α : Type) [LinearOrder α] [Zero α] [Add α] [Top α] : Prop where
  le_top : ∀ a : α, a ≤ ⊤
  zero_add : ∀ a : α, 0 + a = a
  add_zero : ∀ a : α, a + 0 = a
  add_le_add_left : ∀ a b : α, a ≤ b → ∀ c : α, c + a ≤ c + b

section Kernel
variable {α : Type} [LinearOrder α] [Zero α] [Add α] [Top α]

/-- The body of the `while` loop of `dijkstra`:
```
best = next_best;
float d_best = distance[best];
int dst_n = best == g.V-1 ? (g.E - g.offsets[best]) : (g.offsets[best+1] - g.offsets[best]);
if (dst_n == 0) continue;
int dst_0 = g.offsets[best];
int dst = g.neighbors[dst_0];
float w = g.weights[dst_0];
if (d_best+w < distance[dst]) {
  distance[dst] = d_best+w;
  path[dst] = best;
  next_best = dst;
}
```
-/
def dijkstra_body (g : graph α) (s : KState α) : Option (KState α) :=
  let best := s.next_best
  (rd s.distance best).bind fun d_best =>
  (rd g.offsets best).bind fun off =>
  (if best = g.V - 1 then some (g.E - off)
   else (rd g.offsets (best + 1)).bind fun off1 => some (off1 - off)).bind fun dst_n =>
  if dst_n = 0 then some { s with best := best }
  else
    let dst_0 := off
    (rd g.neighbors dst_0).bind fun dst =>
    (rd g.weights dst_0).bind fun w =>
    (rd s.distance dst).bind fun d_dst =>
    if d_best + w < d_dst then
      (wr s.distance dst (d_best + w)).bind fun distance =>
      (wr s.path dst best).bind fun path =>
      some { distance := distance, path := path, best := best, next_best := dst }
    else some { s with best := best }

/-- The loop `while (best != next_best && best != goal) { ... }`, run for at most
`fuel` iterations; `none` when more iterations would be needed or when an
array access is out of bounds. -/
def dijkstra_loop (g : graph α) (goal : Int) : Nat → KState α → Option (KState α)
  | 0, s => if s.best ≠ s.next_best ∧ s.best ≠ goal then none else some s
  | fuel + 1, s =>
    if s.best ≠ s.next_best ∧ s.best ≠ goal then
      (dijkstra_body g s).bind (dijkstra_loop g goal fuel)
    else some s

/-- The kernel `dijkstra(g_mem, root, goal, distance_mem, path_mem, unused)`.  It
copies the graph, `distance_mem` and `path_mem` into local arrays of `g.V`
(respectively `g.E`) elements, sets `distance[root] = 0`, `path[root] = root`,
`next_best = root`, `best = !next_best`, runs the loop, copies `distance` and
`path` back and returns 0.  The result is the return value together with the
final contents of `distance_mem` and `path_mem`. -/
def dijkstra (fuel : Nat) (g_mem : graph α) (root goal : Int) (distance_mem : List α)
    (path_mem : List Int) : Option (Int × List α × List Int) :=
  (memcpy distance_mem g_mem.V).bind fun distance =>
  (memcpy path_mem g_mem.V).bind fun path =>
  (memcpy g_mem.offsets g_mem.V).bind fun offsets =>
  (memcpy g_mem.neighbors g_mem.E).bind fun neighbors =>
  (memcpy g_mem.weights g_mem.E).bind fun weights =>
  let g : graph α := { g_mem with offsets := offsets, neighbors := neighbors, weights := weights }
  (wr distance root 0).bind fun distance =>
  (wr path root root).bind fun path =>
  let next_best := root
  let best : Int := if next_best = 0 then 1 else 0
  (dijkstra_loop g goal fuel
      { distance := distance, path := path, best := best, next_best := next_best }).bind fun s =>
  some (0, s.distance ++ distance_mem.drop g_mem.V.toNat, s.path ++ path_mem.drop g_mem.V.toNat)

/-- The relaxation loop instrumented with the vertices it expands: the same loop as
`dijkstra_loop`, which in addition lists the value that `best = next_best` takes in
each iteration, in order.  The length of the list is the number of iterations. -/
def dijkstra_loop_trace (g : graph α) (goal : Int) :
    Nat → KState α → Option (List Int × KState α)
  | 0, s => if s.best ≠ s.next_best ∧ s.best ≠ goal then none else some ([], s)
  | fuel + 1, s =>
    if s.best ≠ s.next_best ∧ s.best ≠ goal then
      (dijkstra_body g s).bind fun s1 =>
        (dijkstra_loop_trace g goal fuel s1).bind fun r => some (s1.best :: r.1, r.2)
    else some ([], s)

/-- The kernel `dijkstra` instrumented in the same way: the vertices that the
relaxation loop expands, in order. -/
def dijkstra_expanded (fuel : Nat) (g_mem : graph α) (root goal : Int) (distance_mem : List α)
    (path_mem : List Int) : Option (List Int) :=
  (memcpy distance_mem g_mem.V).bind fun distance =>
  (memcpy path_mem g_mem.V).bind fun path =>
  (memcpy g_mem.offsets g_mem.V).bind fun offsets =>
  (memcpy g_mem.neighbors g_mem.E).bind fun neighbors =>
  (memcpy g_mem.weights g_mem.E).bind fun weights =>
  let g : graph α := { g_mem with offsets := offsets, neighbors := neighbors, weights := weights }
  (wr distance root 0).bind fun distance =>
  (wr path root root).bind fun path =>
  let next_best := root
  let best : Int := if next_best = 0 then 1 else 0
  (dijkstra_loop_trace g goal fuel
      { distance := distance, path := path, best := best, next_best := next_best }).bind fun r =>
  some r.1

/-! ### Specification vocabulary for graphs -/

/-- End of the adjacency range of `u`: `offsets[u+1]`, or `E` for the last vertex. -/
def graph.next_offset (g : graph α) (u : Int) : Option Int :=
  if u = g.V - 1 then some g.E else rd g.offsets (u + 1)

/-- The edge stored at position `k` of the adjacency range of `u`: its target and its
weight; `none` when `k` is not in the adjacency range of `u`. -/
def graph.edgeAt (g : graph α) (u k : Int) : Option (Int × α) :=
  (rd g.offsets u).bind fun lo =>
  (g.next_offset u).bind fun hi =>
  if lo ≤ k ∧ k < hi then
    (rd g.neighbors k).bind fun v => (rd g.weights k).bind fun w => some (v, w)
  else none

/-- The graph has an edge `u → v` of weight `w`. -/
def graph.HasEdge (g : graph α) (u v : Int) (w : α) : Prop :=
  ∃ k, g.edgeAt u k = some (v, w)

/-- Target and accumulated weight of the walk that starts at `u` with weight `d` and
follows the edges at positions `ks`; `none` when some position is not an edge of
the vertex reached.  The weights are added in the order of the walk,
`((d + w1) + w2) + ...`, as the kernel adds them. -/
def graph.walk (g : graph α) : Int → α → List Int → Option (Int × α)
  | u, d, [] => some (u, d)
  | u, d, k :: ks => (g.edgeAt u k).bind fun e => g.walk e.1 (d + e.2) ks

/-- A vertex `v` is reachable from `root` along directed edges. -/
inductive graph.Reachable (g : graph α) (root : Int) : Int → Prop
  | refl : graph.Reachable g root root
  | step {u v : Int} {w : α} : graph.Reachable g root u → g.HasEdge u v w →
      graph.Reachable g root v

/-- A valid graph: `offsets[V]`, `neighbors[E]`, `weights[E]`; `offsets[0] == 0`,
offsets non-decreasing and at most `E` (every adjacency range lies inside
`neighbors[E]`), every neighbour in `[0, V)`, every weight finite and
non-negative. -/
structure graph.Valid (g : graph α) : Prop where
  offsets_len : (g.offsets.length : Int) = g.V
  neighbors_len : (g.neighbors.length : Int) = g.E
  weights_len : (g.weights.length : Int) = g.E
  offsets_first : g.V = 0 ∨ rd g.offsets 0 = some 0
  offsets_sorted : g.offsets.Pairwise (fun a b => a ≤ b)
  offsets_bound : ∀ a ∈ g.offsets, a ≤ g.E
  neighbors_bound : ∀ v ∈ g.neighbors, 0 ≤ v ∧ v < g.V
  weights_bound : ∀ w ∈ g.weights, 0 ≤ w ∧ w ≠ ⊤

/-- Following `path[]` from `v` for `n` steps reaches `root`, every step
`path[u] → u` is an edge of the graph, and the weights of these edges, added up
from `root` in path order, `((0 + w1) + w2) + ...`, give `d`. -/
def PathChain (g : graph α) (root : Int) (path : List Int) : Nat → Int → α → Prop
  | 0, v, d => v = root ∧ d = 0
  | n + 1, v, d => ∃ p d0 w, rd path v = some p ∧ g.HasEdge p v w ∧ d = d0 + w ∧
      PathChain g root path n p d0

/-- The graph has no directed cycle: a walk that returns to its start is empty. -/
def graph.Acyclic (g : graph α) : Prop :=
  ∀ u d ks d1, g.walk u d ks = some (u, d1) → ks = []

/-- The value `d` is the shortest-path distance from `root` to `goal`, attained by
the walk `ks`: the weight of `ks` accumulated in path order, and no walk from
`root` to `goal` accumulates less. -/
def graph.IsShortest (g : graph α) (root goal : Int) (ks : List Int) (d : α) : Prop :=
  g.walk root 0 ks = some (goal, d) ∧
  ∀ ks1 d1, g.walk root 0 ks1 = some (goal, d1) → d ≤ d1

/-- The shortest path from `root` to `goal` is unique: every walk of the same
accumulated weight is the walk `ks`. -/
def graph.UniqueShortest (g : graph α) (root goal : Int) (ks : List Int) (d : α) : Prop :=
  g.IsShortest root goal ks d ∧
  ∀ ks1, g.walk root 0 ks1 = some (goal, d) → ks1 = ks

/-- List topology: every vertex has at most one out-edge. -/
def graph.OutDegreeLeOne (g : graph α) : Prop :=
  ∀ u lo hi, rd g.offsets u = some lo → g.next_offset u = some hi → hi ≤ lo + 1

/-- The linear chain on `weights.length + 1` vertices: vertex `i` has the single
out-edge `i → i+1` of weight `weights[i]`, the last vertex has none. -/
def chain (weights : List α) : graph α :=
  { V := weights.length + 1
    E := weights.length
    offsets := (List.range (weights.length + 1)).map (fun i : Nat => (i : Int))
    neighbors := (List.range weights.length).map (fun i : Nat => (i : Int) + 1)
    weights := weights }

/-- The weight accumulated along a linear chain from vertex `root` over the next `m`
edges, added up in the order in which the kernel relaxes them. -/
def chainDist (weights : List α) (root : Nat) : Nat → α
  | 0 => 0
  | m + 1 => chainDist weights root m + weights.getD (root + m) 0

/-- The vertices `v, v-1, ..., v-n`. -/
def descFrom (v : Int) : Nat → List Int
  | 0 => [v]
  | n + 1 => v :: descFrom (v - 1) n

/-- Follow `path[]` from `v` for `n` steps and list the vertices visited, `v` first. -/
def followPath (path : List Int) : Nat → Int → Option (List Int)
  | 0, v => some [v]
  | n + 1, v => (rd path v).bind fun p => (followPath path n p).map (fun l => v :: l)

end Kernel

/-! ### `float`: IEEE 754 binary32

The kernel stores distances and weights in `float` and evaluates `d_best+w` and
`<` in binary32 with the default rounding (to nearest, ties to even).  The
values that occur are non-negative or `+infinity`: weights are non-negative,
`distance[root]` is `0.0`, and a sum of such values is again one of them, so no
NaN arises.  A weight `-0.0` compares and adds like `0.0`. -/

/-- A `float` that is non-negative and not NaN, given by its bit pattern: sign bit 0,
eight bits of biased exponent, 23 bits of fraction.  `0x7F800000` is `+infinity`;
the patterns above it are NaN. -/
structure F32 where
  bits : Nat
  bits_le : bits ≤ 0x7F800000
deriving DecidableEq

/-- For non-negative floats the numerical order is the order of the bit patterns. -/
instance F32.instLinearOrder : LinearOrder F32 :=
  LinearOrder.lift' F32.bits (fun a b h => by cases a; cases b; cases h; rfl)

/-- The value `+infinity`. -/
instance F32.instTop : Top F32 := ⟨⟨0x7F800000, le_refl _⟩⟩

/-- The value `0.0`. -/
instance F32.instZero : Zero F32 := ⟨⟨0, Nat.zero_le _⟩⟩

/-- The value of a finite float as a multiple of `2^-149`, the smallest positive
float: the fraction `m` for exponent field `e = 0` (subnormal), and
`(2^23 + m) * 2^(e-1)` otherwise.  For `+infinity` the formula gives `2^128`. -/
def F32.toUnits (x : F32) : Nat :=
  let e := x.bits / 2 ^ 23
  let m := x.bits % 2 ^ 23
  if e = 0 then m else (2 ^ 23 + m) * 2 ^ (e - 1)

/-- The number of times `n` has to be halved to come below `2^24`, found in at most
`fuel` steps: the number of low bits that do not fit into a 24-bit significand.
`F32.shift n n` has fuel enough for every `n`. -/
def F32.shift : Nat → Nat → Nat
  | 0, _ => 0
  | fuel + 1, n => if n < 2 ^ 24 then 0 else F32.shift fuel (n / 2) + 1

/-- Rounding of the exact value `n * 2^-149` to a bit pattern, to nearest with ties to
even, before the overflow check: the significand `q` keeps the 24 leading bits of
`n`, and the `k` bits dropped decide whether it is incremented.  With exponent
field `k + 1` and fraction `q - 2^23` the bit pattern is `k * 2^23 + q`; a carry
out of the significand moves into the exponent field. -/
def F32.roundBits (n : Nat) : Nat :=
  let k := F32.shift n n
  let q := n / 2 ^ k
  let r := n % 2 ^ k
  let up : Nat := if 2 ^ k < 2 * r ∨ (2 * r = 2 ^ k ∧ q % 2 = 1) then 1 else 0
  k * 2 ^ 23 + q + up

/-- Rounding of the exact value `n * 2^-149` to `float`: a result beyond the largest
finite float is `+infinity`. -/
def F32.round (n : Nat) : F32 :=
  ⟨min (F32.roundBits n) 0x7F800000, Nat.min_le_right _ _⟩

/-- The `float` sum `a + b`: the exact sum rounded; `+infinity` when an operand is. -/
def F32.add (a b : F32) : F32 :=
  if a = ⊤ ∨ b = ⊤ then ⊤ else F32.round (a.toUnits + b.toUnits)

/-- The operator `+` on floats. -/
instance F32.instAdd : Add F32 := ⟨F32.add⟩

/-- The `float` nearest to the natural number `n`, as in the conversion `(float)n`. -/
def F32.ofNat (n : Nat) : F32 := F32.round (n * 2 ^ 149)

/-- The distance between the value of `x` and the exact value `n`, in multiples of
`2^-149`; `+infinity` counts as `2^128`, as in the overflow rule of IEEE 754. -/
def F32.err (x : F32) (n : Nat) : Nat := (x.toUnits - n) + (n - x.toUnits)

/-! ### Loop invariant of the kernel -/

section KernelInvariant
variable {α : Type} [LinearOrder α] [Zero α] [Add α] [Top α]

/-- The vertices relaxed so far, most recent first, form a chain back to `root`: each
one was reached from the next one over an edge, `path[]` records that predecessor
and `distance[]` the accumulated weight. -/
def WalkChain (g : graph α) (root : Int) (distance : List α) (path : List Int) :
    List Int → Prop
  | [] => False
  | [r] => r = root ∧ rd distance r = some 0 ∧ rd path r = some r
  | u :: p :: rest =>
    (∃ dp w, rd distance p = some dp ∧ rd distance u = some (dp + w) ∧ g.HasEdge p u w ∧
      rd path u = some p) ∧ WalkChain g root distance path (p :: rest)

/-- Invariant of the relaxation loop; `walk` lists the vertices that have been given a
distance, most recent first. -/
structure WalkInv (g : graph α) (root : Int) (s : KState α) (walk : List Int) : Prop where
  dlen : (s.distance.length : Int) = g.V
  plen : (s.path.length : Int) = g.V
  head : walk.head? = some s.next_best
  nodup : walk.Nodup
  range : ∀ v ∈ walk, 0 ≤ v ∧ v < g.V
  fin : ∀ v d, rd s.distance v = some d → d ≠ ⊤ → v ∈ walk
  chain : WalkChain g root s.distance s.path walk

/-- The part of the loop invariant that does not depend on the incoming distances:
the relaxed vertices are distinct vertices of the graph and form a chain. -/
structure WalkOrder (g : graph α) (root : Int) (s : KState α) (walk : List Int) : Prop where
  dlen : (s.distance.length : Int) = g.V
  plen : (s.path.length : Int) = g.V
  head : walk.head? = some s.next_best
  nodup : walk.Nodup
  range : ∀ v ∈ walk, 0 ≤ v ∧ v < g.V
  chain : WalkChain g root s.distance s.path walk

/-- The vertex `h` cannot be left: it has no out-edge, or relaxing its first out-edge
does not improve the target. -/
def Stuck (g : graph α) (s : KState α) (h : Int) : Prop :=
  (∀ k, g.edgeAt h k = none) ∨
  ∃ lo dst w dh dd, rd g.offsets h = some lo ∧ g.edgeAt h lo = some (dst, w) ∧
    rd s.distance h = some dh ∧ rd s.distance dst = some dd ∧ ¬ (dh + w < dd)

/-- The loop has run at least once: `best` is a relaxed vertex, and when the loop
stops because nothing was relaxed, `best` is stuck. -/
def Expanded (g : graph α) (s : KState α) (walk : List Int) : Prop :=
  s.best ∈ walk ∧ (s.best = s.next_best → Stuck g s s.best)

end KernelInvariant

/-! ### `Main` (`ipnsw.cpp`) -/

/-- The factories `Main` chooses between (declared in the `*Factory.hpp` headers);
`IProductUBmkFactory` is constructed with the argument 100. -/
inductive IPNSWFactory where
  | GreedyWalkFactory
  | BeamSearchFactory
  | IProductUBmkFactory (n : Int)
  deriving DecidableEq

/-- What a call of `Main` does: the value it returns and the factory the runner was
constructed and run with, if any. -/
structure MainResult where
  rc : Int
  ran : Option IPNSWFactory
  deriving DecidableEq

/-- The function `Main(argc, argv)`, as a function of the configuration name
`args._version` that `Parser::parse` extracts from the command line:
```
if (args._version == "greedy_walk") factory = new GreedyWalkFactory;
else if (args._version == "beam_search") factory = new BeamSearchFactory;
else if (args._version == "iproduct_ubmk") factory = new IProductUBmkFactory(100);
else return 0;
runner = new IPNSWRunner(args, factory);
runner->run();
return 0;
```
-/
def Main (_version : String) : MainResult :=
  if _version = "greedy_walk" then
    { rc := 0, ran := some IPNSWFactory.GreedyWalkFactory }
  else if _version = "beam_search" then
    { rc := 0, ran := some IPNSWFactory.BeamSearchFactory }
  else if _version = "iproduct_ubmk" then
    { rc := 0, ran := some (IPNSWFactory.IProductUBmkFactory 100) }
  else
    { rc := 0, ran := none }

/-! ### Dense-to-CSR conversion (`sparse_matrix_matrix_multiply.cpp`)

The dense matrix `A` is the row-major array `A[A_HEIGHT * A_WIDTH]`.  The
dimensions are the macros `A_HEIGHT` and `A_WIDTH` of the source (64 and 256);
here they are parameters.  The matrix entries live in a type `α` with a zero
and decidable equality, and `uint32_t` arithmetic is arithmetic modulo `2^32`. -/

/-- The three vectors `vals`, `rows`, `cols` and the counter `pair_index`. -/
structure CSR (α : Type) where
  vals : List α
  rows : List Nat
  cols : List Nat
  pair_index : Nat

section CSRDefs
variable {α : Type} [Zero α] [DecidableEq α]

/-- The body of the inner loop, for row `i` and column `j`:
```
float value = A[(i*A_WIDTH)+j];
if (value != static_cast<float>(0)) {
  vals.push_back(value);
  cols.push_back(j);
  pair_index++;
}
```
`none` when the read of `A` is out of bounds. -/
def csr_inner (A : List α) (A_WIDTH i : Nat) (st : Option (CSR α)) (j : Nat) : Option (CSR α) :=
  st.bind fun s =>
    match A[((i * A_WIDTH) % 2 ^ 32 + j) % 2 ^ 32]? with
    | none => none
    | some value =>
      if value ≠ 0 then
        some { s with vals := s.vals ++ [value], cols := s.cols ++ [j],
                      pair_index := (s.pair_index + 1) % 2 ^ 32 }
      else some s

/-- The body of the outer loop, for row `i`: the inner loop over
`j = 0 .. A_WIDTH-1`, then `rows.push_back(pair_index)`. -/
def csr_outer (A : List α) (A_WIDTH : Nat) (st : Option (CSR α)) (i : Nat) : Option (CSR α) :=
  ((List.range A_WIDTH).foldl (csr_inner A A_WIDTH i) st).bind fun s =>
    some { s with rows := s.rows ++ [s.pair_index] }

/-- The conversion of `A` to CSR format:
```
uint32_t pair_index = 0;
rows.push_back(pair_index);
for (uint32_t i = 0; i < A_HEIGHT; i++) { ...inner loop...; rows.push_back(pair_index); }
```
-/
def csr_encode (A : List α) (A_HEIGHT A_WIDTH : Nat) : Option (CSR α) :=
  (List.range A_HEIGHT).foldl (csr_outer A A_WIDTH)
    (some { vals := [], rows := [0], cols := [], pair_index := 0 })

/-! ### Specification vocabulary for CSR -/

/-- The `(column, value)` list of row `i` of a CSR matrix: the pairs
`(cols[k], vals[k])` for `k` in `[rows[i], rows[i+1])`. -/
def CSR.row (c : CSR α) (i : Nat) : List (Nat × α) :=
  ((c.cols.zip c.vals).drop (c.rows.getD i 0)).take (c.rows.getD (i + 1) 0 - c.rows.getD i 0)

/-- Decoding, entry `(i, j)`: row `i` holds `vals[k]` at column `cols[k]` for every `k`
in `[rows[i], rows[i+1])` and zero everywhere else. -/
def CSR.entry (c : CSR α) (i j : Nat) : α :=
  match (c.row i).find? (fun p => p.1 == j) with
  | some p => p.2
  | none => 0

/-- Decoding a CSR matrix back to the dense row-major `M x N` array. -/
def CSR.decode (c : CSR α) (M N : Nat) : List α :=
  (List.range M).flatMap fun i => (List.range N).map fun j => c.entry i j

/-- The non-zero entries of row `i` of the dense matrix, with their columns, in
increasing column order. -/
def rowEntries (A : List α) (N i : Nat) : List (Nat × α) :=
  ((List.range N).map fun j => (j, A.getD (i * N + j) 0)).filter fun p => p.2 ≠ 0

/-- The non-zero entries among the first `n` columns of row `i`, built column by
column. -/
def prefixEntries (A : List α) (N i : Nat) : Nat → List (Nat × α)
  | 0 => []
  | n + 1 => prefixEntries A N i n ++
      (if A.getD (i * N + n) 0 ≠ 0 then [(n, A.getD (i * N + n) 0)] else [])

/-- The non-zero entries of the first `i` rows, row after row. -/
def allEntries (A : List α) (N : Nat) : Nat → List (Nat × α)
  | 0 => []
  | i + 1 => allEntries A N i ++ rowEntries A N i

end CSRDefs

/-! ### Example inputs -/

/-- The spec's scenario graph: the linear chain on 5 vertices with weights 1, 2, 3, 4. -/
def chain5 : graph ℕ∞ := chain [1, 2, 3, 4]

/-- Two vertices and the single edge `0 → 1` of weight 1. -/
def chain2 : graph ℕ∞ := chain [1]

/-- A fork: vertex 0 has the out-edges `0 → 1` and `0 → 2`, both of weight 1. -/
def fork3 : graph ℕ∞ :=
  { V := 3, E := 2, offsets := [0, 2, 2], neighbors := [1, 2], weights := [1, 1] }

/-- A configuration name that `Main` does not know. -/
def unknownName : String := "no_such_variant"

/-- A dense `4 x 3` integer matrix. -/
def dense43 : List Int := [0, 5, 0, 7, 0, 0, 0, 0, 0, 1, 2, 3]


/-- The chain `0 → 1 → 2 → 3` with the `float` weights 16777216, 1 and 1: in `float`
the sum `16777216 + 1` is rounded back to 16777216. -/
def chainRound4 : graph F32 := chain [F32.ofNat 16777216, F32.ofNat 1, F32.ofNat 1]

/-- The chain `0 → 1 → 2` with the `float` weights 16777216 and 1. -/
def chainRound3 : graph F32 := chain [F32.ofNat 16777216, F32.ofNat 1]

/-- The chain `0 → 1 → 2` with both weights the `float` nearest to `3e38`: their sum
overflows to `+infinity`. -/
def chainOverflow3 : graph F32 := chain [F32.ofNat (3 * 10 ^ 38), F32.ofNat (3 * 10 ^ 38)]
/-! ## Part 2. Lemmas and theorems -/

/-! ### The heap algorithms -/

section HeapLemmas
variable {T : Type}

theorem StrictWeakOrder.asymm {c : T → T → Bool} (hc : StrictWeakOrder c) {a b : T}
    (h : c a b = true) : c b a = false := by
  cases hba : c b a with
  | false => rfl
  | true => have := hc.trans a b a h hba; rw [hc.irrefl] at this; exact this.symm

theorem StrictWeakOrder.negtrans {c : T → T → Bool} (hc : StrictWeakOrder c) {a b d : T}
    (h1 : c a b = false) (h2 : c b d = false) : c a d = false := by
  cases had : c a d with
  | false => rfl
  | true =>
    cases hba : c b a with
    | true => have := hc.trans b a d hba had; rw [h2] at this; exact this.symm
    | false =>
      cases hdb : c d b with
      | true => have := hc.trans a d b had hdb; rw [h1] at this; exact this.symm
      | false => have := (hc.incomp_trans a b d h1 hba h2 hdb).1; rw [had] at this; exact this

theorem getD_set_eq (l : List T) (i j : Nat) (a v : T) :
    (l.set i a).getD j v = if i = j ∧ i < l.length then a else l.getD j v := by
  simp only [List.getD_eq_getElem?_getD, List.getElem?_set]
  by_cases h : i = j
  · subst h
    by_cases h2 : i < l.length
    · simp [h2]
    · simp [h2, List.getElem?_eq_none (Nat.le_of_not_lt h2)]
  · simp [h]

theorem getElem?_eq_some_getD (l : List T) (i : Nat) (v : T) (h : i < l.length) :
    l[i]? = some (l.getD i v) := by
  simp [List.getD_eq_getElem?_getD, List.getElem?_eq_getElem h]

/-- Moving the hole: writing the hole's new content and then the value is a permutation. -/
theorem set_set_hole_perm (l : List T) (h p : Nat) (v : T) (hh : h < l.length)
    (hp : p < l.length) (hne : p ≠ h) :
    List.Perm ((l.set h (l.getD p v)).set p v) (l.set h v) := by
  classical
  rw [List.perm_iff_count]
  intro a
  have hp2 : p < (l.set h (l.getD p v)).length := by simpa using hp
  have e1 : (l.set h (l.getD p v))[p] = l.getD p v := by
    rw [List.getElem_set_ne (Ne.symm hne)]
    simp [List.getD_eq_getElem?_getD, List.getElem?_eq_getElem hp]
  rw [List.count_set _ _ _ _ hp2, List.count_set _ _ _ _ hh,
    List.count_set _ _ _ _ hh, e1]
  simp only [beq_iff_eq]
  split_ifs <;> omega



theorem getD_set_self (l : List T) (i : Nat) (a v : T) (h : i < l.length) :
    (l.set i a).getD i v = a := by
  rw [getD_set_eq]; simp [h]

theorem getD_set_ne (l : List T) (i j : Nat) (a v : T) (h : i ≠ j) :
    (l.set i a).getD j v = l.getD j v := by
  rw [getD_set_eq]; simp [h]

/-- Filling the hole with `v` gives a heap when `v` does not beat the hole's parent. -/
theorem HoleInv.fill {c : T → T → Bool} {v : T} {l : List T} {n h : Nat}
    (hI : HoleInv c v l n h) (hpar : 0 < h → c (l.getD ((h - 1) / 2) v) v = false) :
    HeapD c v (l.set h v) n := by
  intro j hj0 hjn
  have hl := hI.len
  have hhn := hI.hn
  by_cases e1 : h = (j - 1) / 2
  · have e2 : h ≠ j := by omega
    rw [← e1, getD_set_self _ _ _ _ (by omega), getD_set_ne _ _ _ _ _ e2]
    exact hI.below j hj0 hjn e1.symm
  · rw [getD_set_ne _ _ _ _ _ e1]
    by_cases e2 : h = j
    · rw [← e2, getD_set_self _ _ _ _ (by omega)]
      exact hpar (by omega)
    · rw [getD_set_ne _ _ _ _ _ e2]
      exact hI.away j hj0 hjn (Ne.symm e2) (Ne.symm e1)

/-- One iteration of the sift-up loop preserves the invariant. -/
theorem HoleInv.up {c : T → T → Bool} (hc : StrictWeakOrder c) {v : T} {l : List T}
    {n h : Nat} (hI : HoleInv c v l n h) (hpos : 0 < h)
    (hcmp : c (l.getD ((h - 1) / 2) v) v = true) :
    HoleInv c v (l.set h (l.getD ((h - 1) / 2) v)) n ((h - 1) / 2) := by
  have hl := hI.len
  have hhn := hI.hn
  refine ⟨by omega, by simpa using hl, ?_, ?_, ?_⟩
  · intro j hj0 hjn hj1 hj2
    by_cases e1 : h = (j - 1) / 2
    · have e2 : h ≠ j := by omega
      rw [← e1, getD_set_self _ _ _ _ (by omega), getD_set_ne _ _ _ _ _ e2]
      exact hI.skip j hj0 hjn e1.symm (by omega)
    · have e2 : h ≠ j := by omega
      rw [getD_set_ne _ _ _ _ _ e1, getD_set_ne _ _ _ _ _ e2]
      exact hI.away j hj0 hjn (Ne.symm e2) (Ne.symm e1)
  · intro k hk0 hkn hk
    by_cases e : h = k
    · rw [← e, getD_set_self _ _ _ _ (by omega)]
      exact hc.asymm hcmp
    · rw [getD_set_ne _ _ _ _ _ e]
      have h1 := hI.away k hk0 hkn (Ne.symm e) (by omega)
      rw [hk] at h1
      cases hvk : c v (l.getD k v) with
      | false => rfl
      | true => rw [hc.trans _ _ _ hcmp hvk] at h1; exact h1
  · intro k hk0 hkn hk hp0
    have e0 : h ≠ ((h - 1) / 2 - 1) / 2 := by omega
    have hpp := hI.away ((h - 1) / 2) hp0 (by omega) (by omega) (by omega)
    rw [getD_set_ne _ _ _ _ _ e0]
    by_cases e : h = k
    · rw [← e, getD_set_self _ _ _ _ (by omega)]
      exact hpp
    · rw [getD_set_ne _ _ _ _ _ e]
      have h1 := hI.away k hk0 hkn (Ne.symm e) (by omega)
      rw [hk] at h1
      exact hc.negtrans hpp h1

theorem push_heap_loop_spec {c : T → T → Bool} (hc : StrictWeakOrder c) (v : T) (n : Nat) :
    ∀ (fuel : Nat) (l : List T) (h : Nat), h ≤ fuel → HoleInv c v l n h →
      (__push_heap c fuel l h 0 v).length = l.length ∧
      HeapD c v (__push_heap c fuel l h 0 v) n ∧
      List.Perm (__push_heap c fuel l h 0 v) (l.set h v) ∧
      ∀ i, n ≤ i → (__push_heap c fuel l h 0 v)[i]? = l[i]? := by
  intro fuel
  induction fuel with
  | zero =>
    intro l h hf hI
    have hhn := hI.hn
    simp only [__push_heap]
    refine ⟨by simp, hI.fill (by omega), List.Perm.refl _, ?_⟩
    intro i hi
    rw [List.getElem?_set]; simp [show ¬ (h = i) by omega]
  | succ fuel ih =>
    intro l h hf hI
    have hl := hI.len
    have hhn := hI.hn
    simp only [__push_heap]
    split_ifs with hcond
    · obtain ⟨hpos, hcmp⟩ := hcond
      obtain ⟨r1, r2, r3, r4⟩ := ih _ _ (by omega) (hI.up hc hpos hcmp)
      refine ⟨by simpa using r1, r2, r3.trans ?_, ?_⟩
      · exact set_set_hole_perm l h _ v (by omega) (by omega) (by omega)
      · intro i hi
        rw [r4 i hi, List.getElem?_set]; simp [show ¬ (h = i) by omega]
    · refine ⟨by simp, hI.fill ?_, List.Perm.refl _, ?_⟩
      · intro hpos
        cases hh : c (l.getD ((h - 1) / 2) v) v with
        | false => rfl
        | true => exact absurd ⟨hpos, hh⟩ hcond
      · intro i hi
        rw [List.getElem?_set]; simp [show ¬ (h = i) by omega]



/-- Moving a dominating child of the hole up into the hole preserves the invariant. -/
theorem DownInv.down {c : T → T → Bool} {v : T} {l : List T} {n h k : Nat}
    (hI : DownInv c v l n h) (hk0 : 0 < k) (hkn : k < n) (hk : (k - 1) / 2 = h)
    (hdom : ∀ j, 0 < j → j < n → (j - 1) / 2 = h → j ≠ k →
      c (l.getD k v) (l.getD j v) = false) :
    DownInv c v (l.set h (l.getD k v)) n k := by
  have hl := hI.len
  have hhn := hI.hn
  refine ⟨hkn, by simpa using hl, ?_, ?_⟩
  · intro j hj0 hjn hjk
    by_cases e1 : h = (j - 1) / 2
    · have e2 : h ≠ j := by omega
      rw [← e1, getD_set_self _ _ _ _ (by omega), getD_set_ne _ _ _ _ _ e2]
      exact hdom j hj0 hjn e1.symm hjk
    · rw [getD_set_ne _ _ _ _ _ e1]
      by_cases e2 : h = j
      · rw [← e2, getD_set_self _ _ _ _ (by omega)]
        exact hI.skip k hk0 hkn hk (by omega)
      · rw [getD_set_ne _ _ _ _ _ e2]
        exact hI.ord j hj0 hjn (Ne.symm e2)
  · intro j hj0 hjn hj _
    have e2 : h ≠ j := by omega
    rw [hk, getD_set_self _ _ _ _ (by omega), getD_set_ne _ _ _ _ _ e2]
    have := hI.ord j hj0 hjn (Ne.symm e2)
    rw [hj] at this
    exact this

/-- A hole without children: the sift-down invariant gives the sift-up invariant. -/
theorem DownInv.toHole {c : T → T → Bool} {v : T} {l : List T} {n h : Nat}
    (hI : DownInv c v l n h) (hleaf : ∀ k, 0 < k → k < n → (k - 1) / 2 ≠ h) :
    HoleInv c v l n h :=
  ⟨hI.hn, hI.len, fun j hj0 hjn hj _ => hI.ord j hj0 hjn hj,
    fun k hk0 hkn hk => absurd hk (hleaf k hk0 hkn),
    fun k hk0 hkn hk _ => absurd hk (hleaf k hk0 hkn)⟩

theorem adjust_heap_loop_spec {c : T → T → Bool} (hc : StrictWeakOrder c) (v : T) (n : Nat) :
    ∀ (fuel : Nat) (l : List T) (h : Nat), n ≤ h + fuel → DownInv c v l n h →
      DownInv c v (__adjust_heap_loop c v fuel l h n).1 n (__adjust_heap_loop c v fuel l h n).2 ∧
      ¬ ((__adjust_heap_loop c v fuel l h n).2 < (n - 1) / 2) ∧
      (__adjust_heap_loop c v fuel l h n).1.length = l.length ∧
      List.Perm ((__adjust_heap_loop c v fuel l h n).1.set (__adjust_heap_loop c v fuel l h n).2 v)
        (l.set h v) ∧
      ∀ i, n ≤ i → (__adjust_heap_loop c v fuel l h n).1[i]? = l[i]? := by
  intro fuel
  induction fuel with
  | zero =>
    intro l h hf hI
    have := hI.hn
    omega
  | succ fuel ih =>
    intro l h hf hI
    have hl := hI.len
    have hhn := hI.hn
    simp only [__adjust_heap_loop]
    split_ifs with hlt hcmp
    · -- the left child `2h+1` is the larger one
      have hk : (2 * (h + 1) - 1 - 1) / 2 = h := by omega
      have hI' := hI.down (k := 2 * (h + 1) - 1) (by omega) (by omega) hk (by
        intro j hj0 hjn hj hjk
        have : j = 2 * (h + 1) := by omega
        rw [this]
        exact hc.asymm hcmp)
      obtain ⟨r1, r2, r3, r4, r5⟩ := ih _ _ (by omega) hI'
      refine ⟨r1, r2, by simpa using r3, r4.trans ?_, ?_⟩
      · exact set_set_hole_perm l h _ v (by omega) (by omega) (by omega)
      · intro i hi
        rw [r5 i hi, List.getElem?_set]; simp [show ¬ (h = i) by omega]
    · -- the right child `2h+2` is at least as large
      have hk : (2 * (h + 1) - 1) / 2 = h := by omega
      have hI' := hI.down (k := 2 * (h + 1)) (by omega) (by omega) hk (by
        intro j hj0 hjn hj hjk
        have : j = 2 * (h + 1) - 1 := by omega
        rw [this]
        simpa using hcmp)
      obtain ⟨r1, r2, r3, r4, r5⟩ := ih _ _ (by omega) hI'
      refine ⟨r1, r2, by simpa using r3, r4.trans ?_, ?_⟩
      · exact set_set_hole_perm l h _ v (by omega) (by omega) (by omega)
      · intro i hi
        rw [r5 i hi, List.getElem?_set]; simp [show ¬ (h = i) by omega]
    · exact ⟨hI, hlt, rfl, List.Perm.refl _, fun _ _ => rfl⟩

theorem adjust_heap_spec {c : T → T → Bool} (hc : StrictWeakOrder c) (v : T) (n : Nat)
    (l : List T) (hI : DownInv c v l n 0) :
    (__adjust_heap c l 0 n v).length = l.length ∧
    HeapD c v (__adjust_heap c l 0 n v) n ∧
    List.Perm (__adjust_heap c l 0 n v) (l.set 0 v) ∧
    ∀ i, n ≤ i → (__adjust_heap c l 0 n v)[i]? = l[i]? := by
  obtain ⟨r1, r2, r3, r4, r5⟩ := adjust_heap_loop_spec hc v n n l 0 (by omega) hI
  simp only [__adjust_heap]
  generalize __adjust_heap_loop c v n l 0 n = r at r1 r2 r3 r4 r5
  obtain ⟨l1, h1⟩ := r
  simp only at r1 r2 r3 r4 r5 ⊢
  have hl := r1.len
  have hhn := r1.hn
  split_ifs with hone
  · have hk : (2 * (h1 + 1) - 1 - 1) / 2 = h1 := by omega
    have hI' := r1.down (k := 2 * (h1 + 1) - 1) (by omega) (by omega) hk (by
      intro j hj0 hjn hj hjk
      omega)
    have hH := hI'.toHole (by intro k hk0 hkn; omega)
    obtain ⟨p1, p2, p3, p4⟩ := push_heap_loop_spec hc v n _ _ _ (le_refl _) hH
    refine ⟨by rw [p1]; simpa using r3, p2, p3.trans (List.Perm.trans ?_ r4), ?_⟩
    · exact set_set_hole_perm l1 h1 _ v (by omega) (by omega) (by omega)
    · intro i hi
      rw [p4 i hi, List.getElem?_set, ← r5 i hi]; simp [show ¬ (h1 = i) by omega]
  · have hH := r1.toHole (by intro k hk0 hkn; omega)
    obtain ⟨p1, p2, p3, p4⟩ := push_heap_loop_spec hc v n _ _ _ (le_refl _) hH
    exact ⟨by rw [p1]; exact r3, p2, p3.trans r4, fun i hi => by rw [p4 i hi, r5 i hi]⟩

theorem set_getD_self (l : List T) (i : Nat) (v : T) (h : i < l.length) :
    l.set i (l.getD i v) = l := by
  apply List.ext_getElem?
  intro j
  rw [List.getElem?_set]
  by_cases e : i = j
  · subst e; simp [h, List.getD_eq_getElem?_getD, List.getElem?_eq_getElem h]
  · simp [e]

theorem take_perm_of_frame {r l : List T} (n : Nat) (hp : List.Perm r l)
    (hf : ∀ i, n ≤ i → r[i]? = l[i]?) : List.Perm (r.take n) (l.take n) := by
  have hd : r.drop n = l.drop n := by
    apply List.ext_getElem?
    intro j
    rw [List.getElem?_drop, List.getElem?_drop]
    exact hf _ (by omega)
  have : List.Perm (r.take n ++ r.drop n) (l.take n ++ r.drop n) := by
    rw [List.take_append_drop, hd, List.take_append_drop]; exact hp
  exact (List.perm_append_right_iff _).1 this

theorem take_set_ge (l : List T) (n m : Nat) (x : T) (h : n ≤ m) :
    (l.set m x).take n = l.take n := by
  apply List.ext_getElem?
  intro j
  rw [List.getElem?_take, List.getElem?_take, List.getElem?_set]
  by_cases e : j < n
  · simp [e, show ¬ (m = j) by omega]
  · simp [e]

theorem take_succ_set (l : List T) (n : Nat) (x : T) (h : n < l.length) :
    (l.set n x).take (n + 1) = l.take n ++ [x] := by
  rw [List.take_succ, take_set_ge _ _ _ _ (le_refl n), List.getElem?_set]
  simp [h]

theorem take_succ_of_getElem? (l : List T) (n : Nat) (x : T) (h : l[n]? = some x) :
    l.take (n + 1) = l.take n ++ [x] := by
  rw [List.take_succ, h]; rfl

theorem mem_take_getD (l : List T) (n : Nat) (v z : T) (hn : n ≤ l.length)
    (hz : z ∈ l.take n) : ∃ j, j < n ∧ l.getD j v = z := by
  rw [List.mem_take_iff_getElem] at hz
  obtain ⟨i, hi, e⟩ := hz
  have h1 : i < n := lt_of_lt_of_le hi (min_le_left _ _)
  have h2 : i < l.length := by omega
  exact ⟨i, h1, by rw [List.getD_eq_getElem?_getD, List.getElem?_eq_getElem h2]; simpa using e⟩

end HeapLemmas

/-! ### `DynHeap` -/

section DynHeapLemmas
variable {T : Type}

theorem HeapD.top_max {c : T → T → Bool} (hc : StrictWeakOrder c) {v : T} {l : List T}
    {n : Nat} (hH : HeapD c v l n) : ∀ j, j < n → c (l.getD 0 v) (l.getD j v) = false := by
  intro j
  induction j using Nat.strong_induction_on with
  | _ j ih =>
    intro hj
    by_cases h0 : j = 0
    · subst h0; exact hc.irrefl _
    · exact hc.negtrans (ih ((j - 1) / 2) (by omega) (by omega)) (hH j (by omega) hj)

theorem IsHeap.toD {c : T → T → Bool} {l : List T} {n : Nat} (hH : IsHeap c l n) (v : T) :
    HeapD c v l n := by
  intro j hj0 hjn
  have hl := hH.1
  exact hH.2 j _ _ hj0 hjn (getElem?_eq_some_getD l _ v (by omega))
    (getElem?_eq_some_getD l _ v (by omega))

theorem IsHeap.ofD {c : T → T → Bool} {l : List T} {n : Nat} {v : T} (hl : n ≤ l.length)
    (hH : HeapD c v l n) : IsHeap c l n := by
  refine ⟨hl, ?_⟩
  intro j x y hj0 hjn hx hy
  have := hH j hj0 hjn
  rw [getElem?_eq_some_getD l _ v (by omega)] at hx hy
  cases hx; cases hy
  exact this

theorem IsHeap.mono {c : T → T → Bool} {l : List T} {n m : Nat} (hH : IsHeap c l n)
    (hm : m ≤ n) : IsHeap c l m :=
  ⟨le_trans hm hH.1, fun j x y hj0 hjm hx hy => hH.2 j x y hj0 (by omega) hx hy⟩

theorem IsHeap.congr {c : T → T → Bool} {l r : List T} {n : Nat} (hH : IsHeap c l n)
    (hlen : r.length = l.length) (he : ∀ i, i < n → r[i]? = l[i]?) : IsHeap c r n := by
  refine ⟨by rw [hlen]; exact hH.1, ?_⟩
  intro j x y hj0 hjn hx hy
  rw [he _ (by omega)] at hx hy
  exact hH.2 j x y hj0 hjn hx hy

/-- Contract of `std::push_heap` on `first[0 .. n+1)`. -/
theorem push_heap_spec {c : T → T → Bool} (hc : StrictWeakOrder c) (l : List T) (n : Nat)
    (hn : n < l.length) (hH : IsHeap c l n) :
    (push_heap c l (n + 1)).length = l.length ∧
    IsHeap c (push_heap c l (n + 1)) (n + 1) ∧
    List.Perm ((push_heap c l (n + 1)).take (n + 1)) (l.take (n + 1)) := by
  have hv : l[n]? = some l[n] := List.getElem?_eq_getElem hn
  simp only [push_heap, Nat.add_sub_cancel, hv]
  have hD := hH.toD l[n]
  have hI : HoleInv c l[n] l (n + 1) n :=
    ⟨by omega, by omega, fun j hj0 hjn hj _ => hD j hj0 (by omega),
      fun k hk0 hkn hk => by omega, fun k hk0 hkn hk _ => by omega⟩
  obtain ⟨p1, p2, p3, p4⟩ := push_heap_loop_spec hc l[n] (n + 1) n l n (le_refl _) hI
  have hs : l.set n l[n] = l := by
    have := set_getD_self l n l[n] hn
    rwa [show l.getD n l[n] = l[n] by
      simp [List.getD_eq_getElem?_getD, List.getElem?_eq_getElem hn]] at this
  rw [hs] at p3
  exact ⟨p1, IsHeap.ofD (by omega) p2, take_perm_of_frame _ p3 p4⟩

/-- Contract of `std::pop_heap` on the heap `first[0 .. n+1)`. -/
theorem pop_heap_spec {c : T → T → Bool} (hc : StrictWeakOrder c) (l : List T) (n : Nat)
    (hH : IsHeap c l (n + 1)) :
    (pop_heap c l ((n : Int) + 1)).length = l.length ∧
    IsHeap c (pop_heap c l ((n : Int) + 1)) n ∧
    (pop_heap c l ((n : Int) + 1))[n]? = l[0]? ∧
    List.Perm ((pop_heap c l ((n : Int) + 1)).take (n + 1)) (l.take (n + 1)) := by
  have hl := hH.1
  by_cases h0 : n = 0
  · subst h0
    have e : pop_heap c l (((0 : Nat) : Int) + 1) = l := by simp [pop_heap]
    rw [e]
    exact ⟨rfl, hH.mono (by omega), rfl, List.Perm.refl _⟩
  · have hgt : ((n : Int) + 1 > 1) := by omega
    have hidx : ((n : Int) + 1 - 1).toNat = n := by omega
    have hv : l[n]? = some l[n] := List.getElem?_eq_getElem (by omega)
    have ht : l[0]? = some l[0] := List.getElem?_eq_getElem (by omega)
    simp only [pop_heap, hgt, if_true, hidx, __pop_heap, hv, ht]
    have hD := hH.toD l[n]
    have hI : DownInv c l[n] (l.set n l[0]) n 0 := by
      refine ⟨by omega, by simp; omega, ?_, fun k _ _ _ h => absurd h (lt_irrefl 0)⟩
      intro j hj0 hjn _
      rw [getD_set_ne _ _ _ _ _ (by omega), getD_set_ne _ _ _ _ _ (by omega)]
      exact hD j hj0 (by omega)
    obtain ⟨p1, p2, p3, p4⟩ := adjust_heap_spec hc l[n] n _ hI
    have e0 : l[0] = l.getD 0 l[n] := by
      simp [List.getD_eq_getElem?_getD, ht]
    have en : l.set n l[n] = l := by
      have := set_getD_self l n l[n] (by omega)
      rwa [show l.getD n l[n] = l[n] by simp [List.getD_eq_getElem?_getD, hv]] at this
    have hperm : List.Perm ((l.set n l[0]).set 0 l[n]) l := by
      have := set_set_hole_perm l n 0 l[n] (by omega) (by omega) (by omega)
      rw [en, ← e0] at this
      exact this
    refine ⟨by rw [p1]; simp, IsHeap.ofD (by rw [p1]; simp; omega) p2, ?_, ?_⟩
    · rw [p4 n (le_refl _), List.getElem?_set]
      simp [show n < l.length by omega]
    · exact take_perm_of_frame _ (p3.trans hperm) (fun i hi => by
        rw [p4 i (by omega), List.getElem?_set]; simp [show ¬ (n = i) by omega])



/-- What `pop()` does on a non-empty heap-ordered `DynHeap`. -/
theorem DynHeap.pop_spec (h : DynHeap T) (hc : StrictWeakOrder h._c) (hn : 1 ≤ h._n)
    (hH : IsHeap h._c h._data h._n.toNat) :
    ∃ y, h.pop.2 = some y ∧ h.top = some y ∧ h.pop.1._n = h._n - 1 ∧
      h.pop.1._data_N = h._data_N ∧ h.pop.1._c = h._c ∧
      h.pop.1._data.length = h._data.length ∧
      IsHeap h._c h.pop.1._data (h._n - 1).toNat ∧
      List.Perm h.held (y :: h.pop.1.held) ∧ ∀ z ∈ h.held, h._c y z = false := by
  obtain ⟨n, N, data, c⟩ := h
  simp only at hc hn hH
  obtain ⟨m, rfl⟩ : ∃ m : Nat, n = (m : Int) + 1 := ⟨(n - 1).toNat, by omega⟩
  have e1 : ((m : Int) + 1).toNat = m + 1 := by omega
  have e2 : ((m : Int) + 1 - 1) = (m : Int) := by omega
  rw [e1] at hH
  have hl := hH.1
  obtain ⟨p1, p2, p3, p4⟩ := pop_heap_spec hc data m hH
  have ht : data[0]? = some data[0] := List.getElem?_eq_getElem (by omega)
  rw [ht] at p3
  refine ⟨data[0], ?_, ?_, ?_, rfl, rfl, ?_, ?_, ?_, ?_⟩
  · simp only [DynHeap.pop, rd, e2]
    simp [p3]
  · simp only [DynHeap.top, rd]
    simp [ht]
  · simp only [DynHeap.pop]
  · simpa only [DynHeap.pop] using p1
  · simp only [DynHeap.pop, e2, Int.toNat_ofNat]
    exact p2
  · simp only [DynHeap.held, DynHeap.pop, e1, e2, Int.toNat_ofNat]
    rw [take_succ_of_getElem? _ _ _ p3] at p4
    exact p4.symm.trans (List.perm_append_comm)
  · intro z hz
    simp only [DynHeap.held, e1] at hz
    obtain ⟨j, hj, rfl⟩ := mem_take_getD data (m + 1) data[0] z hl hz
    have := (hH.toD data[0]).top_max hc j hj
    rwa [show data.getD 0 data[0] = data[0] by simp [List.getD_eq_getElem?_getD, ht]] at this

/-- What `push(i)` does on a `DynHeap` that satisfies the representation invariant. -/
theorem DynHeap.push_spec (h : DynHeap T) (hc : StrictWeakOrder h._c) (hI : h.Inv) (x : T) :
    ∃ h1, h.push x = some h1 ∧ h1.Inv ∧ h1._c = h._c ∧ h1._data_N = h._data_N ∧
      ((h._n < h._data_N ∧ h1._n = h._n + 1 ∧ List.Perm h1.held (x :: h.held)) ∨
       (h._n = h._data_N ∧ h1._n = h._n ∧
          ∃ y, List.Perm (y :: h1.held) (x :: h.held) ∧ ∀ z ∈ h1.held, h._c y z = false)) := by
  obtain ⟨n, N, data, c⟩ := h
  obtain ⟨hn0, hnN, hcap, hH⟩ := hI
  simp only at hc hn0 hnN hcap hH
  obtain ⟨m, rfl⟩ : ∃ m : Nat, n = (m : Int) := ⟨n.toNat, by omega⟩
  simp only [Int.toNat_ofNat] at hH
  have hm : m < data.length := by omega
  have hw : wr data (m : Int) x = some (data.set m x) := by
    simp only [wr, Int.toNat_ofNat]
    rw [if_pos ⟨by omega, by omega⟩]
  have e1 : ((m : Int) + 1).toNat = m + 1 := by omega
  have hH0 : IsHeap c (data.set m x) m :=
    hH.congr (by simp) (fun i hi => by rw [List.getElem?_set]; simp [show ¬ (m = i) by omega])
  obtain ⟨p1, p2, p3⟩ := push_heap_spec hc (data.set m x) m (by simpa using hm) hH0
  rw [take_succ_set _ _ _ hm] at p3
  have p3' : List.Perm ((push_heap c (data.set m x) (m + 1)).take (m + 1)) (x :: data.take m) :=
    p3.trans List.perm_append_comm
  simp only [List.length_set] at p1
  simp only [DynHeap.push, hw, e1]
  by_cases hfull : (m : Int) + 1 > N
  · rw [if_pos hfull]
    obtain ⟨y, q1, _, q3, q4, q5, q6, q7, q8, q9⟩ := DynHeap.pop_spec
      { _n := (m : Int) + 1, _data_N := N, _data := push_heap c (data.set m x) (m + 1), _c := c }
      hc (by simp only; omega) (by simp only; rw [e1]; exact p2)
    simp only at q3 q4 q5 q6 q7
    simp only [DynHeap.held, e1] at q8 q9
    refine ⟨_, rfl, ⟨by rw [q3]; omega, by rw [q3, q4]; omega, by rw [q4, q6, p1]; exact hcap,
      by rw [q5, q3]; exact q7⟩, q5, q4, Or.inr ⟨by omega, by rw [q3]; omega, y, ?_, ?_⟩⟩
    · exact (q8.symm.trans p3')
    · intro z hz
      exact q9 z ((q8.symm.subset) (List.mem_cons_of_mem _ hz))
  · rw [if_neg hfull]
    refine ⟨_, rfl, ⟨by simp only; omega, by simp only; omega, by simp only; rw [p1]; exact hcap,
      by simp only; rw [e1]; exact p2⟩, rfl, rfl, Or.inl ⟨by omega, rfl, ?_⟩⟩
    simp only [DynHeap.held, e1, Int.toNat_ofNat]
    exact p3'



theorem DynHeap.Inv.held_length {h : DynHeap T} (hI : h.Inv) :
    (h.held.length : Int) = h._n := by
  have h1 := hI.n_nonneg
  have h2 := hI.n_le
  have h3 := hI.cap
  simp only [DynHeap.held, List.length_take]
  omega

theorem DynHeap.Tracks.push {h : DynHeap T} {ps ev : List T} (hc : StrictWeakOrder h._c)
    (hT : h.Tracks ps ev) (x : T) :
    ∃ h1 ev1, h.push x = some h1 ∧ h1.Tracks (ps ++ [x]) ev1 ∧ h1._c = h._c ∧
      h1._data_N = h._data_N := by
  obtain ⟨h1, e, hI1, ec, eN, hcase⟩ := h.push_spec hc hT.inv x
  have hlen := hT.inv.held_length
  have hpl := hT.perm.length_eq
  have hsz := hT.size
  simp only [List.length_append] at hpl
  rcases hcase with ⟨hlt, hn1, hp⟩ | ⟨heq, hn1, y, hp, hy⟩
  · have hev : ev = [] := by
      apply List.eq_nil_of_length_eq_zero
      omega
    subst hev
    refine ⟨h1, [], e, ⟨hI1, ?_, ?_, ?_⟩, ec, eN⟩
    · have h0 := hT.perm
      simp only [List.append_nil] at h0 ⊢
      exact (List.perm_append_comm.trans (h0.cons x)).trans hp.symm
    · intro _ _ y hy; cases hy
    · rw [hn1, eN, List.length_append, List.length_singleton]
      push_cast
      omega
  · refine ⟨h1, y :: ev, e, ⟨hI1, ?_, ?_, ?_⟩, ec, eN⟩
    · have h0 : List.Perm (ps ++ [x]) ((x :: h.held) ++ ev) :=
        List.perm_append_comm.trans (hT.perm.cons x)
      have h2 : List.Perm ((x :: h.held) ++ ev) ((y :: h1.held) ++ ev) :=
        (List.perm_append_right_iff ev).2 hp.symm
      exact (h0.trans h2).trans List.perm_middle.symm
    · intro z hz e' he'
      rw [ec]
      rcases List.mem_cons.1 he' with rfl | he''
      · exact hy z hz
      · have hymem : y ∈ x :: h.held := hp.subset (List.mem_cons_self _ _)
        rcases List.mem_cons.1 hymem with rfl | hyh
        · exact hT.dom z ((List.Perm.cons_inv hp).subset hz) e' he''
        · exact hc.negtrans (hT.dom y hyh e' he'') (hy z hz)
    · rw [hn1, eN, List.length_append, List.length_singleton]
      push_cast
      omega

theorem DynHeap.Tracks.pushAll (c : T → T → Bool) (hc : StrictWeakOrder c) (xs : List T) :
    ∀ (h : DynHeap T) (ps ev : List T), h._c = c → h.Tracks ps ev →
      ∃ h1 ev1, h.pushAll xs = some h1 ∧ h1.Tracks (ps ++ xs) ev1 ∧ h1._c = c ∧
        h1._data_N = h._data_N := by
  induction xs with
  | nil =>
    intro h ps ev ec hT
    exact ⟨h, ev, rfl, by simpa using hT, ec, rfl⟩
  | cons x xs ih =>
    intro h ps ev ec hT
    obtain ⟨h1, ev1, e1, hT1, ec1, eN1⟩ := hT.push (ec ▸ hc) x
    obtain ⟨h2, ev2, e2, hT2, ec2, eN2⟩ := ih h1 (ps ++ [x]) ev1 (ec1.trans ec) hT1
    refine ⟨h2, ev2, ?_, by simpa using hT2, ec2, eN2.trans eN1⟩
    simp only [DynHeap.pushAll, e1, Option.some_bind, e2]

theorem DynHeap.mk0_tracks (c : T → T → Bool) (K : Nat) (buf : List T) (hbuf : K < buf.length) :
    (DynHeap.mk0 buf K c).Tracks [] [] := by
  refine ⟨⟨le_refl _, by simp [DynHeap.mk0], by simpa [DynHeap.mk0] using hbuf, ?_⟩, ?_, ?_, ?_⟩
  · exact ⟨by simp [DynHeap.mk0], fun j x y hj0 hjn => by simp [DynHeap.mk0] at hjn⟩
  · simp [DynHeap.held, DynHeap.mk0]
  · intro x hx; simp [DynHeap.held, DynHeap.mk0] at hx
  · simp [DynHeap.mk0]

theorem StrictWeakOrder.of_key {β : Type} [LinearOrder β] (key : T → β) :
    StrictWeakOrder (fun a b => decide (key a < key b)) := by
  refine ⟨fun a => by simp, fun a b d h1 h2 => ?_, fun a b d h1 h2 h3 h4 => ?_⟩
  · simp only [decide_eq_true_eq] at h1 h2 ⊢
    exact lt_trans h1 h2
  · simp only [decide_eq_false_iff_not, not_lt] at h1 h2 h3 h4 ⊢
    exact ⟨le_trans h3 h1, le_trans h2 h4⟩

theorem natLt_swo : StrictWeakOrder natLt := StrictWeakOrder.of_key (fun a : Nat => a)

theorem byDistance_swo : StrictWeakOrder byDistance :=
  StrictWeakOrder.of_key (fun a : Nat × Nat => a.2)

/-- Two sorted lists with the same elements are equal when the order is antisymmetric
on the elements. -/
theorem eq_of_perm_of_sorted_on {r : T → T → Prop} :
    ∀ {l₁ l₂ : List T}, List.Perm l₁ l₂ → List.Sorted r l₁ → List.Sorted r l₂ →
      (∀ a ∈ l₁, ∀ b ∈ l₁, r a b → r b a → a = b) → l₁ = l₂ := by
  intro l₁
  induction l₁ with
  | nil => intro l₂ hp _ _ _; exact hp.nil_eq
  | cons a t₁ ih =>
    intro l₂ hp h1 h2 hanti
    cases l₂ with
    | nil => exact absurd hp.length_eq (by simp)
    | cons b t₂ =>
      have hab : a = b := by
        have ha : a ∈ b :: t₂ := hp.subset (List.mem_cons_self _ _)
        have hb : b ∈ a :: t₁ := hp.symm.subset (List.mem_cons_self _ _)
        rcases List.mem_cons.1 ha with e | ha'
        · exact e
        · rcases List.mem_cons.1 hb with e | hb'
          · exact e.symm
          · exact hanti a (List.mem_cons_self _ _) b hb
              (List.rel_of_sorted_cons h1 b hb') (List.rel_of_sorted_cons h2 a ha')
      subst hab
      rw [ih (List.Perm.cons_inv hp) h1.of_cons h2.of_cons
        (fun x hx y hy => hanti x (List.mem_cons_of_mem _ hx) y (List.mem_cons_of_mem _ hy))]

/-- Two splits of the same multiset into a low part and a high part of the same
sizes have the same low part, when distinct elements never tie. -/
theorem low_part_unique {c : T → T → Bool} (hc : StrictWeakOrder c) {xs l₁ e₁ l₂ e₂ : List T}
    (hties : ∀ x ∈ xs, ∀ y ∈ xs, x ≠ y → c x y = true ∨ c y x = true)
    (p₁ : List.Perm xs (l₁ ++ e₁)) (p₂ : List.Perm xs (l₂ ++ e₂))
    (d₁ : ∀ x ∈ l₁, ∀ y ∈ e₁, c y x = false) (d₂ : ∀ x ∈ l₂, ∀ y ∈ e₂, c y x = false)
    (hlen : l₁.length = l₂.length) : List.Perm l₁ l₂ := by
  let le : T → T → Prop := fun a b => c b a = false
  haveI : DecidableRel le := fun a b => inferInstanceAs (Decidable (c b a = false))
  haveI : IsTotal T le := ⟨fun a b => by
    cases hba : c b a with
    | false => exact Or.inl hba
    | true => exact Or.inr (hc.asymm hba)⟩
  haveI : IsTrans T le := ⟨fun a b d h1 h2 => hc.negtrans h2 h1⟩
  have sorted_split : ∀ (l e : List T), (∀ x ∈ l, ∀ y ∈ e, c y x = false) →
      List.Sorted le (List.insertionSort le l ++ List.insertionSort le e) := by
    intro l e d
    refine List.pairwise_append.2 ⟨List.sorted_insertionSort le l, List.sorted_insertionSort le e, ?_⟩
    intro a ha b hb
    exact d a ((List.perm_insertionSort le l).subset ha) b ((List.perm_insertionSort le e).subset hb)
  have perm_split : ∀ (l e : List T), List.Perm xs (l ++ e) →
      List.Perm (List.insertionSort le l ++ List.insertionSort le e) xs := by
    intro l e p
    exact ((List.perm_insertionSort le l).append (List.perm_insertionSort le e)).trans p.symm
  have q₁ := perm_split l₁ e₁ p₁
  have q₂ := perm_split l₂ e₂ p₂
  have heq := eq_of_perm_of_sorted_on (q₁.trans q₂.symm) (sorted_split l₁ e₁ d₁)
    (sorted_split l₂ e₂ d₂) (by
      intro a ha b hb hab hba
      have hab' : c b a = false := hab
      have hba' : c a b = false := hba
      by_contra hne
      rcases hties a (q₁.subset ha) b (q₁.subset hb) hne with h | h
      · rw [h] at hba'; cases hba'
      · rw [h] at hab'; cases hab')
  have hl : (List.insertionSort le l₁).length = (List.insertionSort le l₂).length := by
    rw [List.length_insertionSort, List.length_insertionSort, hlen]
  have := (List.append_inj heq hl).1
  exact ((List.perm_insertionSort le l₁).symm.trans (this ▸ List.Perm.refl _)).trans
    (List.perm_insertionSort le l₂)

end DynHeapLemmas

/-! ### `float` arithmetic: rounding, and the laws it satisfies -/

theorem F32.le_iff (a b : F32) : a ≤ b ↔ a.bits ≤ b.bits := Iff.rfl

theorem F32.ext_bits {a b : F32} (h : a.bits = b.bits) : a = b := by
  cases a; cases b; cases h; rfl

theorem F32.shift_small (fuel n : Nat) (h : n < 2 ^ 24) : F32.shift fuel n = 0 := by
  cases fuel with
  | zero => rfl
  | succ f => rw [F32.shift, if_pos h]

/-- With enough fuel the shift `k` of `n ≥ 2^24` brackets `n` between `2^(k+23)` and
`2^(k+24)`. -/
theorem F32.shift_bounds : ∀ (fuel n : Nat), n < 2 ^ (24 + fuel) → 2 ^ 24 ≤ n →
    1 ≤ F32.shift fuel n ∧ 2 ^ (F32.shift fuel n + 23) ≤ n ∧ n < 2 ^ (F32.shift fuel n + 24)
  | 0, n, h1, h2 => by
    exfalso
    have : n < 2 ^ 24 := h1
    omega
  | fuel + 1, n, h1, h2 => by
    have hn : ¬ n < 2 ^ 24 := by omega
    have hs : F32.shift (fuel + 1) n = F32.shift fuel (n / 2) + 1 := by
      rw [F32.shift, if_neg hn]
    have h3 : n / 2 < 2 ^ (24 + fuel) := by
      have e : 2 ^ (24 + (fuel + 1)) = 2 * 2 ^ (24 + fuel) := by
        rw [show 24 + (fuel + 1) = (24 + fuel) + 1 from rfl, pow_succ]; ring
      omega
    rw [hs]
    by_cases h4 : n / 2 < 2 ^ 24
    · rw [F32.shift_small fuel _ h4]
      refine ⟨le_refl _, ?_, ?_⟩
      · exact h2
      · have : (2 : Nat) ^ (0 + 1 + 24) = 2 * 2 ^ 24 := by norm_num
        omega
    · obtain ⟨_, l, u⟩ := F32.shift_bounds fuel (n / 2) h3 (by omega)
      refine ⟨by omega, ?_, ?_⟩
      · have e : 2 ^ (F32.shift fuel (n / 2) + 1 + 23) = 2 * 2 ^ (F32.shift fuel (n / 2) + 23) := by
          rw [show F32.shift fuel (n / 2) + 1 + 23 = (F32.shift fuel (n / 2) + 23) + 1 by omega,
            pow_succ]; ring
        omega
      · have e : 2 ^ (F32.shift fuel (n / 2) + 1 + 24) = 2 * 2 ^ (F32.shift fuel (n / 2) + 24) := by
          rw [show F32.shift fuel (n / 2) + 1 + 24 = (F32.shift fuel (n / 2) + 24) + 1 by omega,
            pow_succ]; ring
        omega

theorem F32.lt_two_pow_fuel (n : Nat) : n < 2 ^ (24 + n) :=
  lt_of_lt_of_le (Nat.lt_two_pow n) (Nat.pow_le_pow_right (by decide) (by omega))

/-- The shift is determined by the bracket. -/
theorem F32.shift_eq (n k : Nat) (h1 : 2 ^ (k + 23) ≤ n) (h2 : n < 2 ^ (k + 24)) (hk : 1 ≤ k) :
    F32.shift n n = k := by
  have h24 : 2 ^ 24 ≤ n :=
    le_trans (Nat.pow_le_pow_right (by decide) (by omega)) h1
  obtain ⟨_, l, u⟩ := F32.shift_bounds n n (F32.lt_two_pow_fuel n) h24
  have a : F32.shift n n + 23 < k + 24 :=
    (Nat.pow_lt_pow_iff_right (by decide : 1 < 2)).1 (lt_of_le_of_lt l h2)
  have b : k + 23 < F32.shift n n + 24 :=
    (Nat.pow_lt_pow_iff_right (by decide : 1 < 2)).1 (lt_of_le_of_lt h1 u)
  omega

/-- The shift `k` of `n`, the significand `q = n / 2^k` and what they satisfy. -/
theorem F32.shift_facts (n : Nat) :
    n / 2 ^ F32.shift n n < 2 ^ 24 ∧
    (F32.shift n n = 0 ∨ (2 ^ 23 ≤ n / 2 ^ F32.shift n n ∧ 2 ^ (F32.shift n n + 23) ≤ n)) ∧
    n < 2 ^ (F32.shift n n + 24) := by
  by_cases h : n < 2 ^ 24
  · rw [F32.shift_small n n h]
    simp only [pow_zero, Nat.div_one, zero_add]
    exact ⟨h, Or.inl trivial, h⟩
  · obtain ⟨_, l, u⟩ := F32.shift_bounds n n (F32.lt_two_pow_fuel n) (by omega)
    refine ⟨?_, Or.inr ⟨?_, l⟩, u⟩
    · rw [Nat.div_lt_iff_lt_mul (Nat.pos_pow_of_pos _ (by decide))]
      rw [← pow_add, Nat.add_comm]; exact u
    · rw [Nat.le_div_iff_mul_le (Nat.pos_pow_of_pos _ (by decide))]
      rw [← pow_add, Nat.add_comm]; exact l

theorem F32.shift_mono {n n1 : Nat} (h : n ≤ n1) : F32.shift n n ≤ F32.shift n1 n1 := by
  obtain ⟨_, a, _⟩ := F32.shift_facts n
  obtain ⟨_, _, b⟩ := F32.shift_facts n1
  rcases a with a | ⟨_, a⟩
  · omega
  · have : F32.shift n n + 23 < F32.shift n1 n1 + 24 :=
      (Nat.pow_lt_pow_iff_right (by decide : 1 < 2)).1 (lt_of_le_of_lt (le_trans a h) b)
    omega

theorem F32.round_bits (n : Nat) : (F32.round n).bits = min (F32.roundBits n) 0x7F800000 := rfl

theorem F32.roundBits_mono {n n1 : Nat} (h : n ≤ n1) : F32.roundBits n ≤ F32.roundBits n1 := by
  obtain ⟨qlt, _, _⟩ := F32.shift_facts n
  obtain ⟨_, b, _⟩ := F32.shift_facts n1
  have hk := F32.shift_mono h
  simp only [F32.roundBits]
  generalize hup : (if 2 ^ F32.shift n n < 2 * (n % 2 ^ F32.shift n n) ∨
        (2 * (n % 2 ^ F32.shift n n) = 2 ^ F32.shift n n ∧ n / 2 ^ F32.shift n n % 2 = 1)
      then 1 else 0) = up
  generalize hup1 : (if 2 ^ F32.shift n1 n1 < 2 * (n1 % 2 ^ F32.shift n1 n1) ∨
        (2 * (n1 % 2 ^ F32.shift n1 n1) = 2 ^ F32.shift n1 n1 ∧
          n1 / 2 ^ F32.shift n1 n1 % 2 = 1)
      then 1 else 0) = up1
  have hup_le : up ≤ 1 := by rw [← hup]; split <;> omega
  rcases Nat.lt_or_ge (F32.shift n n) (F32.shift n1 n1) with hlt | hge
  · -- a smaller exponent
    rcases b with b | ⟨b, _⟩
    · omega
    · have : (F32.shift n n + 1) * 2 ^ 23 ≤ F32.shift n1 n1 * 2 ^ 23 :=
        Nat.mul_le_mul_right _ hlt
      have e : (F32.shift n n + 1) * 2 ^ 23 = F32.shift n n * 2 ^ 23 + 2 ^ 23 := by ring
      omega
  · have hkk : F32.shift n1 n1 = F32.shift n n := by omega
    rw [hkk] at hup1 ⊢
    have hq : n / 2 ^ F32.shift n n ≤ n1 / 2 ^ F32.shift n n := Nat.div_le_div_right h
    rcases Nat.lt_or_ge (n / 2 ^ F32.shift n n) (n1 / 2 ^ F32.shift n n) with hql | hqg
    · omega
    · have hqq : n1 / 2 ^ F32.shift n n = n / 2 ^ F32.shift n n := by omega
      rw [hqq] at hup1 ⊢
      have d := Nat.div_add_mod n (2 ^ F32.shift n n)
      have d1 := Nat.div_add_mod n1 (2 ^ F32.shift n n)
      rw [hqq] at d1
      have hr : n % 2 ^ F32.shift n n ≤ n1 % 2 ^ F32.shift n n := by omega
      have : up ≤ up1 := by
        rw [← hup, ← hup1]
        split_ifs with c c1 <;> omega
      omega

theorem F32.round_mono {n n1 : Nat} (h : n ≤ n1) : F32.round n ≤ F32.round n1 := by
  rw [F32.le_iff, F32.round_bits, F32.round_bits]
  exact min_le_min (F32.roundBits_mono h) (le_refl _)

theorem F32.round_small {n : Nat} (h : n < 2 ^ 24) : (F32.round n).bits = n := by
  rw [F32.round_bits]
  simp only [F32.roundBits]
  rw [F32.shift_small n n h]
  simp only [pow_zero, Nat.div_one, Nat.mod_one, Nat.zero_mul, Nat.mul_zero, Nat.zero_add]
  rw [if_neg (by omega), Nat.add_zero]
  exact min_eq_left (by omega)

theorem F32.lt_iff (a b : F32) : a < b ↔ a.bits < b.bits := Iff.rfl

/-- The value is strictly increasing in the bit pattern. -/
theorem F32.toUnits_lt {a b : F32} (h : a < b) : a.toUnits < b.toUnits := by
  rw [F32.lt_iff] at h
  unfold F32.toUnits
  have da := Nat.div_add_mod a.bits (2 ^ 23)
  have db := Nat.div_add_mod b.bits (2 ^ 23)
  have ma : a.bits % 2 ^ 23 < 2 ^ 23 := Nat.mod_lt _ (by decide)
  have mb : b.bits % 2 ^ 23 < 2 ^ 23 := Nat.mod_lt _ (by decide)
  have he : a.bits / 2 ^ 23 ≤ b.bits / 2 ^ 23 := Nat.div_le_div_right (le_of_lt h)
  generalize a.bits / 2 ^ 23 = ea at *
  generalize b.bits / 2 ^ 23 = eb at *
  generalize a.bits % 2 ^ 23 = fa at *
  generalize b.bits % 2 ^ 23 = fb at *
  rcases Nat.lt_or_ge ea eb with hlt | hge
  · have hb0 : eb ≠ 0 := by omega
    simp only [hb0, if_false]
    have lb : 2 ^ 23 * 2 ^ (eb - 1) ≤ (2 ^ 23 + fb) * 2 ^ (eb - 1) :=
      Nat.mul_le_mul_right _ (by omega)
    by_cases ha0 : ea = 0
    · simp only [ha0, if_true]
      have : 1 ≤ 2 ^ (eb - 1) := Nat.one_le_two_pow
      have : 2 ^ 23 * 1 ≤ 2 ^ 23 * 2 ^ (eb - 1) := Nat.mul_le_mul_left _ this
      omega
    · simp only [ha0, if_false]
      have hp : 0 < 2 ^ (ea - 1) := Nat.pos_pow_of_pos _ (by decide)
      have ub : (2 ^ 23 + fa) * 2 ^ (ea - 1) < 2 ^ 24 * 2 ^ (ea - 1) :=
        Nat.mul_lt_mul_of_pos_right (by omega) hp
      have e1 : 2 ^ 24 * 2 ^ (ea - 1) = 2 ^ 23 * 2 ^ ea := by
        rw [← pow_add, ← pow_add]; congr 1; omega
      have e2 : 2 ^ ea ≤ 2 ^ (eb - 1) := Nat.pow_le_pow_right (by decide) (by omega)
      have e3 : 2 ^ 23 * 2 ^ ea ≤ 2 ^ 23 * 2 ^ (eb - 1) := Nat.mul_le_mul_left _ e2
      omega
  · have hee : eb = ea := by omega
    subst hee
    have hf : fa < fb := by omega
    by_cases h0 : eb = 0
    · simp only [h0, if_true]; exact hf
    · simp only [h0, if_false]
      exact Nat.mul_lt_mul_of_pos_right (by omega) (Nat.pos_pow_of_pos _ (by decide))

theorem F32.toUnits_mono {a b : F32} (h : a ≤ b) : a.toUnits ≤ b.toUnits := by
  rcases lt_or_eq_of_le h with h | h
  · exact le_of_lt (F32.toUnits_lt h)
  · rw [h]

theorem F32.round_toUnits (x : F32) (hx : x ≠ ⊤) : F32.round x.toUnits = x := by
  apply F32.ext_bits
  have hb : x.bits < 0x7F800000 := by
    rcases Nat.lt_or_ge x.bits 0x7F800000 with h | h
    · exact h
    · exact absurd (F32.ext_bits (le_antisymm x.bits_le h)) hx
  have d := Nat.div_add_mod x.bits (2 ^ 23)
  have m : x.bits % 2 ^ 23 < 2 ^ 23 := Nat.mod_lt _ (by decide)
  have he : x.bits / 2 ^ 23 < 255 := by omega
  unfold F32.toUnits
  generalize x.bits / 2 ^ 23 = e at *
  generalize x.bits % 2 ^ 23 = f at *
  by_cases h0 : e = 0
  · simp only [h0, if_true]
    rw [F32.round_small (by omega)]
    omega
  · simp only [h0, if_false]
    by_cases h1 : e = 1
    · subst h1
      simp only [Nat.sub_self, pow_zero, Nat.mul_one]
      rw [F32.round_small (by omega)]
      omega
    · have lo : 2 ^ ((e - 1) + 23) ≤ (2 ^ 23 + f) * 2 ^ (e - 1) := by
        rw [pow_add, Nat.mul_comm]
        exact Nat.mul_le_mul_right _ (by omega)
      have hi : (2 ^ 23 + f) * 2 ^ (e - 1) < 2 ^ ((e - 1) + 24) := by
        rw [pow_add, Nat.mul_comm (2 ^ (e - 1))]
        exact Nat.mul_lt_mul_of_pos_right (by omega) (Nat.pos_pow_of_pos _ (by decide))
      have hs := F32.shift_eq _ (e - 1) lo hi (by omega)
      rw [F32.round_bits]
      simp only [F32.roundBits]
      rw [hs, Nat.mul_div_cancel _ (Nat.pos_pow_of_pos _ (by decide)), Nat.mul_mod_left]
      have hp : 0 < 2 ^ (e - 1) := Nat.pos_pow_of_pos _ (by decide)
      rw [if_neg (by omega)]
      have e3 : (e - 1) * 2 ^ 23 + (2 ^ 23 + f) + 0 = 2 ^ 23 * e + f := by
        have : e = (e - 1) + 1 := by omega
        generalize e - 1 = e1 at *
        subst this
        ring
      rw [e3]
      exact (min_eq_left (by omega)).trans d

/-- The value of the bit pattern `k * 2^23 + q` with a significand `q` of 24 bits (or
`q = 2^24`, the carry) is `q * 2^k`. -/
theorem F32.toUnits_of_bits (k q : Nat) (hq : (k = 0 ∧ q ≤ 2 ^ 24) ∨ (2 ^ 23 ≤ q ∧ q ≤ 2 ^ 24))
    (hb : k * 2 ^ 23 + q ≤ 0x7F800000) : F32.toUnits ⟨k * 2 ^ 23 + q, hb⟩ = q * 2 ^ k := by
  simp only [F32.toUnits]
  by_cases h1 : q < 2 ^ 23
  · have hk : k = 0 := by omega
    subst hk
    have e1 : (0 * 2 ^ 23 + q) / 2 ^ 23 = 0 := by omega
    have e2 : (0 * 2 ^ 23 + q) % 2 ^ 23 = q := by omega
    rw [e1, e2]; simp
  · by_cases h2 : q = 2 ^ 24
    · subst h2
      have e1 : (k * 2 ^ 23 + 2 ^ 24) / 2 ^ 23 = k + 2 := by omega
      have e2 : (k * 2 ^ 23 + 2 ^ 24) % 2 ^ 23 = 0 := by omega
      rw [e1, e2, if_neg (by omega)]
      have : k + 2 - 1 = k + 1 := by omega
      rw [this, pow_succ]; ring
    · have e1 : (k * 2 ^ 23 + q) / 2 ^ 23 = k + 1 := by omega
      have e2 : (k * 2 ^ 23 + q) % 2 ^ 23 = q - 2 ^ 23 := by omega
      rw [e1, e2, if_neg (by omega)]
      have : 2 ^ 23 + (q - 2 ^ 23) = q := by omega
      rw [this]; simp

theorem F32.toUnits_top : (⊤ : F32).toUnits = 2 ^ 128 * 2 ^ 149 := by decide

theorem F32.two_pow_128_le (k : Nat) : 2 ^ 128 * 2 ^ 149 ≤ 2 ^ (k + 23) ↔ 254 ≤ k := by
  rw [← pow_add, Nat.pow_le_pow_iff_right (by decide)]
  omega

theorem F32.lt_two_pow_128 (k : Nat) : 2 ^ (k + 24) ≤ 2 ^ 128 * 2 ^ 149 ↔ k ≤ 253 := by
  rw [← pow_add, Nat.pow_le_pow_iff_right (by decide)]
  omega

/-- What rounding does, in terms of values: with `P = 2^k` the weight of the last
significand bit, `n = q * P + r` with `r < P`, the neighbouring floats of `n` are
`q * P` and `(q + 1) * P`, and `n` is rounded up when `r` is more than `P / 2`, or
equal to `P / 2` with `q` odd.  Past the largest exponent, `n ≥ 2^128` in value. -/
theorem F32.round_cases (n : Nat) :
    ∃ k q r up : Nat, q * 2 ^ k + r = n ∧ r < 2 ^ k ∧
      (n < 2 ^ 128 * 2 ^ 149 → (F32.round n).bits = k * 2 ^ 23 + q + up) ∧
      (2 ^ 128 * 2 ^ 149 ≤ n → F32.round n = ⊤) ∧
      ((up = 0 ∧ 2 * r ≤ 2 ^ k ∧ (2 * r = 2 ^ k → q % 2 = 0)) ∨
       (up = 1 ∧ 2 ^ k ≤ 2 * r ∧ (2 * r = 2 ^ k → q % 2 = 1))) ∧
      q < 2 ^ 24 ∧ (k = 0 ∨ 2 ^ 23 ≤ q) := by
  obtain ⟨qlt, b, ub⟩ := F32.shift_facts n
  have d := Nat.div_add_mod n (2 ^ F32.shift n n)
  have rlt : n % 2 ^ F32.shift n n < 2 ^ F32.shift n n :=
    Nat.mod_lt _ (Nat.pos_pow_of_pos _ (by decide))
  refine ⟨F32.shift n n, n / 2 ^ F32.shift n n, n % 2 ^ F32.shift n n,
    if 2 ^ F32.shift n n < 2 * (n % 2 ^ F32.shift n n) ∨
        (2 * (n % 2 ^ F32.shift n n) = 2 ^ F32.shift n n ∧ n / 2 ^ F32.shift n n % 2 = 1)
      then 1 else 0, by rw [Nat.mul_comm]; exact d, rlt, ?_, ?_, ?_, qlt, ?_⟩
  · intro hn
    have hk : F32.shift n n ≤ 253 := by
      rcases b with b | ⟨_, b⟩
      · omega
      · by_contra hc
        have := (F32.two_pow_128_le (F32.shift n n)).2 (by omega)
        omega
    rw [F32.round_bits]
    simp only [F32.roundBits]
    apply min_eq_left
    have : F32.shift n n * 2 ^ 23 ≤ 253 * 2 ^ 23 := Nat.mul_le_mul_right _ hk
    split_ifs <;> omega
  · intro hn
    have hk : 254 ≤ F32.shift n n := by
      by_contra hc
      have := (F32.lt_two_pow_128 (F32.shift n n)).2 (by omega)
      omega
    apply F32.ext_bits
    rw [F32.round_bits]
    simp only [F32.roundBits]
    have : 254 * 2 ^ 23 ≤ F32.shift n n * 2 ^ 23 := Nat.mul_le_mul_right _ hk
    rcases b with b | ⟨b, _⟩
    · omega
    · exact (min_eq_right (by omega)).trans rfl
  · split_ifs with c
    · right; omega
    · left; omega
  · rcases b with b | ⟨b, _⟩
    · exact Or.inl b
    · exact Or.inr b

/-- Rounding is to nearest: no float is nearer to the exact value `n` than
`F32.round n`. -/
theorem F32.round_nearest (n : Nat) (x : F32) : (F32.round n).err n ≤ x.err n := by
  obtain ⟨k, q, r, up, d, rlt, hfin, hinf, hup, qlt, qge⟩ := F32.round_cases n
  unfold F32.err
  rcases Nat.lt_or_ge n (2 ^ 128 * 2 ^ 149) with hn | hn
  · have hb := hfin hn
    have hle : k * 2 ^ 23 + (q + up) ≤ 0x7F800000 := by
      have := (F32.round n).bits_le
      omega
    have hv : (F32.round n).toUnits = (q + up) * 2 ^ k := by
      rw [← F32.toUnits_of_bits k (q + up) (by omega) hle]
      congr 1
      apply F32.ext_bits
      rw [hb]; simp only [Nat.add_assoc]
    rw [hv, Nat.add_mul]
    have hlo : ∀ hq : k * 2 ^ 23 + q ≤ 0x7F800000, x.bits ≤ k * 2 ^ 23 + q →
        x.toUnits ≤ q * 2 ^ k := by
      intro hq hx
      rw [← F32.toUnits_of_bits k q (by omega) hq]
      exact F32.toUnits_mono ((F32.le_iff _ _).2 hx)
    have hhi : k * 2 ^ 23 + q < x.bits → (q + 1) * 2 ^ k ≤ x.toUnits := by
      intro hx
      have hq : k * 2 ^ 23 + (q + 1) ≤ 0x7F800000 := by
        have := x.bits_le
        omega
      rw [← F32.toUnits_of_bits k (q + 1) (by omega) hq]
      exact F32.toUnits_mono ((F32.le_iff _ _).2 (by
        show k * 2 ^ 23 + (q + 1) ≤ x.bits
        omega))
    rw [Nat.add_mul] at hhi
    generalize q * 2 ^ k = X at *
    generalize 2 ^ k = P at *
    rcases Nat.lt_or_ge (k * 2 ^ 23 + q) x.bits with hx | hx
    · have := hhi hx
      rcases hup with ⟨u0, _, _⟩ | ⟨u1, _, _⟩
      · subst u0; simp only [Nat.zero_mul, Nat.one_mul] at *; omega
      · subst u1; simp only [Nat.zero_mul, Nat.one_mul] at *; omega
    · have := hlo (by omega) hx
      rcases hup with ⟨u0, _, _⟩ | ⟨u1, _, _⟩
      · subst u0; simp only [Nat.zero_mul, Nat.one_mul] at *; omega
      · subst u1; simp only [Nat.zero_mul, Nat.one_mul] at *; omega
  · rw [hinf hn, F32.toUnits_top]
    have := F32.toUnits_mono ((F32.le_iff _ _).2 x.bits_le : x ≤ ⊤)
    rw [F32.toUnits_top] at this
    omega

/-- Ties go to the even bit pattern: when another float is as near to `n` as
`F32.round n`, the last bit of `F32.round n` is 0. -/
theorem F32.round_ties_even (n : Nat) (x : F32) (hx : x ≠ F32.round n)
    (h : x.err n = (F32.round n).err n) : (F32.round n).bits % 2 = 0 := by
  obtain ⟨k, q, r, up, d, rlt, hfin, hinf, hup, qlt, qge⟩ := F32.round_cases n
  unfold F32.err at h
  rcases Nat.lt_or_ge n (2 ^ 128 * 2 ^ 149) with hn | hn
  · have hb := hfin hn
    have hle : k * 2 ^ 23 + (q + up) ≤ 0x7F800000 := by
      have := (F32.round n).bits_le
      omega
    have hv : (F32.round n).toUnits = (q + up) * 2 ^ k := by
      rw [← F32.toUnits_of_bits k (q + up) (by omega) hle]
      congr 1
      apply F32.ext_bits
      rw [hb]; simp only [Nat.add_assoc]
    have hne : x.bits ≠ k * 2 ^ 23 + q + up := by
      intro e
      exact hx (F32.ext_bits (e.trans hb.symm))
    rw [hv, Nat.add_mul] at h
    have hlo : ∀ hq : k * 2 ^ 23 + q ≤ 0x7F800000, x.bits ≤ k * 2 ^ 23 + q →
        x.toUnits ≤ q * 2 ^ k := by
      intro hq hx
      rw [← F32.toUnits_of_bits k q (by omega) hq]
      exact F32.toUnits_mono ((F32.le_iff _ _).2 hx)
    have hlo1 : ∀ hq : k * 2 ^ 23 + q ≤ 0x7F800000, x.bits < k * 2 ^ 23 + q →
        x.toUnits < q * 2 ^ k := by
      intro hq hx
      rw [← F32.toUnits_of_bits k q (by omega) hq]
      exact F32.toUnits_lt ((F32.lt_iff _ _).2 hx)
    have hhi : k * 2 ^ 23 + q < x.bits → (q + 1) * 2 ^ k ≤ x.toUnits := by
      intro hx
      have hq : k * 2 ^ 23 + (q + 1) ≤ 0x7F800000 := by
        have := x.bits_le
        omega
      rw [← F32.toUnits_of_bits k (q + 1) (by omega) hq]
      exact F32.toUnits_mono ((F32.le_iff _ _).2 (by
        show k * 2 ^ 23 + (q + 1) ≤ x.bits
        omega))
    have hhi1 : k * 2 ^ 23 + (q + 1) < x.bits → (q + 1) * 2 ^ k < x.toUnits := by
      intro hx
      have hq : k * 2 ^ 23 + (q + 1) ≤ 0x7F800000 := by
        have := x.bits_le
        omega
      rw [← F32.toUnits_of_bits k (q + 1) (by omega) hq]
      exact F32.toUnits_lt ((F32.lt_iff _ _).2 hx)
    rw [Nat.add_mul] at hhi hhi1
    rw [hb]
    have hk2 : k * 2 ^ 23 % 2 = 0 := by omega
    generalize q * 2 ^ k = X at *
    generalize 2 ^ k = P at *
    rcases hup with ⟨u0, c1, c2⟩ | ⟨u1, c1, c2⟩
    · subst u0
      simp only [Nat.zero_mul, Nat.one_mul, Nat.add_zero] at *
      rcases Nat.lt_or_ge (k * 2 ^ 23 + q) x.bits with hx1 | hx1
      · have := hhi hx1
        have := c2 (by omega)
        omega
      · have := hlo1 (by omega) (by omega)
        omega
    · subst u1
      simp only [Nat.zero_mul, Nat.one_mul] at *
      rcases Nat.lt_or_ge (k * 2 ^ 23 + q) x.bits with hx1 | hx1
      · have := hhi1 (by omega)
        omega
      · have := hlo (by omega) hx1
        have := c2 (by omega)
        omega
  · exfalso
    rw [hinf hn, F32.toUnits_top] at h
    have hlt : x < ⊤ := lt_of_le_of_ne ((F32.le_iff _ _).2 x.bits_le) (by rw [hinf hn] at hx; exact hx)
    have := F32.toUnits_lt hlt
    rw [F32.toUnits_top] at this
    omega

theorem F32.add_def (a b : F32) :
    a + b = if a = ⊤ ∨ b = ⊤ then ⊤ else F32.round (a.toUnits + b.toUnits) := rfl

theorem F32.toUnits_zero : (0 : F32).toUnits = 0 := rfl

theorem F32.zero_ne_top : (0 : F32) ≠ ⊤ := by decide

/-- Rounded `float` addition on the non-negative floats and `+infinity` satisfies the
laws that the theorems about the kernel assume. -/
instance F32.instFloatArith : FloatArith F32 where
  le_top a := a.bits_le
  zero_add a := by
    rw [F32.add_def]
    by_cases h : a = ⊤
    · rw [if_pos (Or.inr h), h]
    · rw [if_neg (by simp [h, F32.zero_ne_top]), F32.toUnits_zero, Nat.zero_add,
        F32.round_toUnits a h]
  add_zero a := by
    rw [F32.add_def]
    by_cases h : a = ⊤
    · rw [if_pos (Or.inl h), h]
    · rw [if_neg (by simp [h, F32.zero_ne_top]), F32.toUnits_zero, Nat.add_zero,
        F32.round_toUnits a h]
  add_le_add_left a b h c := by
    rw [F32.add_def, F32.add_def]
    by_cases hc : c = ⊤
    · rw [if_pos (Or.inl hc), if_pos (Or.inl hc)]
    · by_cases hb : b = ⊤
      · rw [if_pos (Or.inr hb)]
        exact F32.bits_le _
      · have ha : a ≠ ⊤ := by
          intro e
          apply hb
          rw [e] at h
          exact le_antisymm b.bits_le h
        rw [if_neg (by simp [hc, ha]), if_neg (by simp [hc, hb])]
        exact F32.round_mono (Nat.add_le_add_left (F32.toUnits_mono h) _)

/-- Exact arithmetic satisfies the laws as well: every linearly ordered additive
commutative monoid with a top element, in particular the extended natural
numbers `ℕ∞`, in which the examples with small integer weights are written. -/
instance exactArith_floatArith {α : Type} [LinearOrderedAddCommMonoidWithTop α] :
    FloatArith α where
  le_top _ := le_top
  zero_add := zero_add
  add_zero := add_zero
  add_le_add_left _ _ h c := add_le_add_left h c
/-! ### Arrays -/

section ArrayLemmas
variable {β : Type}

theorem rd_range {a : List β} {i : Int} {x : β} (h : rd a i = some x) :
    0 ≤ i ∧ i < (a.length : Int) := by
  unfold rd at h
  split_ifs at h with h0
  have := (List.getElem?_eq_some_iff.1 h).1
  omega

theorem rd_of_range (a : List β) (i : Int) (h0 : 0 ≤ i) (h1 : i < (a.length : Int)) :
    ∃ x, rd a i = some x := by
  unfold rd
  rw [if_pos h0]
  exact ⟨_, List.getElem?_eq_getElem (by omega)⟩

theorem wr_of_range (a : List β) (i : Int) (x : β) (h0 : 0 ≤ i) (h1 : i < (a.length : Int)) :
    wr a i x = some (a.set i.toNat x) := by
  unfold wr
  rw [if_pos ⟨h0, h1⟩]

theorem rd_set_self (a : List β) (i : Int) (x : β) (h0 : 0 ≤ i) (h1 : i < (a.length : Int)) :
    rd (a.set i.toNat x) i = some x := by
  unfold rd
  rw [if_pos h0, List.getElem?_set]
  simp
  omega

theorem rd_set_ne (a : List β) (i j : Int) (x : β) (h0 : 0 ≤ i) (hne : j ≠ i) :
    rd (a.set i.toNat x) j = rd a j := by
  unfold rd
  split_ifs with hj
  · rw [List.getElem?_set]
    have : ¬ (i.toNat = j.toNat) := by omega
    simp [this]
  · rfl

theorem memcpy_all (a : List β) (n : Int) (h : (a.length : Int) = n) : memcpy a n = some a := by
  unfold memcpy
  rw [if_pos ⟨by omega, by omega⟩]
  congr 1
  exact List.take_of_length_le (by omega)

theorem drop_all (a : List β) (n : Int) (h : (a.length : Int) = n) : a.drop n.toNat = [] :=
  List.drop_of_length_le (by omega)

/-- Pigeonhole: a duplicate-free list of vertices in `[0, V)` has at most `V` entries. -/
theorem nodup_length_le (l : List Int) (V : Int) (hV : 0 ≤ V) (hn : l.Nodup)
    (hr : ∀ v ∈ l, 0 ≤ v ∧ v < V) : (l.length : Int) ≤ V := by
  have h1 : (l.map Int.toNat).Nodup := by
    refine List.Nodup.map_on ?_ hn
    intro x hx y hy hxy
    have := hr x hx
    have := hr y hy
    omega
  have h2 : l.map Int.toNat ⊆ List.range V.toNat := by
    intro n hn'
    obtain ⟨x, hx, rfl⟩ := List.mem_map.1 hn'
    have := hr x hx
    exact List.mem_range.2 (by omega)
  have h3 := (List.subperm_of_subset h1 h2).length_le
  rw [List.length_map, List.length_range] at h3
  omega



theorem rd_mem {a : List β} {i : Int} {x : β} (h : rd a i = some x) : x ∈ a := by
  unfold rd at h
  split_ifs at h
  exact List.mem_iff_getElem?.2 ⟨_, h⟩

theorem rd_pairwise {r : β → β → Prop} {a : List β} (hp : a.Pairwise r) {i j : Int} {x y : β}
    (hij : i < j) (hx : rd a i = some x) (hy : rd a j = some y) : r x y := by
  unfold rd at hx hy
  split_ifs at hx hy with h1 h2
  obtain ⟨hi, rfl⟩ := List.getElem?_eq_some_iff.1 hx
  obtain ⟨hj, rfl⟩ := List.getElem?_eq_some_iff.1 hy
  exact List.pairwise_iff_getElem.1 hp _ _ hi hj (by omega)

end ArrayLemmas

/-! ### The `dijkstra` kernel -/

section KernelLemmas
variable {α : Type} [LinearOrder α] [Zero α] [Add α] [Top α] [FloatArith α]

/-- Adding a non-negative value does not make a value smaller. -/
theorem FloatArith.le_add_of_nonneg {a b : α} (h : 0 ≤ b) : a ≤ a + b :=
  calc a = a + 0 := (FloatArith.add_zero a).symm
    _ ≤ a + b := FloatArith.add_le_add_left 0 b h a

theorem FloatArith.eq_top_of_top_le {a : α} (h : ⊤ ≤ a) : a = ⊤ :=
  le_antisymm (FloatArith.le_top a) h

theorem FloatArith.eq_top_of_not_lt_top {a : α} (h : ¬ a < ⊤) : a = ⊤ :=
  FloatArith.eq_top_of_top_le (not_lt.1 h)

theorem graph.Valid.offsets_zero {g : graph α} (hv : g.Valid) (a : Int)
    (h : rd g.offsets 0 = some a) : a = 0 := by
  rcases hv.offsets_first with h0 | h0
  · have := rd_range h
    have := hv.offsets_len
    omega
  · rw [h0] at h; cases h; rfl

theorem graph.Valid.offsets_mono {g : graph α} (hv : g.Valid) (i j a b : Int) (hij : i ≤ j)
    (ha : rd g.offsets i = some a) (hb : rd g.offsets j = some b) : a ≤ b := by
  rcases eq_or_lt_of_le hij with e | e
  · subst e; rw [ha] at hb; cases hb; exact le_refl _
  · exact rd_pairwise hv.offsets_sorted e ha hb

theorem graph.Valid.offsets_le {g : graph α} (hv : g.Valid) (i a : Int)
    (h : rd g.offsets i = some a) : a ≤ g.E := hv.offsets_bound a (rd_mem h)

theorem graph.Valid.neighbors_range {g : graph α} (hv : g.Valid) (k v : Int)
    (h : rd g.neighbors k = some v) : 0 ≤ v ∧ v < g.V := hv.neighbors_bound v (rd_mem h)

theorem graph.Valid.weights_range {g : graph α} (hv : g.Valid) (k : Int) (w : α)
    (h : rd g.weights k = some w) : 0 ≤ w ∧ w ≠ ⊤ := hv.weights_bound w (rd_mem h)

theorem graph.HasEdge.weight_nonneg {g : graph α} (hv : g.Valid) {u v : Int} {w : α}
    (h : g.HasEdge u v w) : 0 ≤ w ∧ w ≠ ⊤ := by
  obtain ⟨k, hk⟩ := h
  unfold graph.edgeAt at hk
  cases h1 : rd g.offsets u with
  | none => simp [h1] at hk
  | some lo =>
    cases h2 : g.next_offset u with
    | none => simp [h1, h2] at hk
    | some hi =>
      simp only [h1, h2, Option.some_bind] at hk
      split_ifs at hk with hr
      cases h3 : rd g.neighbors k with
      | none => simp [h3] at hk
      | some x =>
        cases h4 : rd g.weights k with
        | none => simp [h3, h4] at hk
        | some y =>
          simp only [h3, h4, Option.some_bind, Option.some.injEq, Prod.mk.injEq] at hk
          exact hk.2 ▸ hv.weights_range k y h4

theorem WalkChain.frame {g : graph α} {root : Int} {d d1 : List α} {p p1 : List Int} :
    ∀ {walk : List Int}, WalkChain g root d p walk →
      (∀ v ∈ walk, rd d1 v = rd d v ∧ rd p1 v = rd p v) → WalkChain g root d1 p1 walk := by
  intro walk
  induction walk with
  | nil => intro h _; exact h
  | cons u t ih =>
    intro h hf
    cases t with
    | nil =>
      obtain ⟨h1, h2, h3⟩ := h
      have := hf u (List.mem_cons_self _ _)
      exact ⟨h1, by rw [this.1]; exact h2, by rw [this.2]; exact h3⟩
    | cons q rest =>
      obtain ⟨⟨dp, w, h1, h2, h3, h4⟩, h5⟩ := h
      have fu := hf u (List.mem_cons_self _ _)
      have fq := hf q (List.mem_cons_of_mem _ (List.mem_cons_self _ _))
      exact ⟨⟨dp, w, by rw [fq.1]; exact h1, by rw [fu.1]; exact h2, h3, by rw [fu.2]; exact h4⟩,
        ih h5 (fun v hv => hf v (List.mem_cons_of_mem _ hv))⟩

theorem WalkChain.root_mem {g : graph α} {root : Int} {d : List α} {p : List Int} :
    ∀ {walk : List Int}, WalkChain g root d p walk →
      root ∈ walk ∧ rd d root = some 0 ∧ rd p root = some root := by
  intro walk
  induction walk with
  | nil => intro h; exact absurd h (by simp [WalkChain])
  | cons u t ih =>
    intro h
    cases t with
    | nil =>
      obtain ⟨h1, h2, h3⟩ := h
      subst h1
      exact ⟨List.mem_cons_self _ _, h2, h3⟩
    | cons q rest =>
      obtain ⟨h1, h2, h3⟩ := ih h.2
      exact ⟨List.mem_cons_of_mem _ h1, h2, h3⟩

theorem WalkChain.suffix {g : graph α} {root : Int} {d : List α} {p : List Int} :
    ∀ (l1 : List Int) {v : Int} {l2 : List Int}, WalkChain g root d p (l1 ++ v :: l2) →
      WalkChain g root d p (v :: l2) := by
  intro l1
  induction l1 with
  | nil => intro v l2 h; exact h
  | cons u t ih =>
    intro v l2 h
    cases t with
    | nil => exact h.2
    | cons q rest => exact ih h.2

theorem WalkChain.head_dist {g : graph α} {root : Int} {d : List α} {p : List Int}
    {u : Int} {t : List Int} (h : WalkChain g root d p (u :: t)) : ∃ du, rd d u = some du := by
  cases t with
  | nil => exact ⟨0, h.2.1⟩
  | cons q rest => obtain ⟨⟨dp, w, _, h2, _, _⟩, _⟩ := h; exact ⟨_, h2⟩

/-- Distances do not decrease along the chain: the head has the largest one. -/
theorem WalkChain.dist_le_head {g : graph α} (hv : g.Valid) {root : Int} {d : List α} {p : List Int} :
    ∀ {walk : List Int} {u : Int}, WalkChain g root d p (u :: walk) →
      ∀ v ∈ u :: walk, ∀ dv du, rd d v = some dv → rd d u = some du → dv ≤ du := by
  intro walk
  induction walk with
  | nil =>
    intro u _ v hvm dv du h1 h2
    rw [List.mem_singleton.1 hvm, h2] at h1
    cases h1
    exact le_refl _
  | cons q rest ih =>
    intro u h v hvm dv du h1 h2
    obtain ⟨⟨dp, w, e1, e2, e3, _⟩, h5⟩ := h
    rcases List.mem_cons.1 hvm with rfl | hvm1
    · rw [h2] at h1; cases h1; exact le_refl _
    · have := ih h5 v hvm1 dv dp h1 e1
      rw [e2] at h2
      cases h2
      exact le_trans this (FloatArith.le_add_of_nonneg (e3.weight_nonneg hv).1)

/-- The chain from a relaxed vertex back to `root` as a predecessor chain. -/
theorem WalkChain.pathChain {g : graph α} {root : Int} {d : List α} {p : List Int} :
    ∀ {walk : List Int} {u : Int} {du : α}, WalkChain g root d p (u :: walk) →
      rd d u = some du → PathChain g root p walk.length u du := by
  intro walk
  induction walk with
  | nil =>
    intro u du h h1
    obtain ⟨e1, e2, _⟩ := h
    rw [e2] at h1
    cases h1
    exact ⟨e1, rfl⟩
  | cons q rest ih =>
    intro u du h h1
    obtain ⟨⟨dp, w, e1, e2, e3, e4⟩, h5⟩ := h
    rw [e2] at h1
    cases h1
    exact ⟨q, dp, w, e4, e3, rfl, ih h5 e1⟩

theorem PathChain.reachable {g : graph α} {root : Int} {p : List Int} :
    ∀ {n : Nat} {v : Int} {d : α}, PathChain g root p n v d → g.Reachable root v := by
  intro n
  induction n with
  | zero => intro v d h; rw [h.1]; exact graph.Reachable.refl
  | succ n ih =>
    intro v d h
    obtain ⟨q, d0, w, _, e2, _, e4⟩ := h
    exact graph.Reachable.step (ih e4) e2

theorem WalkInv.of_eq {g : graph α} {root : Int} {s s1 : KState α} {walk : List Int}
    (hI : WalkInv g root s walk) (hd : s1.distance = s.distance) (hp : s1.path = s.path)
    (hn : s1.next_best = s.next_best) : WalkInv g root s1 walk :=
  ⟨by rw [hd]; exact hI.dlen, by rw [hp]; exact hI.plen, by rw [hn]; exact hI.head, hI.nodup,
    hI.range, by rw [hd]; exact hI.fin, by rw [hd, hp]; exact hI.chain⟩

/-- The adjacency range of a vertex of a valid graph. -/
theorem graph.Valid.adj_range {g : graph α} (hv : g.Valid) (u : Int) (h0 : 0 ≤ u)
    (h1 : u < g.V) :
    ∃ lo hi, rd g.offsets u = some lo ∧ g.next_offset u = some hi ∧ 0 ≤ lo ∧ lo ≤ hi ∧
      hi ≤ g.E := by
  obtain ⟨lo, hlo⟩ := rd_of_range g.offsets u h0 (by rw [hv.offsets_len]; exact h1)
  obtain ⟨z, hz⟩ := rd_of_range g.offsets 0 (le_refl _) (by rw [hv.offsets_len]; omega)
  have hz0 := hv.offsets_zero z hz
  subst hz0
  have hlo0 : 0 ≤ lo := hv.offsets_mono 0 u 0 lo h0 hz hlo
  by_cases hl : u = g.V - 1
  · exact ⟨lo, g.E, hlo, by simp [graph.next_offset, hl], hlo0, hv.offsets_le u lo hlo, le_refl _⟩
  · obtain ⟨hi, hhi⟩ := rd_of_range g.offsets (u + 1) (by omega)
      (by rw [hv.offsets_len]; omega)
    exact ⟨lo, hi, hlo, by simp [graph.next_offset, hl, hhi], hlo0,
      hv.offsets_mono u (u + 1) lo hi (by omega) hlo hhi, hv.offsets_le (u + 1) hi hhi⟩

theorem dst_n_eq (g : graph α) (best off : Int) :
    (if best = g.V - 1 then some (g.E - off)
      else (rd g.offsets (best + 1)).bind fun off1 => some (off1 - off)) =
    (g.next_offset best).bind fun hi => some (hi - off) := by
  unfold graph.next_offset
  split_ifs <;> rfl

/-- One iteration of the loop: it always succeeds, sets `best` to the old `next_best`,
and either relaxes a vertex that was not relaxed before or leaves the arrays
alone at a stuck vertex. -/
theorem dijkstra_body_spec {g : graph α} (hv : g.Valid) {root : Int} {s : KState α}
    {walk : List Int} (hI : WalkInv g root s walk) :
    ∃ s1, dijkstra_body g s = some s1 ∧ s1.best = s.next_best ∧
      ((s1.next_best = s.next_best ∧ s1.distance = s.distance ∧ s1.path = s.path ∧
          Stuck g s1 s.next_best) ∨
       (s1.next_best ∉ walk ∧ WalkInv g root s1 (s1.next_best :: walk))) := by
  obtain ⟨dist, path, best, h⟩ := s
  have hhead := hI.head
  simp only at hhead
  obtain ⟨t, rfl⟩ : ∃ t, walk = h :: t := by
    cases walk with
    | nil => simp at hhead
    | cons a t => simp at hhead; exact ⟨t, by rw [hhead]⟩
  have hdl := hI.dlen
  have hpl := hI.plen
  simp only at hdl hpl
  obtain ⟨hh0, hh1⟩ := hI.range h (List.mem_cons_self _ _)
  obtain ⟨dh, hdh⟩ := rd_of_range dist h hh0 (by omega)
  obtain ⟨lo, hi, hlo, hhi, hlo0, hlohi, hhiE⟩ := hv.adj_range h hh0 hh1
  simp only [dijkstra_body, hdh, hlo, Option.some_bind, dst_n_eq, hhi]
  by_cases hn : hi - lo = 0
  · rw [if_pos hn]
    refine ⟨_, rfl, rfl, Or.inl ⟨rfl, rfl, rfl, Or.inl ?_⟩⟩
    intro k
    simp only [graph.edgeAt, hlo, hhi, Option.some_bind]
    rw [if_neg (by omega)]
  · rw [if_neg hn]
    obtain ⟨dst, hdst⟩ := rd_of_range g.neighbors lo hlo0 (by rw [hv.neighbors_len]; omega)
    obtain ⟨w, hw⟩ := rd_of_range g.weights lo hlo0 (by rw [hv.weights_len]; omega)
    obtain ⟨hd0, hd1⟩ := hv.neighbors_range lo dst hdst
    obtain ⟨dd, hdd⟩ := rd_of_range dist dst hd0 (by omega)
    have hedge : g.edgeAt h lo = some (dst, w) := by
      simp only [graph.edgeAt, hlo, hhi, Option.some_bind]
      rw [if_pos ⟨le_refl _, by omega⟩]
      simp only [hdst, hw, Option.some_bind]
    simp only [hdst, hw, hdd, Option.some_bind]
    by_cases hlt : dh + w < dd
    · rw [if_pos hlt]
      have hnotin : dst ∉ h :: t := by
        intro hmem
        have h1 := hI.chain.dist_le_head hv dst hmem dd dh hdd hdh
        have h2 : dh ≤ dh + w := FloatArith.le_add_of_nonneg (hv.weights_range lo w hw).1
        exact absurd hlt (not_lt.2 (le_trans h1 h2))
      have hne : h ≠ dst := fun e => hnotin (e ▸ List.mem_cons_self _ _)
      rw [wr_of_range dist dst _ hd0 (by omega), wr_of_range path dst _ hd0 (by omega)]
      simp only [Option.some_bind]
      refine ⟨_, rfl, rfl, Or.inr ⟨hnotin, ?_⟩⟩
      refine ⟨by simpa using hdl, by simpa using hpl, rfl, List.nodup_cons.2 ⟨hnotin, hI.nodup⟩,
        ?_, ?_, ?_⟩
      · intro v hvm
        rcases List.mem_cons.1 hvm with rfl | hvm1
        · exact ⟨hd0, hd1⟩
        · exact hI.range v hvm1
      · intro v d hvd hfin
        by_cases e : v = dst
        · exact e ▸ List.mem_cons_self _ _
        · simp only at hvd
          rw [rd_set_ne dist dst v _ hd0 e] at hvd
          exact List.mem_cons_of_mem _ (hI.fin v d hvd hfin)
      · refine ⟨⟨dh, w, ?_, ?_, ⟨lo, hedge⟩, ?_⟩, ?_⟩
        · simp only
          rw [rd_set_ne dist dst h _ hd0 hne]; exact hdh
        · exact rd_set_self dist dst _ hd0 (by omega)
        · exact rd_set_self path dst _ hd0 (by omega)
        · refine hI.chain.frame ?_
          intro v hvm
          have e : v ≠ dst := fun e => hnotin (e ▸ hvm)
          exact ⟨rd_set_ne dist dst v _ hd0 e, rd_set_ne path dst v _ hd0 e⟩
    · rw [if_neg hlt]
      exact ⟨_, rfl, rfl, Or.inl ⟨rfl, rfl, rfl, Or.inr ⟨lo, dst, w, dh, dd, hlo, hedge, hdh, hdd, hlt⟩⟩⟩

theorem dijkstra_loop_exit (g : graph α) (goal : Int) (fuel : Nat) (s : KState α)
    (h : ¬ (s.best ≠ s.next_best ∧ s.best ≠ goal)) : dijkstra_loop g goal fuel s = some s := by
  cases fuel with
  | zero => simp only [dijkstra_loop]; rw [if_neg h]
  | succ n => simp only [dijkstra_loop]; rw [if_neg h]

theorem WalkInv.length_le {g : graph α} {root : Int} {s : KState α} {walk : List Int}
    (hI : WalkInv g root s walk) : (walk.length : Int) ≤ g.V :=
  nodup_length_le walk g.V (by have := hI.dlen; omega) hI.nodup hI.range

/-- The loop stops within the fuel that the unrelaxed vertices allow, and the
invariant holds for the state it stops in. -/
theorem dijkstra_loop_spec {g : graph α} (hv : g.Valid) (root goal : Int) :
    ∀ (fuel : Nat) (s : KState α) (walk : List Int), WalkInv g root s walk →
      g.V + 1 ≤ (fuel : Int) + walk.length →
      ∃ s1 walk1, dijkstra_loop g goal fuel s = some s1 ∧ WalkInv g root s1 walk1 ∧
        ¬ (s1.best ≠ s1.next_best ∧ s1.best ≠ goal) ∧
        ((s.best ≠ s.next_best ∧ s.best ≠ goal) → Expanded g s1 walk1) := by
  intro fuel
  induction fuel with
  | zero =>
    intro s walk hI hf
    have := hI.length_le
    by_cases hc : s.best ≠ s.next_best ∧ s.best ≠ goal
    · exfalso; push_cast at hf; omega
    · exact ⟨s, walk, dijkstra_loop_exit g goal 0 s hc, hI, hc, fun h => absurd h hc⟩
  | succ n ih =>
    intro s walk hI hf
    by_cases hc : s.best ≠ s.next_best ∧ s.best ≠ goal
    · obtain ⟨s1, hb, hbest, hcase⟩ := dijkstra_body_spec hv hI
      have hmem : s.next_best ∈ walk := by
        have := hI.head
        cases walk with
        | nil => simp at this
        | cons a t => simp at this; rw [this]; exact List.mem_cons_self _ _
      simp only [dijkstra_loop]
      rw [if_pos hc, hb, Option.some_bind]
      rcases hcase with ⟨e1, e2, e3, hst⟩ | ⟨hnot, hI1⟩
      · have hc1 : ¬ (s1.best ≠ s1.next_best ∧ s1.best ≠ goal) := by
          rw [hbest, e1]; simp
        refine ⟨s1, walk, dijkstra_loop_exit g goal n s1 hc1, hI.of_eq e2 e3 e1, hc1, fun _ => ?_⟩
        exact ⟨by rw [hbest]; exact hmem, fun _ => by rw [hbest]; exact hst⟩
      · by_cases hc1 : s1.best ≠ s1.next_best ∧ s1.best ≠ goal
        · obtain ⟨s2, walk2, r1, r2, r3, r4⟩ := ih s1 _ hI1 (by
            simp only [List.length_cons]; push_cast at hf ⊢; omega)
          exact ⟨s2, walk2, r1, r2, r3, fun _ => r4 hc1⟩
        · refine ⟨s1, _, dijkstra_loop_exit g goal n s1 hc1, hI1, hc1, fun _ => ?_⟩
          refine ⟨by rw [hbest]; exact List.mem_cons_of_mem _ hmem, fun e => ?_⟩
          exact absurd (by rw [← e, hbest]; exact hmem) hnot
    · exact ⟨s, walk, dijkstra_loop_exit g goal (n + 1) s hc, hI, hc, fun h => absurd h hc⟩

/-- The whole kernel on a valid graph with all incoming distances `+infinity`: with
fuel `V` it returns 0, and the arrays it returns satisfy the loop invariant. -/
theorem dijkstra_run {g : graph α} (hv : g.Valid) (root goal : Int) (hr0 : 0 ≤ root)
    (hr1 : root < g.V) (distance_mem : List α) (path_mem : List Int)
    (hd : (distance_mem.length : Int) = g.V) (hp : (path_mem.length : Int) = g.V)
    (hinf : ∀ d ∈ distance_mem, d = ⊤) (fuel : Nat) (hfuel : g.V ≤ fuel) :
    ∃ s walk, dijkstra fuel g root goal distance_mem path_mem = some (0, s.distance, s.path) ∧
      WalkInv g root s walk ∧ ¬ (s.best ≠ s.next_best ∧ s.best ≠ goal) ∧
      (goal ≠ (if root = 0 then 1 else 0) → Expanded g s walk) := by
  have hg : ({ g with offsets := g.offsets, neighbors := g.neighbors, weights := g.weights }
      : graph α) = g := by cases g; rfl
  let s0 : KState α := { distance := distance_mem.set root.toNat 0,
                          path := path_mem.set root.toNat root,
                          best := if root = 0 then 1 else 0, next_best := root }
  have hI0 : WalkInv g root s0 [root] := by
    refine ⟨by simpa [s0] using hd, by simpa [s0] using hp, rfl, List.nodup_singleton _, ?_, ?_, ?_⟩
    · intro v hvm; rw [List.mem_singleton.1 hvm]; exact ⟨hr0, hr1⟩
    · intro v d hvd hfin
      by_cases e : v = root
      · exact e ▸ List.mem_singleton_self _
      · simp only [s0] at hvd
        rw [rd_set_ne distance_mem root v _ hr0 e] at hvd
        unfold rd at hvd
        split_ifs at hvd
        exact absurd (hinf d (List.mem_iff_getElem?.2 ⟨_, hvd⟩)) hfin
    · exact ⟨rfl, rd_set_self distance_mem root 0 hr0 (by omega),
        rd_set_self path_mem root root hr0 (by omega)⟩
  obtain ⟨s1, walk1, r1, r2, r3, r4⟩ := dijkstra_loop_spec hv root goal fuel s0 [root] hI0 (by
    simp only [List.length_singleton]; push_cast; omega)
  refine ⟨s1, walk1, ?_, r2, r3, ?_⟩
  · simp only [dijkstra, memcpy_all _ _ hd, memcpy_all _ _ hp, memcpy_all _ _ hv.offsets_len,
      memcpy_all _ _ hv.neighbors_len, memcpy_all _ _ hv.weights_len, Option.some_bind, hg,
      wr_of_range distance_mem root 0 hr0 (by omega), wr_of_range path_mem root root hr0 (by omega)]
    rw [show dijkstra_loop g goal fuel _ = some s1 from r1]
    simp only [Option.some_bind, drop_all _ _ hd, drop_all _ _ hp, List.append_nil]
  · intro hgoal
    refine r4 ⟨?_, ?_⟩
    · simp only [s0]; split_ifs with h0 <;> omega
    · simp only [s0]; exact fun e => hgoal e.symm

theorem graph.walk_append (g : graph α) (ks1 ks2 : List Int) :
    ∀ (u : Int) (d : α), g.walk u d (ks1 ++ ks2) =
      (g.walk u d ks1).bind (fun r => g.walk r.1 r.2 ks2) := by
  induction ks1 with
  | nil => intro u d; rfl
  | cons k t ih =>
    intro u d
    simp only [List.cons_append, graph.walk]
    cases he : g.edgeAt u k with
    | none => rfl
    | some e => simp only [Option.some_bind]; exact ih _ _

theorem graph.walk_concat {g : graph α} {u v x : Int} {d dv w : α} {ks : List Int} {k : Int}
    (h : g.walk u d ks = some (v, dv)) (he : g.edgeAt v k = some (x, w)) :
    g.walk u d (ks ++ [k]) = some (x, dv + w) := by
  rw [g.walk_append, h]
  simp only [Option.some_bind, graph.walk, he]

theorem graph.edgeAt_range {g : graph α} {u k : Int} {e : Int × α} (h : g.edgeAt u k = some e) :
    ∃ lo hi, rd g.offsets u = some lo ∧ g.next_offset u = some hi ∧ lo ≤ k ∧ k < hi ∧
      rd g.neighbors k = some e.1 ∧ rd g.weights k = some e.2 := by
  unfold graph.edgeAt at h
  cases h1 : rd g.offsets u with
  | none => simp [h1] at h
  | some lo =>
    cases h2 : g.next_offset u with
    | none => simp [h1, h2] at h
    | some hi =>
      simp only [h1, h2, Option.some_bind] at h
      split_ifs at h with hr
      cases h3 : rd g.neighbors k with
      | none => simp [h3] at h
      | some x =>
        cases h4 : rd g.weights k with
        | none => simp [h3, h4] at h
        | some y =>
          simp only [h3, h4, Option.some_bind, Option.some.injEq] at h
          subst h
          exact ⟨lo, hi, rfl, rfl, hr.1, hr.2, rfl, rfl⟩

/-- With at most one out-edge per vertex, the edge that leaves a vertex is determined. -/
theorem graph.OutDegreeLeOne.det {g : graph α} (hl : g.OutDegreeLeOne) {u k1 k2 : Int}
    {e1 e2 : Int × α} (h1 : g.edgeAt u k1 = some e1) (h2 : g.edgeAt u k2 = some e2) :
    k1 = k2 ∧ e1 = e2 := by
  obtain ⟨lo, hi, a1, a2, a3, a4, _, _⟩ := g.edgeAt_range h1
  obtain ⟨lo2, hi2, b1, b2, b3, b4, _, _⟩ := g.edgeAt_range h2
  rw [a1] at b1; rw [a2] at b2
  cases b1; cases b2
  have := hl u lo hi a1 a2
  have hk : k1 = k2 := by omega
  subst hk
  rw [h1] at h2
  cases h2
  exact ⟨rfl, rfl⟩

theorem graph.walk_mono {g : graph α} (hv : g.Valid) :
    ∀ (ks : List Int) (u : Int) (d : α) (r : Int × α), g.walk u d ks = some r → d ≤ r.2 := by
  intro ks
  induction ks with
  | nil => intro u d r h; simp only [graph.walk] at h; cases h; exact le_refl _
  | cons k t ih =>
    intro u d r h
    simp only [graph.walk] at h
    cases he : g.edgeAt u k with
    | none => rw [he] at h; cases h
    | some e =>
      rw [he] at h
      simp only [Option.some_bind] at h
      have hw : 0 ≤ e.2 := (graph.HasEdge.weight_nonneg hv ⟨k, he⟩).1
      exact le_trans (FloatArith.le_add_of_nonneg hw) (ih _ _ _ h)

theorem graph.walk_end_range {g : graph α} (hv : g.Valid) :
    ∀ (ks : List Int) (u : Int) (d : α) (r : Int × α), ks ≠ [] → g.walk u d ks = some r →
      0 ≤ r.1 ∧ r.1 < g.V := by
  intro ks
  induction ks with
  | nil => intro u d r hne; exact absurd rfl hne
  | cons k t ih =>
    intro u d r _ h
    simp only [graph.walk] at h
    cases he : g.edgeAt u k with
    | none => rw [he] at h; cases h
    | some e =>
      rw [he] at h
      simp only [Option.some_bind] at h
      cases t with
      | nil =>
        simp only [graph.walk] at h
        cases h
        obtain ⟨_, _, _, _, _, _, hn, _⟩ := g.edgeAt_range he
        exact hv.neighbors_range k _ hn
      | cons k2 t2 => exact ih _ _ _ (by simp) h

/-- Two walks from the same start in a graph with at most one out-edge per vertex:
the shorter one is an initial part of the longer one. -/
theorem graph.walk_prefix {g : graph α} (hl : g.OutDegreeLeOne) :
    ∀ (ks1 ks2 : List Int) (u : Int) (d : α) (r1 r2 : Int × α),
      g.walk u d ks1 = some r1 → g.walk u d ks2 = some r2 → ks1.length ≤ ks2.length →
      ∃ rest, ks2 = ks1 ++ rest ∧ g.walk r1.1 r1.2 rest = some r2 := by
  intro ks1
  induction ks1 with
  | nil =>
    intro ks2 u d r1 r2 h1 h2 _
    simp only [graph.walk] at h1
    cases h1
    exact ⟨ks2, rfl, h2⟩
  | cons k t ih =>
    intro ks2 u d r1 r2 h1 h2 hlen
    cases ks2 with
    | nil => simp at hlen
    | cons k2 t2 =>
      simp only [graph.walk] at h1 h2
      cases he1 : g.edgeAt u k with
      | none => rw [he1] at h1; cases h1
      | some e1 =>
        cases he2 : g.edgeAt u k2 with
        | none => rw [he2] at h2; cases h2
        | some e2 =>
          obtain ⟨hk, hee⟩ := hl.det he1 he2
          subst hk; subst hee
          rw [he1] at h1 h2
          simp only [Option.some_bind] at h1 h2
          obtain ⟨rest, e, hr⟩ := ih t2 _ _ r1 r2 h1 h2 (by simpa using hlen)
          exact ⟨rest, by rw [e]; rfl, hr⟩

/-- The relaxed vertices are exactly the vertices of a walk from `root`, and
`distance[]` holds the weight accumulated along it. -/
theorem WalkChain.walk {g : graph α} {root : Int} {dist : List α} {p : List Int} :
    ∀ {t : List Int} {u : Int} {du : α}, WalkChain g root dist p (u :: t) →
      rd dist u = some du →
      ∃ ks, g.walk root 0 ks = some (u, du) ∧
        ∀ pre r, pre <+: ks → g.walk root 0 pre = some r →
          r.1 ∈ u :: t ∧ rd dist r.1 = some r.2 := by
  intro t
  induction t with
  | nil =>
    intro u du h hu
    obtain ⟨e1, e2, _⟩ := h
    rw [e2] at hu
    cases hu
    subst e1
    refine ⟨[], rfl, ?_⟩
    intro pre r hpre hw
    rw [List.prefix_nil.1 hpre] at hw
    simp only [graph.walk] at hw
    cases hw
    exact ⟨List.mem_singleton_self _, e2⟩
  | cons q rest ih =>
    intro u du h hu
    obtain ⟨⟨dp, w, e1, e2, ⟨k, he⟩, _⟩, h5⟩ := h
    rw [e2] at hu
    cases hu
    obtain ⟨ks, hks, hpre⟩ := ih h5 e1
    refine ⟨ks ++ [k], graph.walk_concat hks he, ?_⟩
    intro pre r hp hw
    rcases List.prefix_concat_iff.1 hp with e | hp1
    · rw [e, graph.walk_concat hks he] at hw
      cases hw
      exact ⟨List.mem_cons_self _ _, e2⟩
    · obtain ⟨m1, m2⟩ := hpre pre r hp1 hw
      exact ⟨List.mem_cons_of_mem _ m1, m2⟩

/-- From every relaxed vertex a walk leads to the most recently relaxed one. -/
theorem WalkChain.walk_to_head {g : graph α} {root : Int} {dist : List α} {p : List Int} :
    ∀ {t : List Int} {u : Int} {du : α}, WalkChain g root dist p (u :: t) →
      rd dist u = some du → ∀ v ∈ u :: t, ∀ dv, rd dist v = some dv →
      ∃ ks, g.walk v dv ks = some (u, du) := by
  intro t
  induction t with
  | nil =>
    intro u du _ hu v hvm dv hdv
    rw [List.mem_singleton.1 hvm, hu] at hdv
    cases hdv
    exact ⟨[], by rw [List.mem_singleton.1 hvm]; rfl⟩
  | cons q rest ih =>
    intro u du h hu v hvm dv hdv
    obtain ⟨⟨dp, w, e1, e2, ⟨k, he⟩, _⟩, h5⟩ := h
    rw [e2] at hu
    cases hu
    rcases List.mem_cons.1 hvm with rfl | hvm1
    · rw [e2] at hdv
      cases hdv
      exact ⟨[], rfl⟩
    · obtain ⟨ks, hks⟩ := ih h5 e1 v hvm1 dv hdv
      exact ⟨ks ++ [k], graph.walk_concat hks he⟩

theorem rd_map_range {β : Type} (f : Nat → β) (n : Nat) {i : Int} {x : β}
    (h : rd ((List.range n).map f) i = some x) : x = f i.toNat := by
  unfold rd at h
  split_ifs at h
  rw [List.getElem?_map] at h
  cases hr : (List.range n)[i.toNat]? with
  | none => rw [hr] at h; cases h
  | some m =>
    rw [hr] at h
    obtain ⟨_, e⟩ := List.getElem?_eq_some_iff.1 hr
    rw [List.getElem_range] at e
    subst e
    simpa using h.symm

theorem chain_offsets_rd {ws : List α} {u lo : Int} (h : rd (chain ws).offsets u = some lo) :
    lo = u := by
  have h1 : rd ((List.range (ws.length + 1)).map (fun i : Nat => (i : Int))) u = some lo := h
  have hu := rd_range h1
  have := rd_map_range (fun i : Nat => (i : Int)) _ h1
  simp only at this
  omega

theorem chain_neighbors_rd {ws : List α} {k v : Int} (h : rd (chain ws).neighbors k = some v) :
    v = k + 1 := by
  have h1 : rd ((List.range ws.length).map (fun i : Nat => (i : Int) + 1)) k = some v := h
  have hk := rd_range h1
  have := rd_map_range (fun i : Nat => (i : Int) + 1) _ h1
  simp only at this
  omega

theorem chain_outDegreeLeOne (ws : List α) : (chain ws).OutDegreeLeOne := by
  intro u lo hi h1 h2
  have elo := chain_offsets_rd h1
  unfold graph.next_offset at h2
  split_ifs at h2 with hlast
  · cases h2
    have e1 : (chain ws).V = ws.length + 1 := rfl
    have e2 : (chain ws).E = ws.length := rfl
    omega
  · have := chain_offsets_rd h2
    omega

/-- In a linear chain the only edge that leaves `u` sits at position `u` and leads to
`u + 1`. -/
theorem chain_edgeAt {ws : List α} {u k : Int} {e : Int × α}
    (h : (chain ws).edgeAt u k = some e) : k = u ∧ e.1 = u + 1 := by
  obtain ⟨lo, hi, h1, h2, h3, h4, h5, _⟩ := (chain ws).edgeAt_range h
  have elo := chain_offsets_rd h1
  have ehi := chain_outDegreeLeOne ws u lo hi h1 h2
  have hk : k = u := by omega
  have := chain_neighbors_rd h5
  exact ⟨hk, by omega⟩

theorem chain_walk_end (ws : List α) :
    ∀ (ks : List Int) (u : Int) (d : α) (r : Int × α), (chain ws).walk u d ks = some r →
      r.1 = u + ks.length := by
  intro ks
  induction ks with
  | nil => intro u d r h; simp only [graph.walk] at h; cases h; simp
  | cons k t ih =>
    intro u d r h
    simp only [graph.walk] at h
    cases he : (chain ws).edgeAt u k with
    | none => rw [he] at h; cases h
    | some e =>
      rw [he] at h
      simp only [Option.some_bind] at h
      have := ih _ _ _ h
      rw [this, (chain_edgeAt he).2, List.length_cons]
      push_cast
      omega

theorem chain_acyclic (ws : List α) : (chain ws).Acyclic := by
  intro u d ks d1 h
  have := chain_walk_end ws ks u d _ h
  simp only at this
  apply List.eq_nil_of_length_eq_zero
  omega

/-- With at most one out-edge per vertex and no cycle, a walk from `root` to `goal` is
the only one, hence the unique shortest path. -/
theorem graph.uniqueShortest_of_walk {g : graph α} (hl : g.OutDegreeLeOne) (hac : g.Acyclic)
    {root goal : Int} {ks : List Int} {d : α} (h : g.walk root 0 ks = some (goal, d)) :
    g.UniqueShortest root goal ks d := by
  have key : ∀ ks1 d1, g.walk root 0 ks1 = some (goal, d1) → ks1 = ks ∧ d1 = d := by
    intro ks1 d1 h1
    by_cases hlen : ks1.length ≤ ks.length
    · obtain ⟨rest, e, hr⟩ := graph.walk_prefix hl ks1 ks root 0 _ _ h1 h hlen
      have := hac goal d1 rest d hr
      subst this
      simp only [graph.walk, Option.some.injEq, Prod.mk.injEq, true_and] at hr
      exact ⟨by simpa using e.symm, hr⟩
    · obtain ⟨rest, e, hr⟩ := graph.walk_prefix hl ks ks1 root 0 _ _ h h1 (by omega)
      have := hac goal d rest d1 hr
      subst this
      simp only [graph.walk, Option.some.injEq, Prod.mk.injEq, true_and] at hr
      exact ⟨by simpa using e, hr.symm⟩
  exact ⟨⟨h, fun ks1 d1 h1 => by rw [(key ks1 d1 h1).2]⟩, fun ks1 h1 => (key ks1 d h1).1⟩

/-- On a valid acyclic graph with at most one out-edge per vertex, when a walk leads
from `root` to `goal` and `goal` is not the start value `!root` of `best`, the
kernel returns with `distance[goal]` equal to the weight of that walk, accumulated
in path order. -/
theorem dijkstra_list_distance (g : graph α) (hv : g.Valid) (hl : g.OutDegreeLeOne)
    (hac : g.Acyclic) (root goal : Int) (hr0 : 0 ≤ root) (hr1 : root < g.V)
    (hgoal : goal ≠ (if root = 0 then 1 else 0)) (ks : List Int) (d : α)
    (hks : g.walk root 0 ks = some (goal, d)) (distance_mem : List α) (path_mem : List Int)
    (hd : (distance_mem.length : Int) = g.V) (hp : (path_mem.length : Int) = g.V)
    (hinf : ∀ d ∈ distance_mem, d = ⊤) (fuel : Nat) (hfuel : g.V ≤ fuel) :
    ∃ s walk, dijkstra fuel g root goal distance_mem path_mem = some (0, s.distance, s.path) ∧
      WalkInv g root s walk ∧ rd s.distance goal = some d := by
  obtain ⟨s, walk, hrun, hI, hexit, hexp⟩ :=
    dijkstra_run hv root goal hr0 hr1 distance_mem path_mem hd hp hinf fuel hfuel
  obtain ⟨hbest_mem, hstuck⟩ := hexp hgoal
  refine ⟨s, walk, hrun, hI, ?_⟩
  obtain ⟨t, hwalk⟩ : ∃ t, walk = s.next_best :: t := by
    have := hI.head
    cases walk with
    | nil => simp at this
    | cons a t => simp at this; exact ⟨t, by rw [this]⟩
  have hch := hI.chain
  rw [hwalk] at hch
  obtain ⟨dh, hdh⟩ := hch.head_dist
  obtain ⟨kh, hkh, hpre⟩ := hch.walk hdh
  by_cases hlen : ks.length ≤ kh.length
  · obtain ⟨rest, e, _⟩ := graph.walk_prefix hl ks kh root 0 _ _ hks hkh hlen
    exact (hpre ks (goal, d) (e ▸ List.prefix_append ks rest) hks).2
  · obtain ⟨rest, e, hrest⟩ := graph.walk_prefix hl kh ks root 0 _ _ hkh hks (by omega)
    simp only at hrest
    cases rest with
    | nil => rw [e] at hlen; simp at hlen
    | cons k rest1 =>
      obtain ⟨hg0, hg1⟩ := graph.walk_end_range hv (k :: rest1) _ _ _ (by simp) hrest
      simp only at hg0 hg1
      obtain ⟨dg, hdg⟩ := rd_of_range s.distance goal hg0 (by rw [hI.dlen]; exact hg1)
      by_cases hgm : goal ∈ walk
      · exfalso
        obtain ⟨ks2, hks2⟩ := hch.walk_to_head hdh goal (hwalk ▸ hgm) dg hdg
        have hcyc : g.walk goal dg (ks2 ++ k :: rest1) = some (goal, d) := by
          rw [g.walk_append, hks2]; exact hrest
        have := hac goal dg _ d hcyc
        simp at this
      · have hdg_top : dg = ⊤ := by
          by_contra hfin
          exact hgm (hI.fin goal dg hdg hfin)
        have hbe : s.best = s.next_best := by
          by_contra hne
          have hbg : s.best = goal := by
            by_contra hne2
            exact hexit ⟨hne, hne2⟩
          exact hgm (hbg ▸ hbest_mem)
        have hrest1 := hrest
        simp only [graph.walk] at hrest1
        cases he : g.edgeAt s.next_best k with
        | none => rw [he] at hrest1; cases hrest1
        | some e1 =>
          rw [he] at hrest1
          simp only [Option.some_bind] at hrest1
          rcases hstuck hbe with hA | ⟨lo, dst, w, dh1, dd, _, hB, hdh1, hdd, hnlt⟩
          · rw [← hbe, hA k] at he; cases he
          · rw [hbe] at hB hdh1
            rw [hdh] at hdh1
            cases hdh1
            obtain ⟨hk, hee⟩ := hl.det he hB
            subst hk; subst hee
            by_cases hdm : dst ∈ walk
            · exfalso
              obtain ⟨ks3, hks3⟩ := hch.walk_to_head hdh dst (hwalk ▸ hdm) dd hdd
              have := hac dst dd _ _ (graph.walk_concat hks3 he)
              simp at this
            · have hdd_top : dd = ⊤ := by
                by_contra hfin
                exact hdm (hI.fin dst dd hdd hfin)
              rw [hdd_top] at hnlt
              have htop : dh + w = ⊤ := FloatArith.eq_top_of_not_lt_top hnlt
              have hmono := graph.walk_mono hv rest1 _ _ _ hrest1
              simp only at hmono
              rw [htop] at hmono
              rw [hdg, hdg_top, FloatArith.eq_top_of_top_le hmono]

theorem rd_map_range_some {β : Type} (f : Nat → β) (n i : Nat) (hi : i < n) :
    rd ((List.range n).map f) (i : Int) = some (f i) := by
  unfold rd
  rw [if_pos (by omega), Int.toNat_ofNat, List.getElem?_map, List.getElem?_range hi]
  rfl

theorem chain_valid (ws : List α) (hw : ∀ w ∈ ws, 0 ≤ w ∧ w ≠ ⊤) : (chain ws).Valid := by
  refine ⟨by simp [chain], by simp [chain], by simp [chain], Or.inr ?_, ?_, ?_, ?_, hw⟩
  · exact rd_map_range_some (fun i : Nat => (i : Int)) (ws.length + 1) 0 (by omega)
  · exact List.pairwise_map.2 ((List.pairwise_lt_range _).imp (fun h => by omega))
  · intro a ha
    obtain ⟨i, hi, rfl⟩ := List.mem_map.1 ha
    have := List.mem_range.1 hi
    simp only [chain]
    omega
  · intro v hv
    obtain ⟨i, hi, rfl⟩ := List.mem_map.1 hv
    have := List.mem_range.1 hi
    simp only [chain]
    omega

theorem chain_edgeAt_self (ws : List α) (u : Nat) (hu : u < ws.length) :
    (chain ws).edgeAt u u = some ((u : Int) + 1, ws.getD u 0) := by
  have h1 : rd (chain ws).offsets (u : Int) = some (u : Int) :=
    rd_map_range_some (fun i : Nat => (i : Int)) (ws.length + 1) u (by omega)
  have h2 : (chain ws).next_offset (u : Int) = some ((u : Int) + 1) := by
    unfold graph.next_offset
    by_cases hl : (u : Int) = (chain ws).V - 1
    · rw [if_pos hl]
      simp only [chain] at hl ⊢
      omega
    · rw [if_neg hl]
      have := rd_map_range_some (fun i : Nat => (i : Int)) (ws.length + 1) (u + 1) (by omega)
      simpa using this
  have h3 : rd (chain ws).neighbors (u : Int) = some ((u : Int) + 1) :=
    rd_map_range_some (fun i : Nat => (i : Int) + 1) ws.length u hu
  have h4 : rd (chain ws).weights (u : Int) = some (ws.getD u 0) := by
    unfold rd
    rw [if_pos (by omega), Int.toNat_ofNat]
    simp only [chain]
    rw [List.getD_eq_getElem?_getD, List.getElem?_eq_getElem hu]
    rfl
  simp only [graph.edgeAt, h1, h2, Option.some_bind]
  rw [if_pos ⟨le_refl _, by omega⟩]
  simp only [h3, h4, Option.some_bind]

/-- The walk along a chain from `root` over `m` edges. -/
theorem chain_walk (ws : List α) (root : Nat) :
    ∀ m, root + m ≤ ws.length →
      (chain ws).walk root 0 ((List.range' root m).map fun i : Nat => (i : Int)) =
        some (((root + m : Nat) : Int), chainDist ws root m) := by
  intro m
  induction m with
  | zero => intro _; rfl
  | succ m ih =>
    intro hm
    rw [List.range'_concat, List.map_append]
    simp only [List.map_cons, List.map_nil, Nat.one_mul]
    have he := chain_edgeAt_self ws (root + m) (by omega)
    have := graph.walk_concat (ih (by omega)) he
    rw [this]
    simp only [chainDist]
    congr 2

/-- In a chain the predecessor chain from `v` walks down `v, v-1, ...` to `root`. -/
theorem chain_followPath (ws : List α) (root : Int) (path : List Int) :
    ∀ (n : Nat) (v : Int) (d : α), PathChain (chain ws) root path n v d →
      followPath path n v = some (descFrom v n) ∧ v = root + n := by
  intro n
  induction n with
  | zero => intro v d h; exact ⟨rfl, by rw [h.1]; simp⟩
  | succ n ih =>
    intro v d h
    obtain ⟨p, d0, w, h1, ⟨k, hk⟩, _, h4⟩ := h
    have hv : v = p + 1 := (chain_edgeAt hk).2
    obtain ⟨i1, i2⟩ := ih p d0 h4
    have hp : p = v - 1 := by omega
    refine ⟨?_, by push_cast; omega⟩
    subst hp
    simp only [followPath, h1, Option.some_bind, i1, Option.map_some', descFrom]

/-- The behaviour claimed in C3, away from the slip: on every linear chain with finite
non-negative weights, for every `root ≤ goal` other than `root = 0`, `goal = 1`,
when the accumulated weight is finite the kernel leaves in `distance[goal]` the
weights of the edges from `root` to `goal` added up, and `path[]` followed from
`goal` visits `goal, goal-1, ..., root`. -/
theorem chain_kernel_away_from_slip (ws : List α) (hw : ∀ w ∈ ws, 0 ≤ w ∧ w ≠ ⊤)
    (root goal : Nat) (hrg : root ≤ goal) (hg : goal ≤ ws.length)
    (hslip : ¬ (root = 0 ∧ goal = 1)) (hfin : chainDist ws root (goal - root) ≠ ⊤)
    (distance_mem : List α) (path_mem : List Int)
    (hd : distance_mem.length = ws.length + 1) (hp : path_mem.length = ws.length + 1)
    (hinf : ∀ d ∈ distance_mem, d = ⊤) (fuel : Nat) (hfuel : ws.length + 1 ≤ fuel) :
    ∃ distance path,
      dijkstra fuel (chain ws) root goal distance_mem path_mem = some (0, distance, path) ∧
      rd distance goal = some (chainDist ws root (goal - root)) ∧
      followPath path (goal - root) goal = some (descFrom goal (goal - root)) := by
  have hV : (chain ws).V = (ws.length : Int) + 1 := rfl
  have hgoal : (goal : Int) ≠ (if (root : Int) = 0 then 1 else 0) := by
    split_ifs with h0
    · intro h1; exact hslip ⟨by omega, by omega⟩
    · omega
  have hwalk := chain_walk ws root (goal - root) (by omega)
  rw [show root + (goal - root) = goal by omega] at hwalk
  obtain ⟨s, walk, hrun, hI, hgd⟩ := dijkstra_list_distance (chain ws) (chain_valid ws hw)
    (chain_outDegreeLeOne ws) (chain_acyclic ws) root goal (by omega) (by rw [hV]; omega) hgoal
    _ _ hwalk distance_mem path_mem (by rw [hV, hd]; push_cast; rfl)
    (by rw [hV, hp]; push_cast; rfl) hinf fuel (by rw [hV]; omega)
  refine ⟨s.distance, s.path, hrun, hgd, ?_⟩
  obtain ⟨l1, l2, hsplit⟩ := List.append_of_mem (hI.fin goal _ hgd hfin)
  have hch := hI.chain
  rw [hsplit] at hch
  obtain ⟨f1, f2⟩ := chain_followPath ws root s.path _ _ _ ((hch.suffix l1).pathChain hgd)
  have : l2.length = goal - root := by omega
  rw [this] at f1
  exact f1

theorem WalkOrder.congr_state {g : graph α} {root : Int} {s s1 : KState α} {walk : List Int}
    (hI : WalkOrder g root s walk) (hd : s1.distance = s.distance) (hp : s1.path = s.path)
    (hn : s1.next_best = s.next_best) : WalkOrder g root s1 walk :=
  ⟨by rw [hd]; exact hI.dlen, by rw [hp]; exact hI.plen, by rw [hn]; exact hI.head, hI.nodup,
    hI.range, by rw [hd, hp]; exact hI.chain⟩

theorem WalkOrder.walk_length_le {g : graph α} {root : Int} {s : KState α} {walk : List Int}
    (hI : WalkOrder g root s walk) : (walk.length : Int) ≤ g.V :=
  nodup_length_le walk g.V (by have := hI.dlen; omega) hI.nodup hI.range

/-- One iteration of the loop, whatever the incoming distances: it succeeds, expands
the old `next_best`, and either relaxes a vertex that was not relaxed before or
leaves `next_best` and the arrays alone. -/
theorem dijkstra_body_order {g : graph α} (hv : g.Valid) {root : Int} {s : KState α}
    {walk : List Int} (hI : WalkOrder g root s walk) :
    ∃ s1, dijkstra_body g s = some s1 ∧ s1.best = s.next_best ∧
      ((s1.next_best = s.next_best ∧ WalkOrder g root s1 walk) ∨
       (s1.next_best ∉ walk ∧ WalkOrder g root s1 (s1.next_best :: walk))) := by
  obtain ⟨dist, path, best, h⟩ := s
  have hhead := hI.head
  simp only at hhead
  obtain ⟨t, rfl⟩ : ∃ t, walk = h :: t := by
    cases walk with
    | nil => simp at hhead
    | cons a t => simp at hhead; exact ⟨t, by rw [hhead]⟩
  have hdl := hI.dlen
  have hpl := hI.plen
  simp only at hdl hpl
  obtain ⟨hh0, hh1⟩ := hI.range h (List.mem_cons_self _ _)
  obtain ⟨dh, hdh⟩ := rd_of_range dist h hh0 (by omega)
  obtain ⟨lo, hi, hlo, hhi, hlo0, hlohi, hhiE⟩ := hv.adj_range h hh0 hh1
  simp only [dijkstra_body, hdh, hlo, Option.some_bind, dst_n_eq, hhi]
  by_cases hn : hi - lo = 0
  · rw [if_pos hn]
    exact ⟨_, rfl, rfl, Or.inl ⟨rfl, hI.congr_state rfl rfl rfl⟩⟩
  · rw [if_neg hn]
    obtain ⟨dst, hdst⟩ := rd_of_range g.neighbors lo hlo0 (by rw [hv.neighbors_len]; omega)
    obtain ⟨w, hw⟩ := rd_of_range g.weights lo hlo0 (by rw [hv.weights_len]; omega)
    obtain ⟨hd0, hd1⟩ := hv.neighbors_range lo dst hdst
    obtain ⟨dd, hdd⟩ := rd_of_range dist dst hd0 (by omega)
    have hedge : g.edgeAt h lo = some (dst, w) := by
      simp only [graph.edgeAt, hlo, hhi, Option.some_bind]
      rw [if_pos ⟨le_refl _, by omega⟩]
      simp only [hdst, hw, Option.some_bind]
    simp only [hdst, hw, hdd, Option.some_bind]
    by_cases hlt : dh + w < dd
    · rw [if_pos hlt]
      have hnotin : dst ∉ h :: t := by
        intro hmem
        have h1 := hI.chain.dist_le_head hv dst hmem dd dh hdd hdh
        have h2 : dh ≤ dh + w := FloatArith.le_add_of_nonneg (hv.weights_range lo w hw).1
        exact absurd hlt (not_lt.2 (le_trans h1 h2))
      have hne : h ≠ dst := fun e => hnotin (e ▸ List.mem_cons_self _ _)
      rw [wr_of_range dist dst _ hd0 (by omega), wr_of_range path dst _ hd0 (by omega)]
      simp only [Option.some_bind]
      refine ⟨_, rfl, rfl, Or.inr ⟨hnotin, ?_⟩⟩
      refine ⟨by simpa using hdl, by simpa using hpl, rfl, List.nodup_cons.2 ⟨hnotin, hI.nodup⟩,
        ?_, ?_⟩
      · intro v hvm
        rcases List.mem_cons.1 hvm with rfl | hvm1
        · exact ⟨hd0, hd1⟩
        · exact hI.range v hvm1
      · refine ⟨⟨dh, w, ?_, ?_, ⟨lo, hedge⟩, ?_⟩, ?_⟩
        · simp only
          rw [rd_set_ne dist dst h _ hd0 hne]; exact hdh
        · exact rd_set_self dist dst _ hd0 (by omega)
        · exact rd_set_self path dst _ hd0 (by omega)
        · refine hI.chain.frame ?_
          intro v hvm
          have e : v ≠ dst := fun e => hnotin (e ▸ hvm)
          exact ⟨rd_set_ne dist dst v _ hd0 e, rd_set_ne path dst v _ hd0 e⟩
    · rw [if_neg hlt]
      exact ⟨_, rfl, rfl, Or.inl ⟨rfl, hI.congr_state rfl rfl rfl⟩⟩

/-- The instrumented loop is the loop: forgetting the list of expanded vertices gives
`dijkstra_loop`. -/
theorem dijkstra_loop_trace_state (g : graph α) (goal : Int) :
    ∀ (fuel : Nat) (s : KState α),
      (dijkstra_loop_trace g goal fuel s).map Prod.snd = dijkstra_loop g goal fuel s := by
  intro fuel
  induction fuel with
  | zero =>
    intro s
    simp only [dijkstra_loop_trace, dijkstra_loop]
    split_ifs <;> rfl
  | succ n ih =>
    intro s
    simp only [dijkstra_loop_trace, dijkstra_loop]
    split_ifs
    · cases hb : dijkstra_body g s with
      | none => rfl
      | some s1 =>
        simp only [Option.some_bind]
        rw [← ih s1]
        cases dijkstra_loop_trace g goal n s1 <;> rfl
    · rfl

theorem dijkstra_loop_trace_exit (g : graph α) (goal : Int) (fuel : Nat) (s : KState α)
    (h : ¬ (s.best ≠ s.next_best ∧ s.best ≠ goal)) :
    dijkstra_loop_trace g goal fuel s = some ([], s) := by
  cases fuel with
  | zero => simp only [dijkstra_loop_trace]; rw [if_neg h]
  | succ n => simp only [dijkstra_loop_trace]; rw [if_neg h]

/-- The loop expands the current `next_best` and then only vertices that it relaxes
for the first time; it needs exactly as much fuel as it expands vertices. -/
theorem dijkstra_loop_trace_spec {g : graph α} (hv : g.Valid) (root goal : Int) :
    ∀ (n : Nat) (s : KState α) (h : Int) (t : List Int), WalkOrder g root s (h :: t) →
      g.V + 1 ≤ (n : Int) + (h :: t).length →
      ∃ trace s1 ext, WalkOrder g root s1 (ext ++ h :: t) ∧
        List.Sublist trace.reverse (ext ++ [h]) ∧
        ∀ fuel, trace.length ≤ fuel → dijkstra_loop_trace g goal fuel s = some (trace, s1) := by
  intro n
  induction n with
  | zero =>
    intro s h t hI hn
    have := hI.walk_length_le
    exfalso; push_cast at hn; omega
  | succ n ih =>
    intro s h t hI hn
    by_cases hc : s.best ≠ s.next_best ∧ s.best ≠ goal
    · obtain ⟨s1, hb, hbest, hcase⟩ := dijkstra_body_order hv hI
      have hnb : s.next_best = h := by
        have := hI.head
        simpa using this.symm
      rcases hcase with ⟨e1, hI1⟩ | ⟨hnot, hI1⟩
      · have hc1 : ¬ (s1.best ≠ s1.next_best ∧ s1.best ≠ goal) := by
          rw [hbest, e1]; simp
        refine ⟨[h], s1, [], hI1, by simp, ?_⟩
        intro fuel hf
        cases fuel with
        | zero => simp at hf
        | succ f =>
          simp only [dijkstra_loop_trace]
          rw [if_pos hc, hb, Option.some_bind, dijkstra_loop_trace_exit g goal f s1 hc1,
            Option.some_bind, hbest, hnb]
      · obtain ⟨trace, s2, ext, r1, r2, r3⟩ := ih s1 s1.next_best (h :: t) hI1 (by
          simp only [List.length_cons] at hn ⊢; push_cast at hn ⊢; omega)
        refine ⟨h :: trace, s2, ext ++ [s1.next_best], by simpa using r1, ?_, ?_⟩
        · rw [List.reverse_cons]
          exact r2.append (List.Sublist.refl _)
        · intro fuel hf
          cases fuel with
          | zero => simp at hf
          | succ f =>
            simp only [dijkstra_loop_trace]
            rw [if_pos hc, hb, Option.some_bind, r3 f (by simpa using hf), Option.some_bind,
              hbest, hnb]
    · exact ⟨[], s, [], hI, by simp, fun fuel _ => dijkstra_loop_trace_exit g goal fuel s hc⟩

end KernelLemmas

/-! ### The example graphs -/

theorem chain5_valid : chain5.Valid :=
  ⟨by decide, by decide, by decide, by decide, by decide, by decide, by decide, by decide⟩

theorem chain2_valid : chain2.Valid :=
  ⟨by decide, by decide, by decide, by decide, by decide, by decide, by decide, by decide⟩

theorem fork3_valid : fork3.Valid :=
  ⟨by decide, by decide, by decide, by decide, by decide, by decide, by decide, by decide⟩

theorem chainRound4_valid : chainRound4.Valid :=
  ⟨by decide, by decide, by decide, by decide, by decide, by decide, by decide, by decide⟩

theorem chainRound3_valid : chainRound3.Valid :=
  ⟨by decide, by decide, by decide, by decide, by decide, by decide, by decide, by decide⟩

theorem chainOverflow3_valid : chainOverflow3.Valid :=
  ⟨by decide, by decide, by decide, by decide, by decide, by decide, by decide, by decide⟩

theorem chain2_edgeAt_one (k : Int) : chain2.edgeAt 1 k = none := by
  have h1 : rd chain2.offsets 1 = some 1 := by decide
  have h2 : chain2.next_offset 1 = some 1 := by decide
  simp only [graph.edgeAt, h1, h2, Option.some_bind]
  rw [if_neg (by omega)]

theorem chain2_not_reachable : ¬ chain2.Reachable 1 0 := by
  have key : ∀ v, chain2.Reachable 1 v → v = 1 := by
    intro v h
    induction h with
    | refl => rfl
    | step _ he ih =>
      subst ih
      obtain ⟨k, hk⟩ := he
      rw [chain2_edgeAt_one] at hk
      cases hk
  intro h
  exact absurd (key 0 h) (by decide)

theorem fork3_edgeAt {u k : Int} {e : Int × ℕ∞} (h : fork3.edgeAt u k = some e) :
    u = 0 ∧ ((k = 0 ∧ e = (1, 1)) ∨ (k = 1 ∧ e = (2, 1))) := by
  unfold graph.edgeAt at h
  cases h1 : rd fork3.offsets u with
  | none => simp [h1] at h
  | some lo =>
    cases h2 : fork3.next_offset u with
    | none => simp [h1, h2] at h
    | some hi =>
      simp only [h1, h2, Option.some_bind] at h
      split_ifs at h with hr
      have hu := rd_range h1
      have hul : (fork3.offsets.length : Int) = 3 := by decide
      rw [hul] at hu
      have hcases : u = 0 ∨ u = 1 ∨ u = 2 := by omega
      rcases hcases with rfl | rfl | rfl
      · have e1 : rd fork3.offsets 0 = some 0 := by decide
        have e2 : fork3.next_offset 0 = some 2 := by decide
        rw [e1] at h1; rw [e2] at h2
        cases h1; cases h2
        have hk : k = 0 ∨ k = 1 := by omega
        rcases hk with rfl | rfl
        · have e3 : (rd fork3.neighbors 0).bind
            (fun v => (rd fork3.weights 0).bind fun w => some (v, w)) = some (1, 1) := by decide
          rw [e3] at h; cases h
          exact ⟨rfl, Or.inl ⟨rfl, rfl⟩⟩
        · have e3 : (rd fork3.neighbors 1).bind
            (fun v => (rd fork3.weights 1).bind fun w => some (v, w)) = some (2, 1) := by decide
          rw [e3] at h; cases h
          exact ⟨rfl, Or.inr ⟨rfl, rfl⟩⟩
      · have e1 : rd fork3.offsets 1 = some 2 := by decide
        have e2 : fork3.next_offset 1 = some 2 := by decide
        rw [e1] at h1; rw [e2] at h2
        cases h1; cases h2
        omega
      · have e1 : rd fork3.offsets 2 = some 2 := by decide
        have e2 : fork3.next_offset 2 = some 2 := by decide
        rw [e1] at h1; rw [e2] at h2
        cases h1; cases h2
        omega

/-- In the fork every walk that leaves vertex 1 or 2 is empty. -/
theorem fork3_walk_leaf {u : Int} (hu : u ≠ 0) {d : ℕ∞} {ks : List Int} {r : Int × ℕ∞}
    (h : fork3.walk u d ks = some r) : ks = [] ∧ r = (u, d) := by
  cases ks with
  | nil => simp only [graph.walk] at h; cases h; exact ⟨rfl, rfl⟩
  | cons k t =>
    simp only [graph.walk] at h
    cases he : fork3.edgeAt u k with
    | none => rw [he] at h; cases h
    | some e => exact absurd (fork3_edgeAt he).1 hu

theorem fork3_walk_root {d : ℕ∞} {ks : List Int} {r : Int × ℕ∞}
    (h : fork3.walk 0 d ks = some r) :
    (ks = [] ∧ r = (0, d)) ∨ (ks = [0] ∧ r = (1, d + 1)) ∨ (ks = [1] ∧ r = (2, d + 1)) := by
  cases ks with
  | nil => simp only [graph.walk] at h; cases h; exact Or.inl ⟨rfl, rfl⟩
  | cons k t =>
    simp only [graph.walk] at h
    cases he : fork3.edgeAt 0 k with
    | none => rw [he] at h; cases h
    | some e =>
      rw [he] at h
      simp only [Option.some_bind] at h
      rcases (fork3_edgeAt he).2 with ⟨rfl, rfl⟩ | ⟨rfl, rfl⟩
      · obtain ⟨rfl, rfl⟩ := fork3_walk_leaf (by decide) h
        exact Or.inr (Or.inl ⟨rfl, rfl⟩)
      · obtain ⟨rfl, rfl⟩ := fork3_walk_leaf (by decide) h
        exact Or.inr (Or.inr ⟨rfl, rfl⟩)

theorem fork3_acyclic : fork3.Acyclic := by
  intro u d ks d1 h
  by_cases hu : u = 0
  · subst hu
    rcases fork3_walk_root h with ⟨e, _⟩ | ⟨_, e⟩ | ⟨_, e⟩
    · exact e
    · exact absurd (congrArg Prod.fst e) (by simp)
    · exact absurd (congrArg Prod.fst e) (by simp)
  · exact (fork3_walk_leaf hu h).1

theorem fork3_unique_shortest : fork3.UniqueShortest 0 2 [1] 1 := by
  refine ⟨⟨by decide, ?_⟩, ?_⟩
  · intro ks1 d1 h
    rcases fork3_walk_root h with ⟨_, e⟩ | ⟨_, e⟩ | ⟨_, e⟩
    · exact absurd (congrArg Prod.fst e) (by simp)
    · exact absurd (congrArg Prod.fst e) (by simp)
    · have := congrArg Prod.snd e
      simp only [FloatArith.zero_add] at this
      rw [this]
  · intro ks1 h
    rcases fork3_walk_root h with ⟨_, e⟩ | ⟨_, e⟩ | ⟨e, _⟩
    · exact absurd (congrArg Prod.fst e) (by decide)
    · exact absurd (congrArg Prod.fst e) (by decide)
    · exact e

/-! ### The CSR conversion -/

section CSRLemmas
variable {α : Type} [Zero α] [DecidableEq α]

theorem filter_singleton_ne_zero (n : Nat) (v : α) :
    List.filter (fun p : Nat × α => decide (p.2 ≠ 0)) [(n, v)] =
      if v ≠ 0 then [(n, v)] else [] := by
  by_cases h : v ≠ 0
  · simp [List.filter, h]
  · simp [List.filter, h]

theorem prefixEntries_eq (A : List α) (N i : Nat) :
    ∀ n, prefixEntries A N i n =
      ((List.range n).map fun j => (j, A.getD (i * N + j) 0)).filter (fun p => p.2 ≠ 0) := by
  intro n
  induction n with
  | zero => rfl
  | succ n ih =>
    rw [List.range_succ, List.map_append, List.filter_append, ← ih]
    simp only [prefixEntries, List.map_cons, List.map_nil]
    rw [filter_singleton_ne_zero]

theorem rowEntries_eq (A : List α) (N i : Nat) : rowEntries A N i = prefixEntries A N i N :=
  (prefixEntries_eq A N i N).symm

theorem prefixEntries_length_le (A : List α) (N i : Nat) :
    ∀ n, (prefixEntries A N i n).length ≤ n := by
  intro n
  induction n with
  | zero => simp [prefixEntries]
  | succ n ih =>
    simp only [prefixEntries, List.length_append]
    split_ifs
    · simp only [List.length_singleton]; omega
    · simp only [List.length_nil]; omega

theorem rowEntries_length_le (A : List α) (N i : Nat) : (rowEntries A N i).length ≤ N := by
  rw [rowEntries_eq]; exact prefixEntries_length_le A N i N

theorem allEntries_length_le (A : List α) (N : Nat) :
    ∀ i, (allEntries A N i).length ≤ i * N := by
  intro i
  induction i with
  | zero => simp [allEntries]
  | succ i ih =>
    simp only [allEntries, List.length_append]
    have := rowEntries_length_le A N i
    rw [Nat.succ_mul]
    omega

/-- The inner loop appends the non-zero entries of the columns it has visited. -/
theorem csr_inner_fold (A : List α) (N i : Nat) (s : CSR α)
    (hb : i * N + N ≤ A.length) (hw : i * N + N < 2 ^ 32) (hp : s.pair_index + N < 2 ^ 32) :
    ∀ n, n ≤ N →
      (List.range n).foldl (csr_inner A N i) (some s) =
      some { s with
        vals := s.vals ++ (prefixEntries A N i n).map Prod.snd
        cols := s.cols ++ (prefixEntries A N i n).map Prod.fst
        pair_index := s.pair_index + (prefixEntries A N i n).length } := by
  intro n
  induction n with
  | zero => intro _; simp [prefixEntries]
  | succ n ih =>
    intro hn
    have hlen := prefixEntries_length_le A N i n
    rw [List.range_succ, List.foldl_append, ih (by omega)]
    simp only [List.foldl_cons, List.foldl_nil, csr_inner, Option.some_bind, prefixEntries]
    have e1 : ((i * N) % 2 ^ 32 + n) % 2 ^ 32 = i * N + n := by
      rw [Nat.mod_eq_of_lt (by omega), Nat.mod_eq_of_lt (by omega)]
    have e2 : A[i * N + n]? = some (A.getD (i * N + n) 0) := by
      rw [List.getD_eq_getElem?_getD, List.getElem?_eq_getElem (by omega)]
      rfl
    rw [e1, e2]
    simp only
    by_cases h : A.getD (i * N + n) 0 ≠ 0
    · rw [if_pos h, if_pos h]
      simp only [List.map_append, List.map_cons, List.map_nil, List.length_append,
        List.length_singleton, List.append_assoc]
      rw [Nat.mod_eq_of_lt (by omega)]
      simp only [Nat.add_assoc]
    · rw [if_neg h, if_neg h]
      simp only [List.append_nil]

/-- The outer loop, after `m` rows. -/
theorem csr_outer_fold (A : List α) (M N : Nat) (hA : A.length = M * N)
    (hMN : M * N < 2 ^ 31) :
    ∀ m, m ≤ M →
      (List.range m).foldl (csr_outer A N)
        (some { vals := [], rows := [0], cols := [], pair_index := 0 }) =
      some { vals := (allEntries A N m).map Prod.snd
             rows := (List.range (m + 1)).map fun i => (allEntries A N i).length
             cols := (allEntries A N m).map Prod.fst
             pair_index := (allEntries A N m).length } := by
  intro m
  induction m with
  | zero => intro _; simp [allEntries, List.range_succ]
  | succ m ih =>
    intro hm
    have hle := allEntries_length_le A N m
    have hmul : m * N + N ≤ M * N := by
      have := Nat.mul_le_mul_right N hm
      rwa [Nat.succ_mul] at this
    rw [List.range_succ, List.foldl_append, ih (by omega)]
    simp only [List.foldl_cons, List.foldl_nil, csr_outer]
    rw [csr_inner_fold A N m _ (by omega) (by omega) (by simp only; omega) N (le_refl _)]
    simp only [Option.some_bind, allEntries, List.map_append, List.length_append, rowEntries_eq]
    congr 1
    rw [List.range_succ (n := m + 1), List.map_append]
    simp [allEntries, rowEntries_eq]

theorem zip_fst_snd {β γ : Type} (l : List (β × γ)) :
    (l.map Prod.fst).zip (l.map Prod.snd) = l := by
  induction l with
  | nil => rfl
  | cons a t ih => simp only [List.map_cons, List.zip_cons_cons, ih]

theorem allEntries_prefix (A : List α) (N : Nat) :
    ∀ M i, i ≤ M → ∃ rest, allEntries A N M = allEntries A N i ++ rest := by
  intro M
  induction M with
  | zero => intro i hi; exact ⟨[], by rw [Nat.le_zero.1 hi]; simp⟩
  | succ M ih =>
    intro i hi
    by_cases h : i = M + 1
    · exact ⟨[], by rw [h]; simp⟩
    · obtain ⟨rest, e⟩ := ih i (by omega)
      exact ⟨rest ++ rowEntries A N M, by simp only [allEntries, e, List.append_assoc]⟩

theorem allEntries_length_mono (A : List α) (N : Nat) {i j : Nat} (h : i ≤ j) :
    (allEntries A N i).length ≤ (allEntries A N j).length := by
  obtain ⟨rest, e⟩ := allEntries_prefix A N j i h
  rw [e, List.length_append]
  omega

/-- The slice of all entries that belongs to row `i`. -/
theorem allEntries_slice (A : List α) (N M i : Nat) (hi : i < M) :
    ((allEntries A N M).drop (allEntries A N i).length).take
      ((allEntries A N (i + 1)).length - (allEntries A N i).length) = rowEntries A N i := by
  obtain ⟨rest, e⟩ := allEntries_prefix A N M (i + 1) (by omega)
  rw [e]
  simp only [allEntries, List.append_assoc, List.length_append, Nat.add_sub_cancel_left]
  rw [List.drop_left, List.take_left]

theorem prefixEntries_fst_lt (A : List α) (N i : Nat) :
    ∀ n, ∀ p ∈ prefixEntries A N i n, p.1 < n := by
  intro n
  induction n with
  | zero => intro p hp; simp [prefixEntries] at hp
  | succ n ih =>
    intro p hp
    simp only [prefixEntries, List.mem_append] at hp
    rcases hp with hp | hp
    · have := ih p hp; omega
    · split_ifs at hp
      · rw [List.mem_singleton.1 hp]; simp
      · simp at hp

theorem tail_find (n j : Nat) (v : α) :
    (if v ≠ 0 then [(n, v)] else []).find? (fun p => p.1 == j) =
      if n = j ∧ v ≠ 0 then some (n, v) else none := by
  by_cases hv : v = 0
  · simp [hv]
  · by_cases hn : n = j
    · simp [List.find?, hn, hv]
    · simp [List.find?, hn, hv]

/-- Looking a column up among the non-zero entries of a row. -/
theorem prefixEntries_find (A : List α) (N i j : Nat) :
    ∀ n, (prefixEntries A N i n).find? (fun p => p.1 == j) =
      if j < n ∧ A.getD (i * N + j) 0 ≠ 0 then some (j, A.getD (i * N + j) 0) else none := by
  intro n
  induction n with
  | zero => simp [prefixEntries]
  | succ n ih =>
    simp only [prefixEntries, List.find?_append, ih, tail_find]
    generalize hvj : A.getD (i * N + j) 0 = vj
    rcases Nat.lt_trichotomy j n with hj | hj | hj
    · have h1 : ¬ n = j := by omega
      have h2 : j < n + 1 := by omega
      by_cases hv : vj = 0
      · simp [hj, h1, h2, hv]
      · simp [hj, h1, h2, hv]
    · subst hj
      rw [hvj]
      by_cases hv : vj = 0
      · simp [hv]
      · simp [hv]
    · have h1 : ¬ n = j := by omega
      have h2 : ¬ j < n + 1 := by omega
      have h3 : ¬ j < n := by omega
      simp [h1, h2, h3]

theorem dense_rows (A : List α) (N : Nat) :
    ∀ M, ((List.range M).flatMap fun i => (List.range N).map fun j => A.getD (i * N + j) 0) =
      (List.range (M * N)).map fun k => A.getD k 0 := by
  intro M
  induction M with
  | zero => simp
  | succ M ih =>
    rw [List.range_succ, List.flatMap_append, ih, Nat.succ_mul, List.range_add, List.map_append]
    simp [List.flatMap]

theorem map_getD_range (A : List α) : ((List.range A.length).map fun k => A.getD k 0) = A := by
  apply List.ext_getElem?
  intro k
  rw [List.getElem?_map]
  by_cases hk : k < A.length
  · rw [List.getElem?_range hk]
    simp [List.getD_eq_getElem?_getD, List.getElem?_eq_getElem hk]
  · rw [List.getElem?_eq_none (by simpa using hk), List.getElem?_eq_none (by omega)]
    rfl

theorem flatMap_congr_mem {β γ : Type} (l : List β) (f g : β → List γ)
    (h : ∀ a ∈ l, f a = g a) : l.flatMap f = l.flatMap g := by
  induction l with
  | nil => rfl
  | cons a t ih =>
    simp only [List.flatMap_cons]
    rw [h a (List.mem_cons_self _ _), ih (fun b hb => h b (List.mem_cons_of_mem _ hb))]

theorem getD_map_range (f : Nat → Nat) (n i : Nat) (hi : i < n) :
    ((List.range n).map f).getD i 0 = f i := by
  rw [List.getD_eq_getElem?_getD, List.getElem?_map, List.getElem?_range hi]
  rfl

end CSRLemmas

/-! ### `DynHeap` over a buffer of exactly `K` slots -/

section BufferLemmas
variable {T : Type}

theorem push_heap_loop_length (c : T → T → Bool) :
    ∀ (fuel : Nat) (l : List T) (h top : Nat) (v : T),
      (__push_heap c fuel l h top v).length = l.length := by
  intro fuel
  induction fuel with
  | zero => intro l h top v; simp [__push_heap]
  | succ n ih =>
    intro l h top v
    simp only [__push_heap]
    split_ifs
    · rw [ih]; simp
    · simp

theorem push_heap_length (c : T → T → Bool) (l : List T) (last : Nat) :
    (push_heap c l last).length = l.length := by
  unfold push_heap
  cases l[last - 1]? with
  | none => rfl
  | some v => exact push_heap_loop_length c _ _ _ _ _

/-- A push into a `DynHeap` that holds fewer candidates than its capacity succeeds
when `_data[_n]` is inside the buffer, and adds one candidate. -/
theorem DynHeap.push_below (h : DynHeap T) (x : T) (h0 : 0 ≤ h._n) (h1 : h._n < h._data_N)
    (h2 : h._n < (h._data.length : Int)) :
    ∃ r, h.push x = some r ∧ r._n = h._n + 1 ∧ r._data_N = h._data_N ∧
      r._data.length = h._data.length ∧ r._c = h._c := by
  obtain ⟨n, N, data, c⟩ := h
  simp only at h0 h1 h2
  simp only [DynHeap.push, wr_of_range data n x h0 h2]
  rw [if_neg (by omega)]
  exact ⟨_, rfl, rfl, rfl, by simp [push_heap_length], rfl⟩

/-- A push into a `DynHeap` whose `_n` has reached the length of the buffer takes the
out-of-range branch of the write `_data[_n] = i`. -/
theorem DynHeap.push_at_end (h : DynHeap T) (x : T) (h2 : (h._data.length : Int) ≤ h._n) :
    wr h._data h._n x = none ∧ h.push x = none := by
  have hw : wr h._data h._n x = none := by
    unfold wr
    rw [if_neg (by omega)]
  exact ⟨hw, by simp only [DynHeap.push, hw]⟩

theorem DynHeap.pushAll_append (xs ys : List T) :
    ∀ h : DynHeap T, h.pushAll (xs ++ ys) = (h.pushAll xs).bind fun r => r.pushAll ys := by
  induction xs with
  | nil => intro h; rfl
  | cons x t ih =>
    intro h
    simp only [List.cons_append, DynHeap.pushAll]
    cases h.push x with
    | none => rfl
    | some r => simp only [Option.some_bind]; exact ih r

/-- Pushes that stay within the capacity and within the buffer all succeed. -/
theorem DynHeap.pushAll_below (xs : List T) :
    ∀ h : DynHeap T, 0 ≤ h._n → h._n + xs.length ≤ h._data_N →
      h._n + xs.length ≤ (h._data.length : Int) →
      ∃ r, h.pushAll xs = some r ∧ r._n = h._n + xs.length ∧ r._data_N = h._data_N ∧
        r._data.length = h._data.length ∧ r._c = h._c := by
  induction xs with
  | nil => intro h _ _ _; exact ⟨h, rfl, by simp, rfl, rfl, rfl⟩
  | cons x t ih =>
    intro h h0 h1 h2
    simp only [List.length_cons] at h1 h2
    push_cast at h1 h2
    obtain ⟨r, e, rn, rN, rl, rc⟩ := h.push_below x h0 (by omega) (by omega)
    obtain ⟨r2, e2, qn, qN, ql, qc⟩ := ih r (by omega) (by rw [rn, rN]; omega)
      (by rw [rn, rl]; omega)
    refine ⟨r2, ?_, ?_, qN.trans rN, ql.trans rl, qc.trans rc⟩
    · simp only [DynHeap.pushAll, e, Option.some_bind, e2]
    · rw [qn, rn, List.length_cons]; push_cast; omega

/-- Over a backing buffer of exactly `K` slots, the first `K` pushes fill the
`DynHeap`, and every further push writes `_data[K]`: it takes the out-of-range
branch of the bounds-checked buffer. -/
theorem DynHeap.push_overflows_exact_buffer (c : T → T → Bool) (K : Nat) (buf : List T)
    (hbuf : buf.length = K) (xs : List T) (hxs : xs.length = K) (x : T) (ys : List T) :
    ∃ h, (DynHeap.mk0 buf K c).pushAll xs = some h ∧ h.size = K ∧
      (h._data.length : Int) = K ∧ wr h._data h._n x = none ∧ h.push x = none ∧
      (DynHeap.mk0 buf K c).pushAll (xs ++ x :: ys) = none := by
  obtain ⟨h, e, hn, _, hl, _⟩ := DynHeap.pushAll_below xs (DynHeap.mk0 buf K c) (le_refl _)
    (by simp [DynHeap.mk0, hxs]) (by simp [DynHeap.mk0, hxs, hbuf])
  have hn' : h._n = K := by simpa [DynHeap.mk0, hxs] using hn
  have hl' : (h._data.length : Int) = K := by simpa [DynHeap.mk0, hbuf] using congrArg Int.ofNat hl
  obtain ⟨w1, w2⟩ := h.push_at_end x (by omega)
  refine ⟨h, e, hn', hl', w1, w2, ?_⟩
  rw [DynHeap.pushAll_append, e]
  simp only [Option.some_bind, DynHeap.pushAll, w2, Option.none_bind]

end BufferLemmas

/-! ### Claims about `DynHeap` (C1, C5, C6, C7, C12) -/

section DynHeapClaims
variable {T : Type}

/-- **C1.** Pushing `N` candidates (no pops) into an empty `DynHeap` of capacity `K`,
with a comparator that is a strict weak order and a buffer with room for `K + 1`
candidates: every push succeeds, `size()` is `min(N, K)`, the held candidates are
a sub-multiset of the pushed ones (pushed = held + evicted), and the comparator
orders no evicted candidate before a held one.  For `K = 1` the single held
candidate is a best candidate pushed so far. -/
theorem C1_push_keeps_K_best (c : T → T → Bool) (hc : StrictWeakOrder c) (K : Nat)
    (buf : List T) (hbuf : K < buf.length) (xs : List T) :
    ∃ h ev, (DynHeap.mk0 buf K c).pushAll xs = some h ∧
      h.size = min (xs.length : Int) K ∧
      (h.held.length : Int) = h.size ∧
      List.Subperm h.held xs ∧
      List.Perm xs (h.held ++ ev) ∧
      (∀ x ∈ h.held, ∀ y ∈ ev, c y x = false) ∧
      (K = 1 → xs ≠ [] → ∃ b, h.held = [b] ∧ ∀ y ∈ xs, c y b = false) := by
  obtain ⟨h, ev, e, hT, ec, eN⟩ :=
    DynHeap.Tracks.pushAll c hc xs (DynHeap.mk0 buf K c) [] [] rfl (DynHeap.mk0_tracks c K buf hbuf)
  simp only [List.nil_append] at hT
  have hN : h._data_N = (K : Int) := eN
  have hsz : h.size = min (xs.length : Int) K := by rw [← hN]; exact hT.size
  have hlen := hT.inv.held_length
  refine ⟨h, ev, e, hsz, hlen, ?_, hT.perm, fun x hx y hy => ec ▸ hT.dom x hx y hy, ?_⟩
  · exact (List.sublist_append_left _ _).subperm.trans hT.perm.symm.subperm
  · intro hK1 hne
    have hxl : 0 < xs.length := List.length_pos.2 hne
    have h1 : h.held.length = 1 := by
      have : (h.held.length : Int) = min (xs.length : Int) K := hlen.trans hsz
      subst hK1
      omega
    obtain ⟨b, hb⟩ := List.length_eq_one.1 h1
    refine ⟨b, hb, ?_⟩
    intro y hy
    rcases List.mem_append.1 (hT.perm.subset hy) with hyh | hye
    · rw [hb] at hyh
      rw [List.mem_singleton.1 hyh]
      exact hc.irrefl b
    · rw [← ec]
      exact hT.dom b (by rw [hb]; exact List.mem_singleton_self b) y hye

/-- C1 at a concrete input: capacity 2, a buffer of 3 slots, pushes 3, 1, 2 compared by `<`. -/
theorem C1_push_keeps_K_best_witness :
    StrictWeakOrder natLt ∧ 2 < [0, 0, 0].length ∧
    ∃ h ev, (DynHeap.mk0 [0, 0, 0] 2 natLt).pushAll [3, 1, 2] = some h ∧
      h.size = min (([3, 1, 2] : List Nat).length : Int) (2 : Nat) ∧
      (h.held.length : Int) = h.size ∧
      List.Subperm h.held [3, 1, 2] ∧
      List.Perm [3, 1, 2] (h.held ++ ev) ∧
      (∀ x ∈ h.held, ∀ y ∈ ev, natLt y x = false) ∧
      (2 = 1 → [3, 1, 2] ≠ [] → ∃ b, h.held = [b] ∧ ∀ y ∈ [3, 1, 2], natLt y b = false) :=
  ⟨natLt_swo, by decide, C1_push_keeps_K_best natLt natLt_swo 2 [0, 0, 0] (by decide) [3, 1, 2]⟩

/-- **C5 (amended).** On a non-empty `DynHeap` reached by pushes, `pop()` succeeds,
decreases `size()` by one, removes exactly the returned candidate from the held
ones, and returns the heap top: the comparator orders the returned candidate before
no held candidate, which is the same extreme that `push` evicts on overflow. -/
theorem C5_pop_returns_top (c : T → T → Bool) (hc : StrictWeakOrder c) (K : Nat)
    (buf : List T) (hbuf : K < buf.length) (xs : List T) (h : DynHeap T)
    (hpush : (DynHeap.mk0 buf K c).pushAll xs = some h) (hne : h.empty = false) :
    ∃ y, h.pop.2 = some y ∧ h.top = some y ∧ h.pop.1.size = h.size - 1 ∧
      List.Perm h.held (y :: h.pop.1.held) ∧ ∀ z ∈ h.held, c y z = false := by
  obtain ⟨h', ev, e, hT, ec, eN⟩ :=
    DynHeap.Tracks.pushAll c hc xs (DynHeap.mk0 buf K c) [] [] rfl (DynHeap.mk0_tracks c K buf hbuf)
  rw [hpush] at e
  cases e
  have h0 := hT.inv.n_nonneg
  have hn : 1 ≤ h._n := by
    simp only [DynHeap.empty, beq_eq_false_iff_ne, ne_eq] at hne
    omega
  obtain ⟨y, q1, q2, q3, _, _, _, _, q8, q9⟩ := h.pop_spec (ec ▸ hc) hn hT.inv.heap
  exact ⟨y, q1, q2, q3, q8, fun z hz => ec ▸ q9 z hz⟩

/-- C5 (amended) at a concrete input: capacity 2, pushes 1, 2 compared by `<`. -/
theorem C5_pop_returns_top_witness :
    StrictWeakOrder natLt ∧ 2 < [0, 0, 0].length ∧
    (DynHeap.mk0 [0, 0, 0] 2 natLt).pushAll [1, 2] = some ⟨2, 2, [2, 1, 0], natLt⟩ ∧
    (⟨2, 2, [2, 1, 0], natLt⟩ : DynHeap Nat).empty = false ∧
    ∃ y, (⟨2, 2, [2, 1, 0], natLt⟩ : DynHeap Nat).pop.2 = some y ∧
      (⟨2, 2, [2, 1, 0], natLt⟩ : DynHeap Nat).top = some y ∧
      (⟨2, 2, [2, 1, 0], natLt⟩ : DynHeap Nat).pop.1.size
        = (⟨2, 2, [2, 1, 0], natLt⟩ : DynHeap Nat).size - 1 ∧
      List.Perm (⟨2, 2, [2, 1, 0], natLt⟩ : DynHeap Nat).held
        (y :: (⟨2, 2, [2, 1, 0], natLt⟩ : DynHeap Nat).pop.1.held) ∧
      ∀ z ∈ (⟨2, 2, [2, 1, 0], natLt⟩ : DynHeap Nat).held, natLt y z = false :=
  ⟨natLt_swo, by decide, rfl, rfl,
    C5_pop_returns_top natLt natLt_swo 2 [0, 0, 0] (by decide) [1, 2] _ rfl rfl⟩

/-- **C5, counterexample.** With `<` on naturals and capacity 2, after pushing 1 and 2
`pop()` returns 2 although the held candidate 1 is ordered strictly before it. -/
theorem C5_counterexample :
    ∃ h y, (DynHeap.mk0 [0, 0, 0] 2 natLt).pushAll [1, 2] = some h ∧ h.empty = false ∧
      h.pop.2 = some y ∧ ¬ (∀ z ∈ h.held, natLt z y = false) :=
  ⟨⟨2, 2, [2, 1, 0], natLt⟩, 2, rfl, rfl, rfl, by decide⟩

/-- **C6 (amended).** `pop()` has no emptiness check and no `Empty` error: on an empty
`DynHeap` it leaves the buffer alone, decrements `_n`, so that afterwards
`size()` is `-1` and `empty()` is false, and the value it returns is read from
`_data[-1]`, outside the buffer. -/
theorem C6_pop_on_empty_decrements (h : DynHeap T) (h0 : h.size = 0) :
    h.pop.1.size = -1 ∧ h.pop.1.empty = false ∧ h.pop.1._data = h._data ∧ h.pop.2 = none := by
  obtain ⟨n, N, data, c⟩ := h
  simp only [DynHeap.size] at h0
  subst h0
  simp [DynHeap.pop, DynHeap.size, DynHeap.empty, pop_heap, rd]

/-- C6 (amended) at a concrete input: a freshly constructed `DynHeap` of capacity 1. -/
theorem C6_pop_on_empty_decrements_witness :
    (DynHeap.mk0 [7, 7] 1 natLt).size = 0 ∧
    (DynHeap.mk0 [7, 7] 1 natLt).pop.1.size = -1 ∧
    (DynHeap.mk0 [7, 7] 1 natLt).pop.1.empty = false ∧
    (DynHeap.mk0 [7, 7] 1 natLt).pop.1._data = (DynHeap.mk0 [7, 7] 1 natLt)._data ∧
    (DynHeap.mk0 [7, 7] 1 natLt).pop.2 = none :=
  ⟨rfl, C6_pop_on_empty_decrements (DynHeap.mk0 [7, 7] 1 natLt) rfl⟩

/-- **C6, counterexample.** Popping a freshly constructed (empty) `DynHeap` reports no
error and does not leave it empty: `size()` becomes `-1` and `empty()` false. -/
theorem C6_counterexample :
    (DynHeap.mk0 [7, 7] 1 natLt).size = 0 ∧
    ¬ ((DynHeap.mk0 [7, 7] 1 natLt).pop.1.size = 0 ∧
       (DynHeap.mk0 [7, 7] 1 natLt).pop.1.empty = true) := by
  decide

/-- **C7 (amended).** For a comparator that is a strict weak order under which no two
distinct pushed candidates tie, pushing a sequence and pushing any permutation of
it into empty `DynHeap`s of the same capacity leave the same multiset of held
candidates. -/
theorem C7_push_order_irrelevant_without_ties (c : T → T → Bool) (hc : StrictWeakOrder c)
    (K : Nat) (buf₁ buf₂ : List T) (hb₁ : K < buf₁.length) (hb₂ : K < buf₂.length)
    (xs ys : List T) (hp : List.Perm xs ys)
    (hties : ∀ x ∈ xs, ∀ y ∈ xs, x ≠ y → c x y = true ∨ c y x = true) :
    ∃ h₁ h₂, (DynHeap.mk0 buf₁ K c).pushAll xs = some h₁ ∧
      (DynHeap.mk0 buf₂ K c).pushAll ys = some h₂ ∧ List.Perm h₁.held h₂.held := by
  obtain ⟨h₁, e₁, r₁, t₁, c₁, n₁⟩ :=
    DynHeap.Tracks.pushAll c hc xs (DynHeap.mk0 buf₁ K c) [] [] rfl (DynHeap.mk0_tracks c K buf₁ hb₁)
  obtain ⟨h₂, e₂, r₂, t₂, c₂, n₂⟩ :=
    DynHeap.Tracks.pushAll c hc ys (DynHeap.mk0 buf₂ K c) [] [] rfl (DynHeap.mk0_tracks c K buf₂ hb₂)
  simp only [List.nil_append] at t₁ t₂
  refine ⟨h₁, h₂, r₁, r₂, ?_⟩
  have hlen : h₁.held.length = h₂.held.length := by
    have a₁ := t₁.inv.held_length
    have a₂ := t₂.inv.held_length
    have s₁ := t₁.size
    have s₂ := t₂.size
    have : xs.length = ys.length := hp.length_eq
    rw [n₁] at s₁
    rw [n₂] at s₂
    simp only [DynHeap.mk0] at s₁ s₂
    omega
  exact low_part_unique hc hties t₁.perm (hp.trans t₂.perm)
    (fun x hx y hy => c₁ ▸ t₁.dom x hx y hy) (fun x hx y hy => c₂ ▸ t₂.dom x hx y hy) hlen

/-- C7 (amended) at a concrete input: capacity 2, pushes 3, 1, 2 and the permutation 2, 3, 1. -/
theorem C7_push_order_irrelevant_without_ties_witness :
    StrictWeakOrder natLt ∧ 2 < [0, 0, 0].length ∧ 2 < [9, 9, 9, 9].length ∧
    List.Perm [3, 1, 2] [2, 3, 1] ∧
    (∀ x ∈ [3, 1, 2], ∀ y ∈ [3, 1, 2], x ≠ y → natLt x y = true ∨ natLt y x = true) ∧
    ∃ h₁ h₂, (DynHeap.mk0 [0, 0, 0] 2 natLt).pushAll [3, 1, 2] = some h₁ ∧
      (DynHeap.mk0 [9, 9, 9, 9] 2 natLt).pushAll [2, 3, 1] = some h₂ ∧
      List.Perm h₁.held h₂.held :=
  ⟨natLt_swo, by decide, by decide, by decide, by decide,
    C7_push_order_irrelevant_without_ties natLt natLt_swo 2 [0, 0, 0] [9, 9, 9, 9]
      (by decide) (by decide) [3, 1, 2] [2, 3, 1] (by decide) (by decide)⟩

/-- **C7, counterexample.** Comparing `(vertex_id, distance)` candidates by distance is
a strict weak order, yet with capacity 1 the two tied candidates `(0, 5)` and
`(1, 5)` pushed in the two possible orders leave different candidates held. -/
theorem C7_counterexample :
    StrictWeakOrder byDistance ∧ List.Perm [((0 : Nat), (5 : Nat)), (1, 5)] [(1, 5), (0, 5)] ∧
    ∃ h₁ h₂, (DynHeap.mk0 [(0, 0), (0, 0)] 1 byDistance).pushAll [(0, 5), (1, 5)] = some h₁ ∧
      (DynHeap.mk0 [(0, 0), (0, 0)] 1 byDistance).pushAll [(1, 5), (0, 5)] = some h₂ ∧
      ¬ List.Perm h₁.held h₂.held :=
  ⟨byDistance_swo, by decide,
    ⟨1, 1, [(1, 5), (0, 5)], byDistance⟩, ⟨1, 1, [(0, 5), (1, 5)], byDistance⟩, rfl, rfl, by decide⟩

end DynHeapClaims

/-- **C12, failing input.** A `DynHeap` of capacity 1 over a buffer of exactly one slot:
the first push fills it, and the second push, which arrives while the frontier
holds `K = 1` candidates, writes `_data[1]`, outside `[0, 1)`. -/
theorem C12_failing_input :
    ∃ h, (DynHeap.mk0 [0] 1 natLt).push 5 = some h ∧ h.size = 1 ∧ h._data.length = 1 ∧
      h._n = 1 ∧ wr h._data h._n 3 = none ∧ h.push 3 = none ∧
      (DynHeap.mk0 [0] 1 natLt).pushAll [5, 3] = none :=
  ⟨⟨1, 1, [5], natLt⟩, rfl, rfl, rfl, rfl, rfl, rfl, rfl⟩

/-! ### Claims about the `dijkstra` kernel (C2, C3, C4, C8, C11) -/

section KernelClaims
variable {α : Type} [LinearOrder α] [Zero α] [Add α] [Top α] [FloatArith α]

/-- **C2 (amended).** On a valid acyclic graph in which every vertex has at most one
out-edge (the list topology the kernel is written for), with a unique shortest
path from `root` to `goal`, with `goal` different from the value `!root` that
`best` starts with, and with all incoming distances `+infinity`, the kernel
returns with `distance[goal]` equal to the shortest-path distance in `float`
arithmetic: the weights of the shortest path added up from `root` in path order,
each partial sum rounded (`+infinity` when the accumulation overflows).  This
need not be the exact sum of the weights. -/
theorem C2_list_topology_distance (g : graph α) (hv : g.Valid) (hl : g.OutDegreeLeOne)
    (hac : g.Acyclic) (root goal : Int) (hr0 : 0 ≤ root) (hr1 : root < g.V)
    (hgoal : goal ≠ (if root = 0 then 1 else 0)) (ks : List Int) (d : α)
    (hsp : g.UniqueShortest root goal ks d) (distance_mem : List α) (path_mem : List Int)
    (hd : (distance_mem.length : Int) = g.V) (hp : (path_mem.length : Int) = g.V)
    (hinf : ∀ d ∈ distance_mem, d = ⊤) (fuel : Nat) (hfuel : g.V ≤ fuel) :
    ∃ distance path, dijkstra fuel g root goal distance_mem path_mem = some (0, distance, path) ∧
      rd distance goal = some d := by
  obtain ⟨s, _, hrun, _, hgd⟩ := dijkstra_list_distance g hv hl hac root goal hr0 hr1 hgoal ks d
    hsp.1.1 distance_mem path_mem hd hp hinf fuel hfuel
  exact ⟨s.distance, s.path, hrun, hgd⟩

/-- **C4.** On a valid graph with all incoming distances `+infinity`, when `goal` is
not reachable from `root` along directed edges, the kernel returns normally
(result 0) and `distance[goal]` is still `+infinity`; no vertex that is
unreachable from `root` is given a finite distance. -/
theorem C4_unreachable_stays_infinite (g : graph α) (hv : g.Valid) (root goal : Int)
    (hr0 : 0 ≤ root) (hr1 : root < g.V) (hg0 : 0 ≤ goal) (hg1 : goal < g.V)
    (hun : ¬ g.Reachable root goal) (distance_mem : List α) (path_mem : List Int)
    (hd : (distance_mem.length : Int) = g.V) (hp : (path_mem.length : Int) = g.V)
    (hinf : ∀ d ∈ distance_mem, d = ⊤) (fuel : Nat) (hfuel : g.V ≤ fuel) :
    ∃ distance path, dijkstra fuel g root goal distance_mem path_mem = some (0, distance, path) ∧
      rd distance goal = some ⊤ ∧
      ∀ v d, rd distance v = some d → ¬ g.Reachable root v → d = ⊤ := by
  obtain ⟨s, walk, hrun, hI, _, _⟩ :=
    dijkstra_run hv root goal hr0 hr1 distance_mem path_mem hd hp hinf fuel hfuel
  have key : ∀ v d, rd s.distance v = some d → ¬ g.Reachable root v → d = ⊤ := by
    intro v d hvd hnr
    by_contra hfin
    obtain ⟨l1, l2, hsplit⟩ := List.append_of_mem (hI.fin v d hvd hfin)
    have hch := hI.chain
    rw [hsplit] at hch
    exact hnr ((hch.suffix l1).pathChain hvd).reachable
  obtain ⟨dg, hdg⟩ := rd_of_range s.distance goal hg0 (by rw [hI.dlen]; exact hg1)
  refine ⟨s.distance, s.path, hrun, ?_, key⟩
  rw [hdg, key goal dg hdg hun]

/-- **C8 (amended).** On a valid graph with all incoming distances `+infinity`, the
kernel returns (with `V` iterations of fuel) and afterwards `path[root] == root`,
`distance[root] == 0`, and from every vertex `v` with finite `distance[v]`
following `path[]` reaches `root` in fewer than `V` steps, every step
`path[u] → u` being an edge of the graph, and the weights of these edges, added
up from `root` in path order with `float` addition (each partial sum rounded),
give `distance[v]`. -/
theorem C8_predecessor_chain (g : graph α) (hv : g.Valid) (root goal : Int) (hr0 : 0 ≤ root)
    (hr1 : root < g.V) (distance_mem : List α) (path_mem : List Int)
    (hd : (distance_mem.length : Int) = g.V) (hp : (path_mem.length : Int) = g.V)
    (hinf : ∀ d ∈ distance_mem, d = ⊤) (fuel : Nat) (hfuel : g.V ≤ fuel) :
    ∃ distance path, dijkstra fuel g root goal distance_mem path_mem = some (0, distance, path) ∧
      rd path root = some root ∧ rd distance root = some 0 ∧
      ∀ v d, rd distance v = some d → d ≠ ⊤ →
        ∃ n : Nat, (n : Int) < g.V ∧ PathChain g root path n v d := by
  obtain ⟨s, walk, hrun, hI, _, _⟩ :=
    dijkstra_run hv root goal hr0 hr1 distance_mem path_mem hd hp hinf fuel hfuel
  obtain ⟨_, hroot_d, hroot_p⟩ := hI.chain.root_mem
  refine ⟨s.distance, s.path, hrun, hroot_p, hroot_d, ?_⟩
  intro v d hvd hfin
  obtain ⟨l1, l2, hsplit⟩ := List.append_of_mem (hI.fin v d hvd hfin)
  have hch := hI.chain
  rw [hsplit] at hch
  refine ⟨l2.length, ?_, (hch.suffix l1).pathChain hvd⟩
  have hlen := hI.length_le
  rw [hsplit, List.length_append, List.length_cons] at hlen
  push_cast at hlen
  omega

/-- **C11.** On a valid graph with `V` vertices and non-negative weights, for every
`root` in `[0, V)`, every `goal` and every content of the incoming arrays, the
relaxation loop runs at most `V` iterations: the vertices it expands are
pairwise distinct vertices of the graph, and with as much fuel as there are
expanded vertices the loop stops and the kernel returns. -/
theorem C11_loop_expands_each_vertex_once (g : graph α) (hv : g.Valid) (root goal : Int)
    (hr0 : 0 ≤ root) (hr1 : root < g.V) (distance_mem : List α) (path_mem : List Int)
    (hd : (distance_mem.length : Int) = g.V) (hp : (path_mem.length : Int) = g.V) :
    ∃ trace : List Int, trace.Nodup ∧ (trace.length : Int) ≤ g.V ∧
      (∀ v ∈ trace, 0 ≤ v ∧ v < g.V) ∧
      ∀ fuel, trace.length ≤ fuel →
        dijkstra_expanded fuel g root goal distance_mem path_mem = some trace ∧
        ∃ distance path,
          dijkstra fuel g root goal distance_mem path_mem = some (0, distance, path) := by
  have hg : ({ g with offsets := g.offsets, neighbors := g.neighbors, weights := g.weights }
      : graph α) = g := by cases g; rfl
  let s0 : KState α := { distance := distance_mem.set root.toNat 0,
                          path := path_mem.set root.toNat root,
                          best := if root = 0 then 1 else 0, next_best := root }
  have hI0 : WalkOrder g root s0 [root] := by
    refine ⟨by simpa [s0] using hd, by simpa [s0] using hp, rfl, List.nodup_singleton _, ?_, ?_⟩
    · intro v hvm; rw [List.mem_singleton.1 hvm]; exact ⟨hr0, hr1⟩
    · exact ⟨rfl, rd_set_self distance_mem root 0 hr0 (by omega),
        rd_set_self path_mem root root hr0 (by omega)⟩
  obtain ⟨trace, s1, ext, r1, r2, r3⟩ :=
    dijkstra_loop_trace_spec hv root goal g.V.toNat s0 root [] hI0 (by
      simp only [List.length_singleton]; push_cast; omega)
  have hsub : List.Sublist trace.reverse (ext ++ [root]) := r2
  have hlen := r1.walk_length_le
  have hl2 := hsub.length_le
  rw [List.length_reverse] at hl2
  refine ⟨trace, List.nodup_reverse.1 (hsub.nodup r1.nodup), by omega, ?_, ?_⟩
  · intro v hvm
    exact r1.range v (hsub.subset (List.mem_reverse.2 hvm))
  · intro fuel hf
    have hloop : dijkstra_loop g goal fuel s0 = some s1 := by
      rw [← dijkstra_loop_trace_state, r3 fuel hf]; rfl
    constructor
    · simp only [dijkstra_expanded, memcpy_all _ _ hd, memcpy_all _ _ hp,
        memcpy_all _ _ hv.offsets_len, memcpy_all _ _ hv.neighbors_len,
        memcpy_all _ _ hv.weights_len, Option.some_bind, hg,
        wr_of_range distance_mem root 0 hr0 (by omega),
        wr_of_range path_mem root root hr0 (by omega)]
      rw [show dijkstra_loop_trace g goal fuel _ = some (trace, s1) from r3 fuel hf]
      rfl
    · refine ⟨s1.distance ++ distance_mem.drop g.V.toNat, s1.path ++ path_mem.drop g.V.toNat, ?_⟩
      simp only [dijkstra, memcpy_all _ _ hd, memcpy_all _ _ hp, memcpy_all _ _ hv.offsets_len,
        memcpy_all _ _ hv.neighbors_len, memcpy_all _ _ hv.weights_len, Option.some_bind, hg,
        wr_of_range distance_mem root 0 hr0 (by omega),
        wr_of_range path_mem root root hr0 (by omega)]
      rw [show dijkstra_loop g goal fuel _ = some s1 from hloop]
      rfl

end KernelClaims

/-- C2 (amended) at a concrete `float` input: the chain with weights 16777216, 1, 1,
`root = 0`, `goal = 3`.  Every partial sum is rounded back to 16777216, which is
the distance the kernel reports. -/
theorem C2_list_topology_distance_witness :
    chainRound4.Valid ∧ chainRound4.OutDegreeLeOne ∧ chainRound4.Acyclic ∧ (0 : Int) ≤ 0 ∧
    (0 : Int) < chainRound4.V ∧ (3 : Int) ≠ (if (0 : Int) = 0 then 1 else 0) ∧
    chainRound4.UniqueShortest 0 3 [0, 1, 2] (F32.ofNat 16777216) ∧
    (([⊤, ⊤, ⊤, ⊤] : List F32).length : Int) = chainRound4.V ∧
    (([7, 7, 7, 7] : List Int).length : Int) = chainRound4.V ∧
    (∀ d ∈ ([⊤, ⊤, ⊤, ⊤] : List F32), d = ⊤) ∧ chainRound4.V ≤ ((4 : Nat) : Int) ∧
    ∃ distance path,
      dijkstra 4 chainRound4 0 3 [⊤, ⊤, ⊤, ⊤] [7, 7, 7, 7] = some (0, distance, path) ∧
      rd distance 3 = some (F32.ofNat 16777216) :=
  ⟨chainRound4_valid, chain_outDegreeLeOne _, chain_acyclic _, by decide, by decide, by decide,
    graph.uniqueShortest_of_walk (chain_outDegreeLeOne _) (chain_acyclic _) (by decide),
    by decide, by decide, by decide, by decide,
    C2_list_topology_distance chainRound4 chainRound4_valid (chain_outDegreeLeOne _)
      (chain_acyclic _) 0 3 (by decide) (by decide) (by decide) [0, 1, 2] (F32.ofNat 16777216)
      (graph.uniqueShortest_of_walk (chain_outDegreeLeOne _) (chain_acyclic _) (by decide))
      [⊤, ⊤, ⊤, ⊤] [7, 7, 7, 7] (by decide) (by decide) (by decide) 4 (by decide)⟩

/-- The kernel on the chains of C2 in `float` arithmetic.  With weights 16777216, 1, 1
it reports 16777216 for every vertex after the root, where the exact sums are
16777217 and 16777218.  With both weights `3e38` the sum overflows: the second
edge is not relaxed and `distance[2]` stays `+infinity`, which is also the
weight the walk accumulates. -/
theorem chain_float_scenarios :
    dijkstra 4 chainRound4 0 3 [⊤, ⊤, ⊤, ⊤] [7, 7, 7, 7]
      = some (0, [0, F32.ofNat 16777216, F32.ofNat 16777216, F32.ofNat 16777216],
          [0, 0, 1, 2]) ∧
    F32.ofNat 16777216 ≠ F32.ofNat 16777218 ∧
    dijkstra 3 chainOverflow3 0 2 [⊤, ⊤, ⊤] [7, 7, 7]
      = some (0, [0, F32.ofNat (3 * 10 ^ 38), ⊤], [0, 0, 7]) ∧
    chainOverflow3.walk 0 0 [0, 1] = some (2, ⊤) :=
  ⟨by decide, by decide, by decide, by decide⟩

/-- **C2, counterexample.** The fork `0 → 1`, `0 → 2` (both of weight 1) is a valid
acyclic graph whose unique shortest path from 0 to 2 is the edge `0 → 2`, of
length 1; the kernel only follows the first out-edge `0 → 1` and returns with
`distance[2]` still `+infinity`. -/
theorem C2_counterexample :
    fork3.Valid ∧ fork3.Acyclic ∧ fork3.UniqueShortest 0 2 [1] 1 ∧
    (∀ d ∈ ([⊤, ⊤, ⊤] : List ℕ∞), d = ⊤) ∧
    dijkstra 3 fork3 0 2 [⊤, ⊤, ⊤] [7, 7, 7] = some (0, [0, 1, ⊤], [0, 0, 7]) ∧
    rd ([0, 1, ⊤] : List ℕ∞) 2 ≠ some 1 :=
  ⟨fork3_valid, fork3_acyclic, fork3_unique_shortest, by decide, by decide, by decide⟩

/-- **C3, failing input.** On the chain with the single edge `0 → 1` of weight 1 and
`root = 0`, `goal = 1`, the loop is never entered (`best = !root` is already
`goal`): `distance[1]` stays `+infinity` and `path[1]` keeps its incoming value. -/
theorem C3_failing_input :
    chain2.Valid ∧
    dijkstra 2 chain2 0 1 [⊤, ⊤] [7, 7] = some (0, [0, ⊤], [0, 7]) ∧
    rd ([0, ⊤] : List ℕ∞) 1 ≠ some 1 ∧ followPath [0, 7] 1 1 ≠ some [1, 0] :=
  ⟨chain2_valid, by decide, by decide, by decide⟩

/-- The spec's scenario for C3 (5 vertices, weights 1, 2, 3, 4, `root = 0`,
`goal = 4`): distance 10, and `path[]` followed from 4 visits 4, 3, 2, 1, 0. -/
theorem chain5_scenario :
    dijkstra 5 chain5 0 4 [⊤, ⊤, ⊤, ⊤, ⊤] [7, 7, 7, 7, 7]
      = some (0, [0, 1, 3, 6, 10], [0, 0, 1, 2, 3]) ∧
    followPath [0, 0, 1, 2, 3] 4 4 = some [4, 3, 2, 1, 0] :=
  ⟨by decide, by decide⟩

/-- C4 at a concrete input: the edge `0 → 1`, `root = 1`, `goal = 0`. -/
theorem C4_unreachable_stays_infinite_witness :
    chain2.Valid ∧ (0 : Int) ≤ 1 ∧ (1 : Int) < chain2.V ∧ (0 : Int) ≤ 0 ∧ (0 : Int) < chain2.V ∧
    ¬ chain2.Reachable 1 0 ∧
    (([⊤, ⊤] : List ℕ∞).length : Int) = chain2.V ∧ (([7, 7] : List Int).length : Int) = chain2.V ∧
    (∀ d ∈ ([⊤, ⊤] : List ℕ∞), d = ⊤) ∧ chain2.V ≤ ((2 : Nat) : Int) ∧
    ∃ distance path, dijkstra 2 chain2 1 0 [⊤, ⊤] [7, 7] = some (0, distance, path) ∧
      rd distance 0 = some ⊤ ∧
      ∀ v d, rd distance v = some d → ¬ chain2.Reachable 1 v → d = ⊤ :=
  ⟨chain2_valid, by decide, by decide, by decide, by decide, chain2_not_reachable, by decide,
    by decide, by decide, by decide,
    C4_unreachable_stays_infinite chain2 chain2_valid 1 0 (by decide) (by decide) (by decide)
      (by decide) chain2_not_reachable [⊤, ⊤] [7, 7] (by decide) (by decide) (by decide) 2
      (by decide)⟩

/-- C8 (amended) at a concrete `float` input: the chain with weights 16777216, 1, 1,
`root = 0`, `goal = 3`, where the partial sums are rounded. -/
theorem C8_predecessor_chain_witness :
    chainRound4.Valid ∧ (0 : Int) ≤ 0 ∧ (0 : Int) < chainRound4.V ∧
    (([⊤, ⊤, ⊤, ⊤] : List F32).length : Int) = chainRound4.V ∧
    (([7, 7, 7, 7] : List Int).length : Int) = chainRound4.V ∧
    (∀ d ∈ ([⊤, ⊤, ⊤, ⊤] : List F32), d = ⊤) ∧ chainRound4.V ≤ ((4 : Nat) : Int) ∧
    ∃ distance path,
      dijkstra 4 chainRound4 0 3 [⊤, ⊤, ⊤, ⊤] [7, 7, 7, 7] = some (0, distance, path) ∧
      rd path 0 = some 0 ∧ rd distance 0 = some 0 ∧
      ∀ v d, rd distance v = some d → d ≠ ⊤ →
        ∃ n : Nat, (n : Int) < chainRound4.V ∧ PathChain chainRound4 0 path n v d :=
  ⟨chainRound4_valid, by decide, by decide, by decide, by decide, by decide, by decide,
    C8_predecessor_chain chainRound4 chainRound4_valid 0 3 (by decide) (by decide)
      [⊤, ⊤, ⊤, ⊤] [7, 7, 7, 7] (by decide) (by decide) (by decide) 4 (by decide)⟩

/-- **C8, counterexample.** On the chain `0 → 1 → 2` with the `float` weights 16777216
and 1, `root = 0`, `goal = 2`, the kernel returns `distance[2] = 16777216`, which
is finite, and the predecessor chain `2, 1, 0`; the edges of that chain have the
weights 16777216 and 1, whose sum 16777217 is not `distance[2]` (the values are
compared as multiples of `2^-149`). -/
theorem C8_counterexample :
    chainRound3.Valid ∧ (∀ d ∈ ([⊤, ⊤, ⊤] : List F32), d = ⊤) ∧
    dijkstra 3 chainRound3 0 2 [⊤, ⊤, ⊤] [7, 7, 7]
      = some (0, [0, F32.ofNat 16777216, F32.ofNat 16777216], [0, 0, 1]) ∧
    F32.ofNat 16777216 ≠ ⊤ ∧ followPath [0, 0, 1] 2 2 = some [2, 1, 0] ∧
    chainRound3.HasEdge 0 1 (F32.ofNat 16777216) ∧ chainRound3.HasEdge 1 2 (F32.ofNat 1) ∧
    (F32.ofNat 16777216).toUnits + (F32.ofNat 1).toUnits ≠ (F32.ofNat 16777216).toUnits :=
  ⟨chainRound3_valid, by decide, by decide, by decide, by decide, ⟨0, by decide⟩,
    ⟨1, by decide⟩, by decide⟩

/-- C11 at a concrete input: the chain with weights 1, 2, 3, 4, `root = 0`, `goal = 4`,
where the loop runs exactly `V = 5` iterations. -/
theorem C11_loop_expands_each_vertex_once_witness :
    chain5.Valid ∧ (0 : Int) ≤ 0 ∧ (0 : Int) < chain5.V ∧
    (([⊤, ⊤, ⊤, ⊤, ⊤] : List ℕ∞).length : Int) = chain5.V ∧
    (([7, 7, 7, 7, 7] : List Int).length : Int) = chain5.V ∧
    ∃ trace : List Int, trace.Nodup ∧ (trace.length : Int) ≤ chain5.V ∧
      (∀ v ∈ trace, 0 ≤ v ∧ v < chain5.V) ∧
      ∀ fuel, trace.length ≤ fuel →
        dijkstra_expanded fuel chain5 0 4 [⊤, ⊤, ⊤, ⊤, ⊤] [7, 7, 7, 7, 7] = some trace ∧
        ∃ distance path,
          dijkstra fuel chain5 0 4 [⊤, ⊤, ⊤, ⊤, ⊤] [7, 7, 7, 7, 7] = some (0, distance, path) :=
  ⟨chain5_valid, by decide, by decide, by decide, by decide,
    C11_loop_expands_each_vertex_once chain5 chain5_valid 0 4 (by decide) (by decide)
      [⊤, ⊤, ⊤, ⊤, ⊤] [7, 7, 7, 7, 7] (by decide) (by decide)⟩

/-- On the chain of 5 vertices from 0 to 4 the loop expands 0, 1, 2, 3, 4: five
iterations, and four iterations of fuel are not enough. -/
theorem chain5_expanded :
    dijkstra_expanded 5 chain5 0 4 [⊤, ⊤, ⊤, ⊤, ⊤] [7, 7, 7, 7, 7] = some [0, 1, 2, 3, 4] ∧
    dijkstra_expanded 4 chain5 0 4 [⊤, ⊤, ⊤, ⊤, ⊤] [7, 7, 7, 7, 7] = none :=
  ⟨by decide, by decide⟩

/-! ### Claim about `Main` (C9) -/

/-- **C9 (amended).** For every configuration name other than `greedy_walk`,
`beam_search` and `iproduct_ubmk`, `Main` takes its explicit `else` branch: it
returns 0, the same value as a successful run, without constructing a factory
or a runner and without running anything. -/
theorem C9_unknown_name_returns_zero (name : String) (h1 : name ≠ "greedy_walk")
    (h2 : name ≠ "beam_search") (h3 : name ≠ "iproduct_ubmk") :
    Main name = { rc := 0, ran := none } := by
  simp only [Main, if_neg h1, if_neg h2, if_neg h3]

/-- C9 (amended) at a concrete input: the name `no_such_variant`. -/
theorem C9_unknown_name_returns_zero_witness :
    unknownName ≠ "greedy_walk" ∧ unknownName ≠ "beam_search" ∧
    unknownName ≠ "iproduct_ubmk" ∧ Main unknownName = { rc := 0, ran := none } :=
  ⟨by decide, by decide, by decide,
    C9_unknown_name_returns_zero unknownName (by decide) (by decide) (by decide)⟩

/-- **C9, counterexample.** The unknown name `no_such_variant` makes `Main` return 0,
which is also what it returns for the recognised name `greedy_walk`. -/
theorem C9_counterexample :
    unknownName ≠ "greedy_walk" ∧ unknownName ≠ "beam_search" ∧
    unknownName ≠ "iproduct_ubmk" ∧ (Main unknownName).rc = 0 ∧
    (Main unknownName).rc = (Main "greedy_walk").rc := by
  decide

/-! ### Claim about the CSR conversion (C10) -/

section CSRClaims
variable {α : Type} [Zero α] [DecidableEq α]

/-- **C10.** For every dense `M x N` matrix `A` (row-major, with `M * N` small enough
for the C `int` and `uint32_t` arithmetic of the source not to overflow), the
CSR conversion produces `(vals, rows, cols)` with `rows` of length `M + 1`,
`rows[0] == 0`, `rows` non-decreasing, `rows[M] == |vals| == |cols|`; decoding
it reproduces `A` exactly, and the `(column, value)` list of each row is exactly
that row's non-zero entries in increasing column order. -/
theorem C10_csr_roundtrip (A : List α) (M N : Nat) (hA : A.length = M * N)
    (hMN : M * N < 2 ^ 31) :
    ∃ c, csr_encode A M N = some c ∧ c.rows.length = M + 1 ∧ c.rows[0]? = some 0 ∧
      c.rows.Pairwise (fun a b => a ≤ b) ∧ c.rows[M]? = some c.vals.length ∧
      c.cols.length = c.vals.length ∧ c.decode M N = A ∧
      ∀ i, i < M → c.row i = rowEntries A N i := by
  have hrow : ∀ i, i < M →
      (CSR.row { vals := (allEntries A N M).map Prod.snd
                 rows := (List.range (M + 1)).map fun i => (allEntries A N i).length
                 cols := (allEntries A N M).map Prod.fst
                 pair_index := (allEntries A N M).length } i) = rowEntries A N i := by
    intro i hi
    simp only [CSR.row, zip_fst_snd]
    rw [getD_map_range _ _ _ (by omega), getD_map_range _ _ _ (by omega)]
    exact allEntries_slice A N M i hi
  refine ⟨_, csr_outer_fold A M N hA hMN M (le_refl _), by simp, ?_, ?_, ?_, by simp, ?_, hrow⟩
  · simp only
    rw [List.getElem?_map, List.getElem?_range (by omega)]
    rfl
  · exact List.pairwise_map.2
      ((List.pairwise_lt_range _).imp (fun h => allEntries_length_mono A N (le_of_lt h)))
  · simp only
    rw [List.getElem?_map, List.getElem?_range (by omega), List.length_map]
    rfl
  · simp only [CSR.decode]
    rw [flatMap_congr_mem _ _ (fun i => (List.range N).map fun j => A.getD (i * N + j) 0)]
    · rw [dense_rows, ← hA, map_getD_range]
    · intro i hi
      apply List.map_congr_left
      intro j hj
      have hi' : i < M := List.mem_range.1 hi
      have hj' : j < N := List.mem_range.1 hj
      simp only [CSR.entry]
      rw [hrow i hi', rowEntries_eq, prefixEntries_find]
      by_cases hv : A.getD (i * N + j) 0 ≠ 0
      · rw [if_pos ⟨hj', hv⟩]
      · rw [if_neg (fun h => hv h.2)]
        simp only
        exact (not_not.1 hv).symm

end CSRClaims

/-- C10 at a concrete input: a `4 x 3` integer matrix. -/
theorem C10_csr_roundtrip_witness :
    dense43.length = 4 * 3 ∧ 4 * 3 < 2 ^ 31 ∧
    ∃ c, csr_encode dense43 4 3 = some c ∧ c.rows.length = 4 + 1 ∧ c.rows[0]? = some 0 ∧
      c.rows.Pairwise (fun a b => a ≤ b) ∧ c.rows[4]? = some c.vals.length ∧
      c.cols.length = c.vals.length ∧ c.decode 4 3 = dense43 ∧
      ∀ i, i < 4 → c.row i = rowEntries dense43 3 i :=
  ⟨by decide, by decide, C10_csr_roundtrip dense43 4 3 (by decide) (by decide)⟩

/-- The CSR form of the `4 x 3` example. -/
theorem dense43_csr :
    (csr_encode dense43 4 3).map (fun c => (c.vals, c.rows, c.cols)) =
      some ([5, 7, 1, 2, 3], [0, 1, 2, 2, 5], [1, 0, 0, 1, 2]) := by
  decide
